import Mathlib

/-!
# Perceptron training (`Libs/Percepton/Inc/Percepton.hpp`)

A shallow embedding of `Perceptron`, `perceptronCriterionAlgorithm` and
`relaxationAlgorithm`, in two arithmetics.

* Exact arithmetic: `double` is embedded as `ℚ`.  This embedding carries the statements
  made for exact arithmetic.  A division whose divisor is zero has no exact value; the
  exact model stops there with `Error.divisionByZero`.  The source itself never throws
  at a division.
* The arithmetic of `double`: the namespace `Gen` holds the same code over an abstract
  arithmetic `Arith D`, the operations and literals the procedures apply to `double`,
  with no law assumed.  A theorem proved for every `Arith D` holds of IEEE 754 binary64
  with its rounding, infinities and NaN.  `binary64` is a model of that arithmetic
  (round to nearest even, underflow, overflow, infinities, NaN; division never throws)
  for the statements about special values and about concrete runs.
* A C++ exception is embedded as a value of `Error`; an operation that can throw
  returns `Except Error _`.
* The two training procedures mutate the perceptron through a reference.  They are
  embedded as functions to an `Outcome`: the perceptron as the call leaves it
  (also when it throws) together with either the error thrown or the final value
  of the local variables `in_temp`, `Y` and `iter`.
* `Matrix.hpp` and `Matrix_tools.hpp` are not among the sources; the container
  operations the procedures invoke are modelled from the specification of the
  matrix primitive.
-/

namespace Percepton

variable {α : Type}

/-! ## The program -/

/-- The error kinds the procedures and the matrix primitive fail with. -/
inductive Error where
  | invalidArgument
  | sizeMismatch
  | dimensionMismatch
  | outOfRange
  | divisionByZero
  deriving DecidableEq

/-- Modelled from the spec: the matrix container of `Matrix.hpp` (the header is
missing from the sources).  A matrix is its column count and its rows in order; the
row count is the number of rows stored. -/
structure Matrix (α : Type) where
  cols_ : Nat
  data : List (List α)
  deriving DecidableEq

/-- Modelled from the spec: `getRowsCount()` of the missing `Matrix.hpp`. -/
def Matrix.getRowsCount (m : Matrix α) : Nat := m.data.length

/-- Modelled from the spec: the public member `rows_` of the missing `Matrix.hpp`. -/
def Matrix.rows_ (m : Matrix α) : Nat := m.data.length

/-- Modelled from the spec: `getColsCount()` of the missing `Matrix.hpp`. -/
def Matrix.getColsCount (m : Matrix α) : Nat := m.cols_

/-- Modelled from the spec: the constructor `Matrix(rows, cols, fill)` of the
missing `Matrix.hpp`. -/
def Matrix.fill (rows cols : Nat) (x : α) : Matrix α :=
  ⟨cols, List.replicate rows (List.replicate cols x)⟩

/-- Modelled from the spec: the constructor `Matrix(rows, cols, flat-data)` of the
missing `Matrix.hpp`, row-major; "fails with a size-mismatch error if flat-data
length ≠ rows×cols". -/
def Matrix.ofData (rows cols : Nat) (flat : List α) : Except Error (Matrix α) :=
  if flat.length ≠ rows * cols then .error .sizeMismatch
  else .ok ⟨cols, (List.range rows).map (fun r => (flat.drop (r * cols)).take cols)⟩

/-- Modelled from the spec: `at(row, col)` of the missing `Matrix.hpp`, read access,
checked ("fails with an out-of-range error"). -/
def Matrix.at_ (m : Matrix α) (r c : Nat) : Except Error α :=
  match m.data[r]? with
  | none => .error .outOfRange
  | some row =>
    match row[c]? with
    | none => .error .outOfRange
    | some x => .ok x

/-- Modelled from the spec: `at(row, col) = x` of the missing `Matrix.hpp`, write
access through the returned reference, checked. -/
def Matrix.setAt (m : Matrix α) (r c : Nat) (x : α) : Except Error (Matrix α) :=
  match m.data[r]? with
  | none => .error .outOfRange
  | some row =>
    if c < row.length then .ok ⟨m.cols_, m.data.set r (row.set c x)⟩
    else .error .outOfRange

/-- Modelled from the spec: `at(index)` of the missing `Matrix.hpp`, the element at
a row-major flat index. -/
def Matrix.atFlat (m : Matrix α) (i : Nat) : Except Error α :=
  m.at_ (i / m.cols_) (i % m.cols_)

/-- Modelled from the spec: `at(index) = x` of the missing `Matrix.hpp`. -/
def Matrix.setAtFlat (m : Matrix α) (i : Nat) (x : α) : Except Error (Matrix α) :=
  m.setAt (i / m.cols_) (i % m.cols_) x

/-- Modelled from the spec: `getRow(i)` of the missing `Matrix.hpp`. -/
def Matrix.getRow (m : Matrix α) (i : Nat) : Except Error (List α) :=
  match m.data[i]? with
  | none => .error .outOfRange
  | some row => .ok row

/-- Modelled from the spec: `getRows()` of the missing `Matrix.hpp`. -/
def Matrix.getRows (m : Matrix α) : List (List α) := m.data

/-- Modelled from the spec: `push_backRow(row)` of the missing `Matrix.hpp`;
"appends a row, fails if row length ≠ column count". -/
def Matrix.push_backRow (m : Matrix α) (row : List α) : Except Error (Matrix α) :=
  if row.length ≠ m.cols_ then .error .dimensionMismatch
  else .ok ⟨m.cols_, m.data ++ [row]⟩

/-- Modelled from the spec: `swapRows(i, j)` of the missing `Matrix.hpp`;
"exchanges two rows in place". -/
def Matrix.swapRows (m : Matrix α) (i j : Nat) : Except Error (Matrix α) :=
  match m.data[i]?, m.data[j]? with
  | some ri, some rj => .ok ⟨m.cols_, (m.data.set i rj).set j ri⟩
  | _, _ => .error .outOfRange

/-- Column `j` of a matrix, top to bottom. -/
def Matrix.getCol (m : Matrix α) (j : Nat) : List α :=
  m.data.filterMap (fun row => row[j]?)

/-- The columns of a matrix, left to right. -/
def Matrix.columns (m : Matrix α) : List (List α) :=
  (List.range m.cols_).map m.getCol

/-- Modelled from the spec: `transpose()` of the missing `Matrix.hpp`. -/
def Matrix.transpose (m : Matrix α) : Matrix α :=
  ⟨m.data.length, m.columns⟩

/-- Row-by-column dot product. -/
def Matrix.dot (a b : List ℚ) : ℚ := (List.zipWith (fun x y => x * y) a b).sum

/-- Modelled from the spec: `operator*` (matrix multiplication) of the missing
`Matrix.hpp`; "standard row-by-column dot product; fails with a dimension-mismatch
error if left.cols ≠ right.rows". -/
def Matrix.mul (a b : Matrix ℚ) : Except Error (Matrix ℚ) :=
  if a.cols_ ≠ b.data.length then .error .dimensionMismatch
  else .ok ⟨b.cols_, a.data.map (fun row => b.columns.map (fun col => dot row col))⟩

/-- Modelled from the spec: `operator*` (scalar) of the missing `Matrix.hpp`. -/
def Matrix.scale (m : Matrix ℚ) (s : ℚ) : Matrix ℚ :=
  ⟨m.cols_, m.data.map (fun row => row.map (fun x => x * s))⟩

/-- Modelled from the spec: `operator+=` of the missing `Matrix.hpp`; "elementwise
add, matching dimensions: fails on dimension mismatch". -/
def Matrix.addAssign (a b : Matrix ℚ) : Except Error (Matrix ℚ) :=
  if a.data.length ≠ b.data.length ∨ a.cols_ ≠ b.cols_ then .error .dimensionMismatch
  else .ok ⟨a.cols_, List.zipWith (fun ra rb => List.zipWith (fun x y => x + y) ra rb) a.data b.data⟩

/-- Modelled from the spec: `operator<` (scalar threshold) of the missing
`Matrix.hpp`; "each cell is `element < threshold`". -/
def Matrix.lt (m : Matrix ℚ) (threshold : ℚ) : Matrix Bool :=
  ⟨m.cols_, m.data.map (fun row => row.map (fun x => decide (x < threshold)))⟩

/-- The entries of a row at which the mask is true. -/
def Matrix.filterMask : List α → List Bool → List α
  | x :: xs, b :: bs => if b then x :: filterMask xs bs else filterMask xs bs
  | _, _ => []

/-- Modelled from the spec: `operator|` of the missing `Matrix.hpp`; "given a boolean
row mask of length = column count, returns a new matrix containing only the columns
where the mask is true, preserving row order and original row count". -/
def Matrix.filterCols (m : Matrix α) (mask : List Bool) : Except Error (Matrix α) :=
  if mask.length ≠ m.cols_ then .error .dimensionMismatch
  else .ok ⟨mask.count true, m.data.map (fun row => filterMask row mask)⟩

/-- Modelled from the spec: `Matrix_tools::power` of the missing `Matrix_tools.hpp`;
"returns elementwise square of M". -/
def Matrix.power (m : Matrix ℚ) : Matrix ℚ :=
  ⟨m.cols_, m.data.map (fun row => row.map (fun x => x * x))⟩

/-- Modelled from the spec: `Matrix_tools::sumCols` of the missing
`Matrix_tools.hpp`; "a 1×cols row matrix where entry c = sum over all rows r of
M(r,c)". -/
def Matrix.sumCols (m : Matrix ℚ) : Matrix ℚ :=
  ⟨m.cols_, [m.columns.map (fun col => col.sum)]⟩

/-- The C++ loop `for (i = 0; i < n; ++i) body`, threading the variables the body
assigns and stopping at the first error. -/
def forLoop {σ : Type} (n : Nat) (body : Nat → σ → Except Error σ) (s : σ) : Except Error σ :=
  (List.range n).foldlM (fun acc i => body i acc) s

/-- Exact division; a zero divisor has no exact quotient, and the exact model stops with
`divisionByZero`.  The division of the source is plain `double` division, which never
throws: see `Gen.sumofRelaxation` and `Double.div`. -/
def divide (x y : ℚ) : Except Error ℚ :=
  if y = 0 then .error .divisionByZero else .ok (x / y)

/-- The struct `Perceptron`. -/
structure Perceptron where
  numberOfInputs : Nat
  v : Matrix ℚ
  cv : Matrix ℚ
  deriving DecidableEq

/-- The constructor `Perceptron::Perceptron`; `dist wi` is the value the random
distribution yields at the draw for weight `wi`. -/
def Perceptron.new (dist : Nat → ℚ) : Except Error Perceptron := do
  let numberOfInputs := 2
  let v : Matrix ℚ := Matrix.fill (numberOfInputs + 1) 1 1
  let v ← forLoop v.rows_ (fun wi v => v.setAtFlat wi (dist wi)) v
  .ok ⟨numberOfInputs, v, v⟩

/-- The local variables of a training procedure when it returns. -/
structure Locals where
  in_temp : Matrix ℚ
  Y : Matrix ℚ
  iter : Nat
  deriving DecidableEq

/-- How a call of a training procedure ends: the perceptron it leaves behind, and the
error thrown or the locals at the normal return. -/
structure Outcome where
  perceptron : Perceptron
  result : Except Error Locals

/-- Lines 62-67 (and 112-117): the working matrix `in_temp` after the two row swaps. -/
def buildInTemp (inputs : Matrix ℚ) (labels : List ℚ) : Except Error (Matrix ℚ) := do
  let in_temp ← Matrix.ofData 1 labels.length labels
  let in_temp ← inputs.getRows.foldlM (fun m r => m.push_backRow r) in_temp
  let in_temp ← in_temp.swapRows 0 2
  in_temp.swapRows 0 1

/-- Lines 68-77 (and 118-127): the sign normalization loop. -/
def signNormalize (in_temp : Matrix ℚ) : Except Error (Matrix ℚ) :=
  forLoop in_temp.getColsCount (fun l m => do
    let label ← m.at_ 2 l
    if label < 0 then
      forLoop (m.getRowsCount - 1) (fun dr m => do
        let x ← m.at_ dr l
        m.setAt dr l (x * (-1))) m
    else .ok m) in_temp

/-- Lines 62-77 (and 112-127): the sign-normalized working matrix `in_temp`. -/
def prepareInTemp (inputs : Matrix ℚ) (labels : List ℚ) : Except Error (Matrix ℚ) :=
  (buildInTemp inputs labels).bind signNormalize

/-- Lines 78-79 and 95-96 (and 128-129, 146-147): `Y_filter` and `Y` for the current
weights, with exact weighted sums.  The comparison of the rounded `double` sums is
`Gen.misclassified`. -/
def misclassified (perceptron : Perceptron) (in_temp : Matrix ℚ) (threshold : ℚ) :
    Except Error (Matrix ℚ) := do
  let scores ← perceptron.v.transpose.mul in_temp
  let Y_filter := scores.lt threshold
  let mask ← Y_filter.getRow 0
  in_temp.filterCols mask

/-- Lines 83-93: the lambda `sumof` of `perceptronCriterionAlgorithm`. -/
def sumof (perceptron : Perceptron) (inp : Matrix ℚ) : Except Error (Matrix ℚ) :=
  let sum : Matrix ℚ := Matrix.fill perceptron.v.getRowsCount 1 0
  forLoop sum.getRowsCount (fun r sum =>
    forLoop inp.getColsCount (fun c sum => do
      let x ← inp.at_ r c
      let s ← sum.at_ r 0
      sum.setAt r 0 (s + x)) sum) sum

/-- Lines 81-97: the training loop of `perceptronCriterionAlgorithm`; `fuel` is
`maxIter - iter`. -/
def criterionLoop (in_temp : Matrix ℚ) (learningRate : ℚ) :
    Nat → Nat → Perceptron → Matrix ℚ → Outcome
  | 0, iter, perceptron, Y => ⟨perceptron, .ok ⟨in_temp, Y, iter⟩⟩
  | fuel + 1, iter, perceptron, Y =>
    if Y.getColsCount = 0 then ⟨perceptron, .ok ⟨in_temp, Y, iter⟩⟩
    else
      match (sumof perceptron Y).bind (fun s => perceptron.v.addAssign (s.scale learningRate)) with
      | .error e => ⟨perceptron, .error e⟩
      | .ok v =>
        let perceptron := { perceptron with v := v }
        match misclassified perceptron in_temp 0 with
        | .error e => ⟨perceptron, .error e⟩
        | .ok Y => criterionLoop in_temp learningRate fuel (iter + 1) perceptron Y

/-- The procedure `perceptronCriterionAlgorithm`. -/
def perceptronCriterionAlgorithm (perceptron : Perceptron) (inputs : Matrix ℚ)
    (labels : List ℚ) (maxIter : Nat) (learningRate : ℚ) : Outcome :=
  if inputs.getRowsCount ≠ perceptron.numberOfInputs then ⟨perceptron, .error .invalidArgument⟩
  else if labels.length ≠ inputs.getColsCount then ⟨perceptron, .error .invalidArgument⟩
  else
    match prepareInTemp inputs labels with
    | .error e => ⟨perceptron, .error e⟩
    | .ok in_temp =>
      match misclassified perceptron in_temp 0 with
      | .error e => ⟨perceptron, .error e⟩
      | .ok Y => criterionLoop in_temp learningRate maxIter 0 perceptron Y

/-- Lines 132-144: the lambda `sumof` of `relaxationAlgorithm`, in exact arithmetic.  At
a zero squared norm the exact model stops with `divisionByZero`; the source computes an
infinity or NaN there and goes on, see `Gen.sumofRelaxation`. -/
def sumofRelaxation (perceptron : Perceptron) (inp : Matrix ℚ) (b : ℚ) :
    Except Error (Matrix ℚ) := do
  let sum : Matrix ℚ := Matrix.fill perceptron.v.getRowsCount 1 0
  let in2 := inp.power.sumCols
  let criteria ← perceptron.v.transpose.mul inp
  forLoop sum.getRowsCount (fun r sum =>
    forLoop inp.getColsCount (fun c sum => do
      let crit ← criteria.atFlat c
      let norm ← in2.atFlat c
      let q ← divide (b - crit) norm
      let x ← inp.at_ r c
      let s ← sum.at_ r 0
      sum.setAt r 0 (s + q * x)) sum) sum

/-- Lines 130-148: the training loop of `relaxationAlgorithm`; `fuel` is
`maxIter - iter`. -/
def relaxationLoop (in_temp : Matrix ℚ) (learningRate biasValue : ℚ) :
    Nat → Nat → Perceptron → Matrix ℚ → Outcome
  | 0, iter, perceptron, Y => ⟨perceptron, .ok ⟨in_temp, Y, iter⟩⟩
  | fuel + 1, iter, perceptron, Y =>
    if Y.getColsCount = 0 then ⟨perceptron, .ok ⟨in_temp, Y, iter⟩⟩
    else
      match (sumofRelaxation perceptron Y biasValue).bind
          (fun s => perceptron.v.addAssign (s.scale learningRate)) with
      | .error e => ⟨perceptron, .error e⟩
      | .ok v =>
        let perceptron := { perceptron with v := v }
        match misclassified perceptron in_temp biasValue with
        | .error e => ⟨perceptron, .error e⟩
        | .ok Y => relaxationLoop in_temp learningRate biasValue fuel (iter + 1) perceptron Y

/-- The procedure `relaxationAlgorithm`. -/
def relaxationAlgorithm (perceptron : Perceptron) (inputs : Matrix ℚ)
    (labels : List ℚ) (maxIter : Nat) (learningRate biasValue : ℚ) : Outcome :=
  if inputs.getRowsCount ≠ perceptron.numberOfInputs then ⟨perceptron, .error .invalidArgument⟩
  else if labels.length ≠ inputs.getColsCount then ⟨perceptron, .error .invalidArgument⟩
  else
    match prepareInTemp inputs labels with
    | .error e => ⟨perceptron, .error e⟩
    | .ok in_temp =>
      match misclassified perceptron in_temp biasValue with
      | .error e => ⟨perceptron, .error e⟩
      | .ok Y => relaxationLoop in_temp learningRate biasValue maxIter 0 perceptron Y

/-! ## The program over the arithmetic of `double`

The embedding above computes in exact rational arithmetic; it serves the claims that
stipulate exact arithmetic.  The embedding of this section is the same code with
`double` kept abstract: a type `D` and the operations and literals the procedures apply
to it.  Nothing is assumed about the operations, so every theorem proved for all `Arith D`
holds of IEEE 754 binary64 with its rounding, infinities and NaN.  A division is the plain
operation `div`: as in the source, it never throws. -/

/-- The operations and literals of `double` that the procedures use: the literals `0.0`
(also `0ull` converted), `1.0` and `-1.0`, the operators `+`, `-`, `*`, `/` and the
comparison `<`. -/
structure Arith (D : Type) where
  zero : D
  one : D
  negOne : D
  add : D → D → D
  sub : D → D → D
  mul : D → D → D
  div : D → D → D
  lt : D → D → Bool

namespace Gen

variable {D : Type}

/-- Row-by-column dot product, accumulated from `0.0` left to right. -/
def dot (A : Arith D) (a b : List D) : D := (List.zipWith A.mul a b).foldl A.add A.zero

/-- Modelled from the spec: `operator*` (matrix multiplication) of the missing
`Matrix.hpp`; "standard row-by-column dot product; fails with a dimension-mismatch
error if left.cols ≠ right.rows". -/
def mul (A : Arith D) (a b : Matrix D) : Except Error (Matrix D) :=
  if a.cols_ ≠ b.data.length then .error .dimensionMismatch
  else .ok ⟨b.cols_, a.data.map (fun row => b.columns.map (fun col => dot A row col))⟩

/-- Modelled from the spec: `operator*` (scalar) of the missing `Matrix.hpp`. -/
def scale (A : Arith D) (m : Matrix D) (s : D) : Matrix D :=
  ⟨m.cols_, m.data.map (fun row => row.map (fun x => A.mul x s))⟩

/-- Modelled from the spec: `operator+=` of the missing `Matrix.hpp`; "elementwise
add, matching dimensions: fails on dimension mismatch". -/
def addAssign (A : Arith D) (a b : Matrix D) : Except Error (Matrix D) :=
  if a.data.length ≠ b.data.length ∨ a.cols_ ≠ b.cols_ then .error .dimensionMismatch
  else .ok ⟨a.cols_, List.zipWith (fun ra rb => List.zipWith A.add ra rb) a.data b.data⟩

/-- Modelled from the spec: `operator<` (scalar threshold) of the missing
`Matrix.hpp`; "each cell is `element < threshold`". -/
def lt (A : Arith D) (m : Matrix D) (threshold : D) : Matrix Bool :=
  ⟨m.cols_, m.data.map (fun row => row.map (fun x => A.lt x threshold))⟩

/-- Modelled from the spec: `Matrix_tools::power` of the missing `Matrix_tools.hpp`;
"returns elementwise square of M". -/
def power (A : Arith D) (m : Matrix D) : Matrix D :=
  ⟨m.cols_, m.data.map (fun row => row.map (fun x => A.mul x x))⟩

/-- Modelled from the spec: `Matrix_tools::sumCols` of the missing
`Matrix_tools.hpp`; "a 1×cols row matrix where entry c = sum over all rows r of
M(r,c)", accumulated from `0.0` top to bottom. -/
def sumCols (A : Arith D) (m : Matrix D) : Matrix D :=
  ⟨m.cols_, [m.columns.map (fun col => col.foldl A.add A.zero)]⟩

/-- The struct `Perceptron`. -/
structure Perceptron (D : Type) where
  numberOfInputs : Nat
  v : Matrix D
  cv : Matrix D

/-- The constructor `Perceptron::Perceptron`; `dist wi` is the value the random
distribution yields at the draw for weight `wi`. -/
def Perceptron.new (A : Arith D) (dist : Nat → D) : Except Error (Perceptron D) := do
  let numberOfInputs := 2
  let v : Matrix D := Matrix.fill (numberOfInputs + 1) 1 A.one
  let v ← forLoop v.rows_ (fun wi v => v.setAtFlat wi (dist wi)) v
  .ok ⟨numberOfInputs, v, v⟩

/-- The local variables of a training procedure when it returns. -/
structure Locals (D : Type) where
  in_temp : Matrix D
  Y : Matrix D
  iter : Nat

/-- How a call of a training procedure ends: the perceptron it leaves behind, and the
error thrown or the locals at the normal return. -/
structure Outcome (D : Type) where
  perceptron : Perceptron D
  result : Except Error (Locals D)

/-- Lines 62-67 (and 112-117): the working matrix `in_temp` after the two row swaps. -/
def buildInTemp (inputs : Matrix D) (labels : List D) : Except Error (Matrix D) := do
  let in_temp ← Matrix.ofData 1 labels.length labels
  let in_temp ← inputs.getRows.foldlM (fun m r => m.push_backRow r) in_temp
  let in_temp ← in_temp.swapRows 0 2
  in_temp.swapRows 0 1

/-- Lines 68-77 (and 118-127): the sign normalization loop. -/
def signNormalize (A : Arith D) (in_temp : Matrix D) : Except Error (Matrix D) :=
  forLoop in_temp.getColsCount (fun l m => do
    let label ← m.at_ 2 l
    if A.lt label A.zero then
      forLoop (m.getRowsCount - 1) (fun dr m => do
        let x ← m.at_ dr l
        m.setAt dr l (A.mul x A.negOne)) m
    else .ok m) in_temp

/-- Lines 62-77 (and 112-127): the sign-normalized working matrix `in_temp`. -/
def prepareInTemp (A : Arith D) (inputs : Matrix D) (labels : List D) :
    Except Error (Matrix D) :=
  (buildInTemp inputs labels).bind (signNormalize A)

/-- Lines 78-79 and 95-96 (and 128-129, 146-147): `Y_filter` and `Y` for the current
weights. -/
def misclassified (A : Arith D) (perceptron : Perceptron D) (in_temp : Matrix D)
    (threshold : D) : Except Error (Matrix D) := do
  let scores ← mul A perceptron.v.transpose in_temp
  let Y_filter := lt A scores threshold
  let mask ← Y_filter.getRow 0
  in_temp.filterCols mask

/-- Lines 83-93: the lambda `sumof` of `perceptronCriterionAlgorithm`. -/
def sumof (A : Arith D) (perceptron : Perceptron D) (inp : Matrix D) :
    Except Error (Matrix D) :=
  let sum : Matrix D := Matrix.fill perceptron.v.getRowsCount 1 A.zero
  forLoop sum.getRowsCount (fun r sum =>
    forLoop inp.getColsCount (fun c sum => do
      let x ← inp.at_ r c
      let s ← sum.at_ r 0
      sum.setAt r 0 (A.add s x)) sum) sum

/-- Lines 83-94: the new value of `perceptron.v` after
`perceptron.v += (sumof(Y) * learningRate)`. -/
def criterionUpdate (A : Arith D) (learningRate : D) (perceptron : Perceptron D)
    (Y : Matrix D) : Except Error (Matrix D) :=
  (sumof A perceptron Y).bind (fun s => addAssign A perceptron.v (scale A s learningRate))

/-- Lines 81-97: the training loop of `perceptronCriterionAlgorithm`; `fuel` is
`maxIter - iter`. -/
def criterionLoop (A : Arith D) (in_temp : Matrix D) (learningRate : D) :
    Nat → Nat → Perceptron D → Matrix D → Outcome D
  | 0, iter, perceptron, Y => ⟨perceptron, .ok ⟨in_temp, Y, iter⟩⟩
  | fuel + 1, iter, perceptron, Y =>
    if Y.getColsCount = 0 then ⟨perceptron, .ok ⟨in_temp, Y, iter⟩⟩
    else
      match criterionUpdate A learningRate perceptron Y with
      | .error e => ⟨perceptron, .error e⟩
      | .ok v =>
        let perceptron := { perceptron with v := v }
        match misclassified A perceptron in_temp A.zero with
        | .error e => ⟨perceptron, .error e⟩
        | .ok Y => criterionLoop A in_temp learningRate fuel (iter + 1) perceptron Y

/-- The procedure `perceptronCriterionAlgorithm`. -/
def perceptronCriterionAlgorithm (A : Arith D) (perceptron : Perceptron D)
    (inputs : Matrix D) (labels : List D) (maxIter : Nat) (learningRate : D) : Outcome D :=
  if inputs.getRowsCount ≠ perceptron.numberOfInputs then ⟨perceptron, .error .invalidArgument⟩
  else if labels.length ≠ inputs.getColsCount then ⟨perceptron, .error .invalidArgument⟩
  else
    match prepareInTemp A inputs labels with
    | .error e => ⟨perceptron, .error e⟩
    | .ok in_temp =>
      match misclassified A perceptron in_temp A.zero with
      | .error e => ⟨perceptron, .error e⟩
      | .ok Y => criterionLoop A in_temp learningRate maxIter 0 perceptron Y

/-- Lines 132-144: the lambda `sumof` of `relaxationAlgorithm`. -/
def sumofRelaxation (A : Arith D) (perceptron : Perceptron D) (inp : Matrix D) (b : D) :
    Except Error (Matrix D) := do
  let sum : Matrix D := Matrix.fill perceptron.v.getRowsCount 1 A.zero
  let in2 := sumCols A (power A inp)
  let criteria ← mul A perceptron.v.transpose inp
  forLoop sum.getRowsCount (fun r sum =>
    forLoop inp.getColsCount (fun c sum => do
      let crit ← criteria.atFlat c
      let norm ← in2.atFlat c
      let x ← inp.at_ r c
      let s ← sum.at_ r 0
      sum.setAt r 0 (A.add s (A.mul (A.div (A.sub b crit) norm) x))) sum) sum

/-- Lines 132-145: the new value of `perceptron.v` after
`perceptron.v += (sumof(Y, biasValue) * learningRate)`. -/
def relaxationUpdate (A : Arith D) (learningRate biasValue : D) (perceptron : Perceptron D)
    (Y : Matrix D) : Except Error (Matrix D) :=
  (sumofRelaxation A perceptron Y biasValue).bind
    (fun s => addAssign A perceptron.v (scale A s learningRate))

/-- Lines 130-148: the training loop of `relaxationAlgorithm`; `fuel` is
`maxIter - iter`. -/
def relaxationLoop (A : Arith D) (in_temp : Matrix D) (learningRate biasValue : D) :
    Nat → Nat → Perceptron D → Matrix D → Outcome D
  | 0, iter, perceptron, Y => ⟨perceptron, .ok ⟨in_temp, Y, iter⟩⟩
  | fuel + 1, iter, perceptron, Y =>
    if Y.getColsCount = 0 then ⟨perceptron, .ok ⟨in_temp, Y, iter⟩⟩
    else
      match relaxationUpdate A learningRate biasValue perceptron Y with
      | .error e => ⟨perceptron, .error e⟩
      | .ok v =>
        let perceptron := { perceptron with v := v }
        match misclassified A perceptron in_temp biasValue with
        | .error e => ⟨perceptron, .error e⟩
        | .ok Y => relaxationLoop A in_temp learningRate biasValue fuel (iter + 1) perceptron Y

/-- The procedure `relaxationAlgorithm`. -/
def relaxationAlgorithm (A : Arith D) (perceptron : Perceptron D) (inputs : Matrix D)
    (labels : List D) (maxIter : Nat) (learningRate biasValue : D) : Outcome D :=
  if inputs.getRowsCount ≠ perceptron.numberOfInputs then ⟨perceptron, .error .invalidArgument⟩
  else if labels.length ≠ inputs.getColsCount then ⟨perceptron, .error .invalidArgument⟩
  else
    match prepareInTemp A inputs labels with
    | .error e => ⟨perceptron, .error e⟩
    | .ok in_temp =>
      match misclassified A perceptron in_temp biasValue with
      | .error e => ⟨perceptron, .error e⟩
      | .ok Y => relaxationLoop A in_temp learningRate biasValue maxIter 0 perceptron Y

end Gen

/-! ## A model of `double`

The values of IEEE 754 binary64 and its operations with round-to-nearest-even, gradual
underflow and overflow to infinity; division by zero, infinities and NaN follow the
standard (no operation throws).  The sign of a zero is not kept: the only divisor of the
program, `in2[c]`, is a sum of squares accumulated from `+0.0`, never `-0.0`. -/

/-- The values of `double`: the finite values (as rationals), the two infinities and
NaN. -/
inductive Double where
  | fin (q : ℚ)
  | posInf
  | negInf
  | nan
  deriving DecidableEq

/-- Rounding of a rational to the nearest integer, ties to the even one. -/
def roundHalfEven (q : ℚ) : ℤ :=
  if q - ⌊q⌋ < 1 / 2 then ⌊q⌋
  else if 1 / 2 < q - ⌊q⌋ then ⌊q⌋ + 1
  else if ⌊q⌋ % 2 = 0 then ⌊q⌋ else ⌊q⌋ + 1

/-- The binary exponent of the binade of `q`, not below the exponent `-1022` of the
subnormal numbers. -/
def Double.binade (q : ℚ) : ℤ := max (Int.log 2 |q|) (-1022)

/-- The `double` nearest to the rational `q` (round to nearest, ties to even): a multiple
of the unit in the last place `2 ^ (binade - 52)` of the 53-bit significand, or an
infinity when the rounded magnitude reaches `2 ^ 1024`. -/
def Double.round (q : ℚ) : Double :=
  let ulp : ℚ := 2 ^ (Double.binade q - 52)
  let r : ℚ := roundHalfEven (q / ulp) * ulp
  if (2 : ℚ) ^ (1024 : ℤ) ≤ |r| then (if 0 < q then .posInf else .negInf) else .fin r

/-- Unary minus of `double`. -/
def Double.neg : Double → Double
  | .fin a => .fin (-a)
  | .posInf => .negInf
  | .negInf => .posInf
  | .nan => .nan

/-- The operator `+` of `double`. -/
def Double.add : Double → Double → Double
  | .fin a, .fin b => Double.round (a + b)
  | .fin _, .posInf => .posInf
  | .fin _, .negInf => .negInf
  | .fin _, .nan => .nan
  | .posInf, .fin _ => .posInf
  | .posInf, .posInf => .posInf
  | .posInf, .negInf => .nan
  | .posInf, .nan => .nan
  | .negInf, .fin _ => .negInf
  | .negInf, .posInf => .nan
  | .negInf, .negInf => .negInf
  | .negInf, .nan => .nan
  | .nan, _ => .nan

/-- The operator `-` of `double`: `x - y` is `x + (-y)`. -/
def Double.sub (x y : Double) : Double := Double.add x (Double.neg y)

/-- The operator `*` of `double`. -/
def Double.mul : Double → Double → Double
  | .fin a, .fin b => Double.round (a * b)
  | .fin a, .posInf => if a = 0 then .nan else if 0 < a then .posInf else .negInf
  | .fin a, .negInf => if a = 0 then .nan else if 0 < a then .negInf else .posInf
  | .fin _, .nan => .nan
  | .posInf, .fin b => if b = 0 then .nan else if 0 < b then .posInf else .negInf
  | .posInf, .posInf => .posInf
  | .posInf, .negInf => .negInf
  | .posInf, .nan => .nan
  | .negInf, .fin b => if b = 0 then .nan else if 0 < b then .negInf else .posInf
  | .negInf, .posInf => .negInf
  | .negInf, .negInf => .posInf
  | .negInf, .nan => .nan
  | .nan, _ => .nan

/-- The operator `/` of `double`; it never throws: a non-zero value over zero is an
infinity, `0 / 0` is NaN. -/
def Double.div : Double → Double → Double
  | .fin a, .fin b =>
    if b = 0 then (if a = 0 then .nan else if 0 < a then .posInf else .negInf)
    else Double.round (a / b)
  | .fin _, .posInf => .fin 0
  | .fin _, .negInf => .fin 0
  | .fin _, .nan => .nan
  | .posInf, .fin b => if 0 ≤ b then .posInf else .negInf
  | .posInf, .posInf => .nan
  | .posInf, .negInf => .nan
  | .posInf, .nan => .nan
  | .negInf, .fin b => if 0 ≤ b then .negInf else .posInf
  | .negInf, .posInf => .nan
  | .negInf, .negInf => .nan
  | .negInf, .nan => .nan
  | .nan, _ => .nan

/-- The operator `<` of `double`; false when an operand is NaN. -/
def Double.lt : Double → Double → Bool
  | .fin a, .fin b => decide (a < b)
  | .fin _, .posInf => true
  | .fin _, .negInf => false
  | .fin _, .nan => false
  | .posInf, _ => false
  | .negInf, .fin _ => true
  | .negInf, .posInf => true
  | .negInf, .negInf => false
  | .negInf, .nan => false
  | .nan, _ => false

/-- The operator `>=` of `double`; false when an operand is NaN. -/
def Double.ge : Double → Double → Bool
  | .fin a, .fin b => decide (b ≤ a)
  | .fin _, .posInf => false
  | .fin _, .negInf => true
  | .fin _, .nan => false
  | .posInf, .nan => false
  | .posInf, _ => true
  | .negInf, .negInf => true
  | .negInf, _ => false
  | .nan, _ => false

/-- The arithmetic of `double`. -/
def binary64 : Arith Double :=
  ⟨.fin 0, .fin 1, .fin (-1), Double.add, Double.sub, Double.mul, Double.div, Double.lt⟩

/-! ## Definitions for the statements and the proofs -/

/-- A weight vector or a sample column with three entries. -/
abbrev V3 : Type := ℚ × ℚ × ℚ

/-- The 3x1 matrix with the given entries. -/
def colVec (w : V3) : Matrix ℚ := ⟨1, [[w.1], [w.2.1], [w.2.2]]⟩

/-- The 3xM matrix with the given columns. -/
def ofTriples (cs : List V3) : Matrix ℚ :=
  ⟨cs.length, [cs.map (fun c => c.1), cs.map (fun c => c.2.1), cs.map (fun c => c.2.2)]⟩

/-- A triple as a column, top to bottom. -/
def toCol (c : V3) : List ℚ := [c.1, c.2.1, c.2.2]

/-- The weighted sum of a column. -/
def score (w c : V3) : ℚ := w.1 * c.1 + w.2.1 * c.2.1 + w.2.2 * c.2.2

/-- The shape predicate of a well-formed `rows` x `cols` matrix. -/
def Matrix.HasShape {α : Type} (m : Matrix α) (rows cols : Nat) : Prop :=
  m.data.length = rows ∧ m.cols_ = cols ∧ ∀ row ∈ m.data, row.length = cols

/-- Three rows of equal length as a list of columns. -/
def zip3 (r0 r1 r2 : List ℚ) : List V3 := List.zip r0 (List.zip r1 r2)

/-- Sign normalization of one column: a column whose label is negative has its other
entries multiplied by -1. -/
def normTriple (c : V3) : V3 :=
  if c.2.2 < 0 then (c.1 * (-1), c.2.1 * (-1), c.2.2) else c

/-- The columns after the first `l` of them went through the normalization loop. -/
def normUpTo (l : Nat) (cs : List V3) : List V3 :=
  cs.mapIdx (fun i c => if i < l then normTriple c else c)

/-- The sum of the given columns, row by row. -/
def sum3 (ys : List V3) : V3 :=
  ((ys.map (fun c => c.1)).sum, (ys.map (fun c => c.2.1)).sum, (ys.map (fun c => c.2.2)).sum)

/-- The weights after `v += correction * learningRate`. -/
def addScaled (w s : V3) (lr : ℚ) : V3 :=
  (w.1 + s.1 * lr, w.2.1 + s.2.1 * lr, w.2.2 + s.2.2 * lr)

/-- The squared norm of a column. -/
def normSq (c : V3) : ℚ := c.1 * c.1 + c.2.1 * c.2.1 + c.2.2 * c.2.2

/-- One relaxation summand: a column scaled by `(b - score) / squared norm`. -/
def relaxTerm (w : V3) (b : ℚ) (c : V3) : V3 :=
  ((b - score w c) / normSq c * c.1, (b - score w c) / normSq c * c.2.1,
    (b - score w c) / normSq c * c.2.2)

/-- The value added to `sum.at(r, 0)` by the inner loop body of the relaxation
`sumof` at column `c`. -/
def relaxSummand (criteria in2 inp : Matrix ℚ) (b : ℚ) (r c : Nat) : Except Error ℚ := do
  let crit ← criteria.atFlat c
  let norm ← in2.atFlat c
  let q ← divide (b - crit) norm
  let x ← inp.at_ r c
  pure (q * x)

/-- The columns whose weighted sum is below the threshold. -/
def misCols (cs : List V3) (thr : ℚ) (w : V3) : List V3 :=
  cs.filter (fun c => decide (score w c < thr))

/-- The weights after one iteration of the perceptron criterion loop. -/
def criterionStep (cs : List V3) (lr : ℚ) (w : V3) : V3 :=
  addScaled w (sum3 (misCols cs 0 w)) lr

/-- The weights after one iteration of the relaxation loop. -/
def relaxationStep (cs : List V3) (lr b : ℚ) (w : V3) : V3 :=
  addScaled w (sum3 ((misCols cs b w).map (relaxTerm w b))) lr

/-- The training loop on weight triples: final weights and final `iter`. -/
def runLoop (step : V3 → V3) (cs : List V3) (thr : ℚ) : Nat → Nat → V3 → V3 × Nat
  | 0, iter, w => (w, iter)
  | fuel + 1, iter, w =>
    if (misCols cs thr w).length = 0 then (w, iter)
    else runLoop step cs thr fuel (iter + 1) (step w)

/-- The outcome that corresponds to a final state of `runLoop`. -/
def outcomeOf (p : Perceptron) (cs : List V3) (thr : ℚ) (r : V3 × Nat) : Outcome :=
  ⟨{ p with v := colVec r.1 }, .ok ⟨ofTriples cs, ofTriples (misCols cs thr r.1), r.2⟩⟩

/-- The sign-normalized sample columns of a 2xM input matrix and its labels. -/
def sampleCols (x1 x2 labels : List ℚ) : List V3 := (zip3 x1 x2 labels).map normTriple

/-- The potential of the convergence argument: the squared distance to a scaled
solution vector. -/
def potential (a : V3) (α : ℚ) (w : V3) : ℚ :=
  normSq (w.1 - α * a.1, w.2.1 - α * a.2.1, w.2.2 - α * a.2.2)

/-- The entry of a matrix at row `r` and column `c` (0 outside the matrix). -/
def Matrix.entry (m : Matrix ℚ) (r c : Nat) : ℚ := (m.data.getD r []).getD c 0

/-- A call with valid shapes: a perceptron as constructed (two inputs, 3x1 weights), a
2xM input matrix and M labels. -/
def ValidCall (p : Perceptron) (inputs : Matrix ℚ) (labels : List ℚ) : Prop :=
  p.numberOfInputs = 2 ∧ p.v.HasShape 3 1 ∧ inputs.HasShape 2 labels.length

/-- The four AND-gate samples, one per column. -/
def andInputs : Matrix ℚ := ⟨4, [[0, 0, 1, 1], [0, 1, 0, 1]]⟩

/-- The AND-gate labels. -/
def andLabels : List ℚ := [-1, -1, -1, 1]

/-- The perceptron the constructor builds when the three draws are `w0`, `w1`, `w2`. -/
def perceptronOf (w0 w1 w2 : ℚ) : Perceptron :=
  ⟨2, colVec (w0, w1, w2), colVec (w0, w1, w2)⟩

/-- One training call, as passed to `Perceptron::train`. -/
inductive TrainingCall where
  | criterion (inputs : Matrix ℚ) (labels : List ℚ) (maxIter : Nat) (learningRate : ℚ)
  | relaxation (inputs : Matrix ℚ) (labels : List ℚ) (maxIter : Nat)
      (learningRate biasValue : ℚ)

/-- The perceptron a training call leaves behind (also when the call throws). -/
def TrainingCall.run (p : Perceptron) : TrainingCall → Perceptron
  | .criterion inputs labels maxIter learningRate =>
    (perceptronCriterionAlgorithm p inputs labels maxIter learningRate).perceptron
  | .relaxation inputs labels maxIter learningRate biasValue =>
    (relaxationAlgorithm p inputs labels maxIter learningRate biasValue).perceptron

/-- The perceptron after a sequence of training calls. -/
def trainAll (p : Perceptron) (calls : List TrainingCall) : Perceptron :=
  calls.foldl TrainingCall.run p

/-- The layout of `in_temp` as the specification words it: `N + 2` rows, a bias row of
ones first, then the feature rows, the labels last. -/
def StatedLayout (inputs : Matrix ℚ) (labels : List ℚ) (T : Matrix ℚ) : Prop :=
  T.getRowsCount = inputs.getRowsCount + 2 ∧
  T.getColsCount = inputs.getColsCount ∧
  T.getRow 0 = .ok (List.replicate inputs.getColsCount 1) ∧
  (∀ i, i < inputs.getRowsCount → T.getRow (i + 1) = inputs.getRow i) ∧
  T.getRow (inputs.getRowsCount + 1) = .ok labels

/-- The layout of `in_temp` the two row swaps produce: `N + 1` rows, the feature rows in
order, the labels last, and no bias row. -/
def SwappedLayout (inputs : Matrix ℚ) (labels : List ℚ) (T : Matrix ℚ) : Prop :=
  T.getRowsCount = inputs.getRowsCount + 1 ∧
  T.getColsCount = inputs.getColsCount ∧
  (∀ i, i < inputs.getRowsCount → T.getRow i = inputs.getRow i) ∧
  T.getRow inputs.getRowsCount = .ok labels

/-- The AND-gate samples as (x1, x2, label). -/
def andSamples : List (ℚ × ℚ × ℚ) := [(0, 0, -1), (0, 1, -1), (1, 0, -1), (1, 1, 1)]

/-- The sign-normalized columns of `in_temp` for the AND-gate data. -/
def andCols : List V3 := [(0, 0, -1), (0, -1, -1), (-1, 0, -1), (1, 1, 1)]

/-- The AND-gate scenario as the specification words it: element 0 of the weight vector
is the bias, elements 1 and 2 multiply the two features, and the sign of the weighted sum
is the label. -/
def StatedAndGate (v : Matrix ℚ) : Prop :=
  ∀ s ∈ andSamples,
    ((SignType.sign (v.entry 0 0 + v.entry 1 0 * s.1 + v.entry 2 0 * s.2.1) : SignType) : ℚ)
      = s.2.2

/-- The strict reading of the AND-gate scenario with the bias in element 2. -/
def StrictAndGate (v : Matrix ℚ) : Prop :=
  ∀ s ∈ andSamples,
    ((SignType.sign (v.entry 0 0 * s.1 + v.entry 1 0 * s.2.1 + v.entry 2 0) : SignType) : ℚ)
      = s.2.2

/-- The entries of a row picked in the order of the sample indices `idx`. -/
def permuteList (idx : List Nat) (xs : List ℚ) : List ℚ :=
  idx.map (fun j => xs.getD j 0)

/-- The matrix whose columns are the columns of `m` picked in the order of `idx`. -/
def permuteCols (idx : List Nat) (m : Matrix ℚ) : Matrix ℚ :=
  ⟨idx.length, m.data.map (permuteList idx)⟩

/-! ## Definitions for the statements and the proofs, arithmetic of `double` -/

namespace Gen

variable {D : Type}

/-- A weight vector or a sample column with three entries. -/
abbrev V3 (D : Type) : Type := D × D × D

/-- The 3x1 matrix with the given entries. -/
def colVec (w : V3 D) : Matrix D := ⟨1, [[w.1], [w.2.1], [w.2.2]]⟩

/-- The 3xM matrix with the given columns. -/
def ofTriples (cs : List (V3 D)) : Matrix D :=
  ⟨cs.length, [cs.map (fun c => c.1), cs.map (fun c => c.2.1), cs.map (fun c => c.2.2)]⟩

/-- A triple as a column, top to bottom. -/
def toCol (c : V3 D) : List D := [c.1, c.2.1, c.2.2]

/-- The weighted sum of a column, as the matrix product accumulates it. -/
def score (A : Arith D) (w c : V3 D) : D :=
  A.add (A.add (A.add A.zero (A.mul w.1 c.1)) (A.mul w.2.1 c.2.1)) (A.mul w.2.2 c.2.2)

/-- Three rows of equal length as a list of columns. -/
def zip3 (r0 r1 r2 : List D) : List (V3 D) := List.zip r0 (List.zip r1 r2)

/-- Sign normalization of one column: a column whose label is negative has its other
entries multiplied by `-1.0`. -/
def normTriple (A : Arith D) (c : V3 D) : V3 D :=
  if A.lt c.2.2 A.zero then (A.mul c.1 A.negOne, A.mul c.2.1 A.negOne, c.2.2) else c

/-- The columns after the first `l` of them went through the normalization loop. -/
def normUpTo (A : Arith D) (l : Nat) (cs : List (V3 D)) : List (V3 D) :=
  cs.mapIdx (fun i c => if i < l then normTriple A c else c)

/-- The sum `((0.0 + f y0) + f y1) + ...` over the given columns, in order. -/
def sumRow (A : Arith D) (f : V3 D → D) (ys : List (V3 D)) : D :=
  ys.foldl (fun acc y => A.add acc (f y)) A.zero

/-- The sum of the given columns, row by row. -/
def sum3 (A : Arith D) (ys : List (V3 D)) : V3 D :=
  (sumRow A (fun c => c.1) ys, sumRow A (fun c => c.2.1) ys, sumRow A (fun c => c.2.2) ys)

/-- The weights after `v += correction * learningRate`. -/
def addScaled (A : Arith D) (w s : V3 D) (lr : D) : V3 D :=
  (A.add w.1 (A.mul s.1 lr), A.add w.2.1 (A.mul s.2.1 lr), A.add w.2.2 (A.mul s.2.2 lr))

/-- The squared norm of a column, as `power` and `sumCols` compute it. -/
def normSq (A : Arith D) (c : V3 D) : D :=
  A.add (A.add (A.add A.zero (A.mul c.1 c.1)) (A.mul c.2.1 c.2.1)) (A.mul c.2.2 c.2.2)

/-- The factor `(b - criteria[c]) / in2[c]` of a column in the relaxation `sumof`. -/
def relaxCoef (A : Arith D) (w : V3 D) (b : D) (c : V3 D) : D :=
  A.div (A.sub b (score A w c)) (normSq A c)

/-- The relaxation correction: the columns scaled by their factors, summed row by row. -/
def relaxSum3 (A : Arith D) (w : V3 D) (b : D) (ys : List (V3 D)) : V3 D :=
  (sumRow A (fun c => A.mul (relaxCoef A w b c) c.1) ys,
    sumRow A (fun c => A.mul (relaxCoef A w b c) c.2.1) ys,
    sumRow A (fun c => A.mul (relaxCoef A w b c) c.2.2) ys)

/-- The value added to `sum.at(r, 0)` by the inner loop body of the relaxation
`sumof` at column `c`. -/
def relaxSummand (A : Arith D) (criteria in2 inp : Matrix D) (b : D) (r c : Nat) :
    Except Error D := do
  let crit ← criteria.atFlat c
  let norm ← in2.atFlat c
  let x ← inp.at_ r c
  pure (A.mul (A.div (A.sub b crit) norm) x)

/-- The columns whose weighted sum is below the threshold. -/
def misCols (A : Arith D) (cs : List (V3 D)) (thr : D) (w : V3 D) : List (V3 D) :=
  cs.filter (fun c => A.lt (score A w c) thr)

/-- The weights after one iteration of the perceptron criterion loop. -/
def criterionStep (A : Arith D) (cs : List (V3 D)) (lr : D) (w : V3 D) : V3 D :=
  addScaled A w (sum3 A (misCols A cs A.zero w)) lr

/-- The weights after one iteration of the relaxation loop. -/
def relaxationStep (A : Arith D) (cs : List (V3 D)) (lr b : D) (w : V3 D) : V3 D :=
  addScaled A w (relaxSum3 A w b (misCols A cs b w)) lr

/-- The training loop on weight triples: final weights and final `iter`. -/
def runLoop (A : Arith D) (step : V3 D → V3 D) (cs : List (V3 D)) (thr : D) :
    Nat → Nat → V3 D → V3 D × Nat
  | 0, iter, w => (w, iter)
  | fuel + 1, iter, w =>
    if (misCols A cs thr w).length = 0 then (w, iter)
    else runLoop A step cs thr fuel (iter + 1) (step w)

/-- The outcome that corresponds to a final state of `runLoop`. -/
def outcomeOf (A : Arith D) (p : Perceptron D) (cs : List (V3 D)) (thr : D)
    (r : V3 D × Nat) : Outcome D :=
  ⟨{ p with v := colVec r.1 }, .ok ⟨ofTriples cs, ofTriples (misCols A cs thr r.1), r.2⟩⟩

/-- The sign-normalized sample columns of a 2xM input matrix and its labels. -/
def sampleCols (A : Arith D) (x1 x2 labels : List D) : List (V3 D) :=
  (zip3 x1 x2 labels).map (normTriple A)

/-- A call with valid shapes: a perceptron as constructed (two inputs, 3x1 weights), a
2xM input matrix and M labels. -/
def ValidCall (p : Perceptron D) (inputs : Matrix D) (labels : List D) : Prop :=
  p.numberOfInputs = 2 ∧ p.v.HasShape 3 1 ∧ inputs.HasShape 2 labels.length

/-- The entry of a matrix at row `r` and column `c` (`0.0` outside the matrix). -/
def entry (A : Arith D) (m : Matrix D) (r c : Nat) : D := (m.data.getD r []).getD c A.zero

/-- The perceptron after `k` executions of the loop body of
`perceptronCriterionAlgorithm` (lines 83-96): each execution takes `Y` for the current
weights and assigns `v += sumof(Y) * learningRate`. -/
def criterionUpdates (A : Arith D) (in_temp : Matrix D) (learningRate : D) :
    Nat → Perceptron D → Except Error (Perceptron D)
  | 0, perceptron => .ok perceptron
  | k + 1, perceptron =>
    (criterionUpdates A in_temp learningRate k perceptron).bind (fun q =>
      (misclassified A q in_temp A.zero).bind (fun Y =>
        (criterionUpdate A learningRate q Y).bind (fun v => .ok { q with v := v })))

/-- The perceptron after `k` executions of the loop body of `relaxationAlgorithm`
(lines 132-147): each execution takes `Y` for the current weights and assigns
`v += sumof(Y, biasValue) * learningRate`. -/
def relaxationUpdates (A : Arith D) (in_temp : Matrix D) (learningRate biasValue : D) :
    Nat → Perceptron D → Except Error (Perceptron D)
  | 0, perceptron => .ok perceptron
  | k + 1, perceptron =>
    (relaxationUpdates A in_temp learningRate biasValue k perceptron).bind (fun q =>
      (misclassified A q in_temp biasValue).bind (fun Y =>
        (relaxationUpdate A learningRate biasValue q Y).bind (fun v => .ok { q with v := v })))

end Gen

namespace Gen

variable {D : Type}

/-- A perceptron with the given weights, as the constructor leaves it (`cv = v`). -/
def perceptronOf (w : V3 D) : Perceptron D := ⟨2, colVec w, colVec w⟩

/-- The four samples of the AND gate as `double` values, one per column. -/
def andInputs64 : Matrix Double :=
  ⟨4, [[.fin 0, .fin 0, .fin 1, .fin 1], [.fin 0, .fin 1, .fin 0, .fin 1]]⟩

/-- The labels of the AND gate as `double` values. -/
def andLabels64 : List Double := [.fin (-1), .fin (-1), .fin (-1), .fin 1]

/-- The sign-normalized columns of the AND gate as `double` values. -/
def andCols64 : List (V3 Double) :=
  [(.fin 0, .fin 0, .fin (-1)), (.fin 0, .fin (-1), .fin (-1)), (.fin (-1), .fin 0, .fin (-1)),
    (.fin 1, .fin 1, .fin 1)]

/-- Two samples, the first with features (0, 0) and label 0. -/
def zeroSampleInputs : Matrix Double := ⟨2, [[.fin 0, .fin 1], [.fin 0, .fin 1]]⟩

/-- The labels of `zeroSampleInputs`. -/
def zeroSampleLabels : List Double := [.fin 0, .fin 1]

/-- The sign-normalized columns of `zeroSampleInputs`. -/
def zeroSampleCols : List (V3 Double) := [(.fin 0, .fin 0, .fin 0), (.fin 1, .fin 1, .fin 1)]

end Gen

/-! ## Lemmas -/

theorem forLoop_zero {σ : Type} (body : Nat → σ → Except Error σ) (s : σ) :
    forLoop 0 body s = .ok s := rfl

/-- One more iteration of a `for` loop runs the body once more on the state reached. -/
theorem forLoop_succ {σ : Type} (n : Nat) (body : Nat → σ → Except Error σ) (s : σ) :
    forLoop (n + 1) body s = (forLoop n body s).bind (body n) := by
  unfold forLoop
  rw [List.range_succ, List.foldlM_append]
  cases h : List.foldlM (fun acc i => body i acc) s (List.range n) with
  | error e => rfl
  | ok s1 =>
    show (List.foldlM (fun acc i => body i acc) s1 [n]) = body n s1
    simp [List.foldlM]

theorem ok_bind {α β : Type} (x : α) (f : α → Except Error β) :
    (Except.ok x >>= f) = f x := rfl

theorem forLoop_three {σ : Type} (body : Nat → σ → Except Error σ) (s : σ) :
    forLoop 3 body s = ((body 0 s).bind (body 1)).bind (body 2) := by
  rw [show (3 : Nat) = 0 + 1 + 1 + 1 from rfl, forLoop_succ, forLoop_succ, forLoop_succ,
    forLoop_zero]
  rfl

theorem dot_toCol (w c : V3) : Matrix.dot (toCol w) (toCol c) = score w c := by
  simp [Matrix.dot, toCol, score]; ring

theorem columns_ofTriples (cs : List V3) : (ofTriples cs).columns = cs.map toCol := by
  apply List.ext_getElem
  · simp [Matrix.columns, ofTriples]
  · intro j h1 h2
    have hj : j < cs.length := by simpa using h2
    simp [Matrix.columns, ofTriples, Matrix.getCol, toCol, hj]

theorem columns_colVec (w : V3) : (colVec w).columns = [toCol w] := by
  simp [Matrix.columns, colVec, Matrix.getCol, toCol, List.range_succ]

theorem filterMask_map {α β : Type} (f : α → β) (g : α → Bool) (l : List α) :
    Matrix.filterMask (l.map f) (l.map g) = (l.filter g).map f := by
  induction l with
  | nil => rfl
  | cons a l ih =>
    simp only [List.map_cons, Matrix.filterMask, List.filter_cons]
    cases g a <;> simp [ih]

theorem count_map_true {α : Type} (g : α → Bool) (l : List α) :
    (l.map g).count true = (l.filter g).length := by
  induction l with
  | nil => rfl
  | cons a l ih =>
    simp only [List.map_cons, List.filter_cons, List.count_cons]
    cases h : g a <;> simp [ih]

/-- `Y` for 3x1 weights `w` and a 3xM matrix: the columns whose weighted sum is below the
threshold, in order. -/
theorem misclassified_ofTriples (p : Perceptron) (w : V3) (cs : List V3) (thr : ℚ)
    (hv : p.v = colVec w) :
    misclassified p (ofTriples cs) thr
      = .ok (ofTriples (cs.filter (fun c => decide (score w c < thr)))) := by
  unfold misclassified
  rw [hv]
  simp only [Matrix.transpose, columns_colVec, Matrix.mul, columns_ofTriples]
  have hfun : ((fun x => decide (x < thr)) ∘ (fun col => Matrix.dot (toCol w) col) ∘ toCol)
      = fun c => decide (score w c < thr) := by
    funext c
    simp [dot_toCol]
  simp [colVec, ofTriples, Matrix.lt, Matrix.getRow, Matrix.filterCols, bind, Except.bind, hfun,
    filterMask_map, count_map_true]

theorem hasShape_three_one {m : Matrix ℚ} (h : m.HasShape 3 1) : ∃ w : V3, m = colVec w := by
  obtain ⟨cols, data⟩ := m
  obtain ⟨h1, h2, h3⟩ := h
  simp only at h1 h2 h3
  subst h2
  match data, h1, h3 with
  | [r0, r1, r2], _, h3 =>
    have e0 := h3 r0 (by simp)
    have e1 := h3 r1 (by simp)
    have e2 := h3 r2 (by simp)
    match r0, r1, r2, e0, e1, e2 with
    | [a], [b], [c], _, _, _ => exact ⟨(a, b, c), rfl⟩

theorem colVec_hasShape (w : V3) : (colVec w).HasShape 3 1 := by
  simp [Matrix.HasShape, colVec]

theorem ofTriples_zip3 (r0 r1 r2 : List ℚ) (n : Nat) (h0 : r0.length = n) (h1 : r1.length = n)
    (h2 : r2.length = n) : ofTriples (zip3 r0 r1 r2) = ⟨n, [r0, r1, r2]⟩ := by
  have hz : (List.zip r1 r2).length = n := by simp [h1, h2]
  have e0 : (zip3 r0 r1 r2).map (fun c => c.1) = r0 := by
    unfold zip3
    exact List.map_fst_zip r0 _ (by omega)
  have e12 : (zip3 r0 r1 r2).map (fun c => c.2) = List.zip r1 r2 := by
    unfold zip3
    exact List.map_snd_zip r0 _ (by omega)
  have e1 : (zip3 r0 r1 r2).map (fun c => c.2.1) = r1 := by
    have := congrArg (List.map (fun c : ℚ × ℚ => c.1)) e12
    rw [List.map_map] at this
    rw [List.map_fst_zip r1 r2 (by omega)] at this
    exact this
  have e2 : (zip3 r0 r1 r2).map (fun c => c.2.2) = r2 := by
    have := congrArg (List.map (fun c : ℚ × ℚ => c.2)) e12
    rw [List.map_map] at this
    rw [List.map_snd_zip r1 r2 (by omega)] at this
    exact this
  have hl : (zip3 r0 r1 r2).length = n := by simp [zip3, h0, h1, h2]
  simp [ofTriples, e0, e1, e2, hl]

/-- The working matrix of a 2xM input matrix with rows `x1`, `x2` is `[x1; x2; labels]`. -/
theorem buildInTemp_eq (inputs : Matrix ℚ) (labels x1 x2 : List ℚ) (hd : inputs.data = [x1, x2])
    (h1 : x1.length = labels.length) (h2 : x2.length = labels.length) :
    buildInTemp inputs labels = .ok ⟨labels.length, [x1, x2, labels]⟩ := by
  simp [buildInTemp, Matrix.ofData, Matrix.getRows, hd, List.range_succ, bind, Except.bind,
    Matrix.push_backRow, h1, h2, Matrix.swapRows, pure, Except.pure]

theorem normUpTo_zero (cs : List V3) : normUpTo 0 cs = cs := by
  apply List.ext_getElem
  · simp [normUpTo]
  · intro i h1 h2
    simp [normUpTo]

theorem normUpTo_length (cs : List V3) : normUpTo cs.length cs = cs.map normTriple := by
  apply List.ext_getElem
  · simp [normUpTo]
  · intro i h1 h2
    have hi : i < cs.length := by simpa using h2
    simp [normUpTo, hi]

theorem normUpTo_succ (l : Nat) (cs : List V3) (hl : l < cs.length) :
    (normUpTo l cs).set l (normTriple (cs.get ⟨l, hl⟩)) = normUpTo (l + 1) cs := by
  apply List.ext_getElem
  · simp [normUpTo]
  · intro i h1 h2
    have hi : i < cs.length := by simpa [normUpTo] using h2
    by_cases hil : l = i
    · subst hil
      simp [normUpTo]
    · have h3 : (i < l + 1) = (i < l) := by
        apply propext
        constructor <;> intro h <;> omega
      simp [normUpTo, List.getElem_set_ne hil, h3]

theorem set_getElem_same {α : Type} (xs : List α) (i : Nat) (h : i < xs.length) (a : α)
    (ha : a = xs.get ⟨i, h⟩) : xs.set i a = xs := by
  subst ha
  apply List.ext_getElem
  · simp
  · intro j h1 h2
    by_cases hij : i = j
    · subst hij
      simp
    · simp [List.getElem_set_ne hij]

theorem normalizeBody_ofTriples (ds : List V3) (l : Nat) (hl : l < ds.length) :
    (do
      let label ← (ofTriples ds).at_ 2 l
      if label < 0 then
        forLoop ((ofTriples ds).getRowsCount - 1) (fun dr m => do
          let x ← m.at_ dr l
          m.setAt dr l (x * (-1))) (ofTriples ds)
      else .ok (ofTriples ds) : Except Error (Matrix ℚ))
      = .ok (ofTriples (ds.set l (normTriple (ds.get ⟨l, hl⟩)))) := by
  have hlab : (ofTriples ds).at_ 2 l = .ok (ds.get ⟨l, hl⟩).2.2 := by
    simp [ofTriples, Matrix.at_, hl]
  rw [hlab]
  simp only [bind, Except.bind]
  by_cases hneg : (ds.get ⟨l, hl⟩).2.2 < 0
  · simp only [hneg, if_true]
    have hrows : (ofTriples ds).getRowsCount - 1 = 2 := rfl
    rw [hrows, forLoop_succ, forLoop_succ, forLoop_zero]
    have hneg' : ds[l].2.2 < 0 := hneg
    simp [ofTriples, Matrix.at_, Matrix.setAt, hl, Except.bind, bind, normTriple, hneg']
    exact (set_getElem_same _ l (by simpa using hl) _ (by simp)).symm
  · simp only [hneg, if_false]
    have hneg' : ¬ ds[l].2.2 < 0 := hneg
    simp only [normTriple, List.get_eq_getElem, hneg', if_false]
    have hs : ds.set l ds[l] = ds := set_getElem_same ds l hl _ rfl
    rw [hs]

theorem signNormalize_upTo (cs : List V3) (l : Nat) (hl : l ≤ cs.length) :
    forLoop l (fun l m => do
      let label ← m.at_ 2 l
      if label < 0 then
        forLoop (m.getRowsCount - 1) (fun dr m => do
          let x ← m.at_ dr l
          m.setAt dr l (x * (-1))) m
      else .ok m) (ofTriples cs) = .ok (ofTriples (normUpTo l cs)) := by
  induction l with
  | zero => rw [forLoop_zero, normUpTo_zero]
  | succ l ih =>
    rw [forLoop_succ, ih (by omega)]
    have hl2 : l < (normUpTo l cs).length := by simp [normUpTo]; omega
    have hget : (normUpTo l cs).get ⟨l, hl2⟩ = cs.get ⟨l, by omega⟩ := by
      simp [normUpTo]
    show (do
      let label ← (ofTriples (normUpTo l cs)).at_ 2 l
      if label < 0 then
        forLoop ((ofTriples (normUpTo l cs)).getRowsCount - 1) (fun dr m => do
          let x ← m.at_ dr l
          m.setAt dr l (x * (-1))) (ofTriples (normUpTo l cs))
      else .ok (ofTriples (normUpTo l cs)) : Except Error (Matrix ℚ)) = _
    rw [normalizeBody_ofTriples _ l hl2, hget, normUpTo_succ]

/-- The sign normalization loop normalizes every column. -/
theorem signNormalize_ofTriples (cs : List V3) :
    signNormalize (ofTriples cs) = .ok (ofTriples (cs.map normTriple)) := by
  have h := signNormalize_upTo cs cs.length (le_refl _)
  rw [normUpTo_length] at h
  exact h

/-- An inner loop that adds the terms `val 0`, ..., `val (k - 1)` to `sum.at(r, 0)`. -/
theorem accumLoop (term : Nat → Except Error ℚ) (val : Nat → ℚ) (r k : Nat)
    (hterm : ∀ c, c < k → term c = .ok (val c)) (sum : Matrix ℚ) (s0 : ℚ)
    (hrow : sum.data[r]? = some [s0]) :
    forLoop k (fun c sum => do
      let x ← term c
      let s ← sum.at_ r 0
      sum.setAt r 0 (s + x)) sum
    = .ok ⟨sum.cols_, sum.data.set r [s0 + ((List.range k).map val).sum]⟩ := by
  have hr : r < sum.data.length := by
    rcases Nat.lt_or_ge r sum.data.length with h | h
    · exact h
    · rw [List.getElem?_eq_none h] at hrow
      cases hrow
  have hget : sum.data.get ⟨r, hr⟩ = [s0] := by
    have := List.getElem?_eq_getElem hr
    rw [this] at hrow
    simpa using hrow
  induction k with
  | zero =>
    rw [forLoop_zero]
    simp only [List.range_zero, List.map_nil, List.sum_nil, add_zero]
    rw [set_getElem_same sum.data r hr [s0] hget.symm]
  | succ k ih =>
    rw [forLoop_succ, ih (fun c hc => hterm c (by omega))]
    simp only [Except.bind, bind, hterm k (Nat.lt_succ_self k)]
    simp [Matrix.at_, Matrix.setAt, hr, List.range_succ, add_assoc]

theorem sum_range_getD (xs : List ℚ) :
    ((List.range xs.length).map (fun c => xs.getD c 0)).sum = xs.sum := by
  have h : (List.range xs.length).map (fun c => xs.getD c 0) = xs := by
    apply List.ext_getElem
    · simp
    · intro i h1 h2
      simp [h2]
  rw [h]

/-- The lambda `sumof` of the perceptron criterion sums the columns row by row. -/
theorem sumof_ofTriples (p : Perceptron) (ys : List V3) (h3 : p.v.data.length = 3) :
    sumof p (ofTriples ys)
      = .ok (colVec ((ys.map (fun c => c.1)).sum, (ys.map (fun c => c.2.1)).sum,
          (ys.map (fun c => c.2.2)).sum)) := by
  have step : ∀ (r : Nat) (f : V3 → ℚ), (ofTriples ys).data[r]? = some (ys.map f) →
      ∀ (sum : Matrix ℚ) (s0 : ℚ), sum.data[r]? = some [s0] →
      forLoop ys.length (fun c sum => do
        let x ← (ofTriples ys).at_ r c
        let s ← sum.at_ r 0
        sum.setAt r 0 (s + x)) sum
      = .ok ⟨sum.cols_, sum.data.set r [s0 + (ys.map f).sum]⟩ := by
    intro r f hr sum s0 hs
    have hterm : ∀ c, c < ys.length →
        (ofTriples ys).at_ r c = .ok ((ys.map f).getD c 0) := by
      intro c hc
      simp [Matrix.at_, hr, hc]
    rw [accumLoop _ _ r ys.length hterm sum s0 hs]
    have e := sum_range_getD (ys.map f)
    simp only [List.length_map] at e
    rw [e]
  unfold sumof
  simp only [Matrix.getRowsCount, h3, Matrix.fill, Matrix.getColsCount, List.length_replicate]
  have hc : (ofTriples ys).cols_ = ys.length := rfl
  rw [hc, forLoop_three]
  rw [step 0 (fun c => c.1) rfl _ 0 (by rfl)]
  simp only [Except.bind, List.replicate, List.set]
  rw [step 1 (fun c => c.2.1) rfl _ 0 (by rfl)]
  simp only [Except.bind, List.set]
  rw [step 2 (fun c => c.2.2) rfl _ 0 (by rfl)]
  simp [colVec]

theorem addAssign_scale_colVec (w s : V3) (lr : ℚ) :
    (colVec w).addAssign ((colVec s).scale lr) = .ok (colVec (addScaled w s lr)) := by
  simp [Matrix.addAssign, Matrix.scale, colVec, addScaled]

theorem criterion_update (p : Perceptron) (w : V3) (ys : List V3) (lr : ℚ)
    (hv : p.v = colVec w) :
    (sumof p (ofTriples ys)).bind (fun s => p.v.addAssign (s.scale lr))
      = .ok (colVec (addScaled w (sum3 ys) lr)) := by
  rw [sumof_ofTriples p ys (by rw [hv]; rfl), hv]
  exact addAssign_scale_colVec w (sum3 ys) lr

theorem scores_ofTriples (w : V3) (cs : List V3) :
    (colVec w).transpose.mul (ofTriples cs) = .ok ⟨cs.length, [cs.map (score w)]⟩ := by
  have hfun : ((fun col => Matrix.dot (toCol w) col) ∘ toCol) = score w := by
    funext c
    simp [dot_toCol]
  simp only [Matrix.transpose, columns_colVec, Matrix.mul, columns_ofTriples]
  simp [colVec, ofTriples, hfun]

theorem squaredNorms_ofTriples (cs : List V3) :
    (ofTriples cs).power.sumCols = ⟨cs.length, [cs.map normSq]⟩ := by
  have hp : (ofTriples cs).power
      = ofTriples (cs.map (fun c => (c.1 * c.1, c.2.1 * c.2.1, c.2.2 * c.2.2))) := by
    simp [Matrix.power, ofTriples, Function.comp_def]
  rw [hp]
  simp only [Matrix.sumCols, columns_ofTriples]
  have hfun : ((fun col : List ℚ => col.sum) ∘ toCol ∘
      (fun c : V3 => (c.1 * c.1, c.2.1 * c.2.1, c.2.2 * c.2.2))) = normSq := by
    funext c
    simp [toCol, normSq, add_assoc]
  simp [ofTriples, hfun]

theorem atFlat_row (xs : List ℚ) (c : Nat) (hc : c < xs.length) :
    (⟨xs.length, [xs]⟩ : Matrix ℚ).atFlat c = .ok (xs.get ⟨c, hc⟩) := by
  simp [Matrix.atFlat, Matrix.at_, Nat.div_eq_of_lt hc, Nat.mod_eq_of_lt hc, hc]

theorem relaxBody_eq (criteria in2 inp : Matrix ℚ) (b : ℚ) (r : Nat) :
    (fun (c : Nat) (sum : Matrix ℚ) => (do
        let crit ← criteria.atFlat c
        let norm ← in2.atFlat c
        let q ← divide (b - crit) norm
        let x ← inp.at_ r c
        let s ← sum.at_ r 0
        sum.setAt r 0 (s + q * x) : Except Error (Matrix ℚ)))
      = (fun c sum => do
          let t ← relaxSummand criteria in2 inp b r c
          let s ← sum.at_ r 0
          sum.setAt r 0 (s + t)) := by
  funext c sum
  simp only [relaxSummand, bind_assoc, pure_bind]

/-- The lambda `sumof` of the relaxation procedure, when no column has squared norm 0. -/
theorem sumofRelaxation_ofTriples (p : Perceptron) (w : V3) (ys : List V3) (b : ℚ)
    (hv : p.v = colVec w) (hn : ∀ y ∈ ys, normSq y ≠ 0) :
    sumofRelaxation p (ofTriples ys) b = .ok (colVec (sum3 (ys.map (relaxTerm w b)))) := by
  have step : ∀ (r : Nat) (f : V3 → ℚ), (ofTriples ys).data[r]? = some (ys.map f) →
      ∀ (sum : Matrix ℚ) (s0 : ℚ), sum.data[r]? = some [s0] →
      forLoop ys.length (fun c sum => do
        let crit ← (⟨ys.length, [ys.map (score w)]⟩ : Matrix ℚ).atFlat c
        let norm ← (⟨ys.length, [ys.map normSq]⟩ : Matrix ℚ).atFlat c
        let q ← divide (b - crit) norm
        let x ← (ofTriples ys).at_ r c
        let s ← sum.at_ r 0
        sum.setAt r 0 (s + q * x)) sum
      = .ok ⟨sum.cols_, sum.data.set r
          [s0 + (ys.map (fun y => (b - score w y) / normSq y * f y)).sum]⟩ := by
    intro r f hr sum s0 hs
    rw [relaxBody_eq]
    have hterm : ∀ c, c < ys.length →
        relaxSummand ⟨ys.length, [ys.map (score w)]⟩ ⟨ys.length, [ys.map normSq]⟩
          (ofTriples ys) b r c
          = .ok ((ys.map (fun y => (b - score w y) / normSq y * f y)).getD c 0) := by
      intro c hc
      have h1 := atFlat_row (ys.map (score w)) c (by simpa using hc)
      have h2 := atFlat_row (ys.map normSq) c (by simpa using hc)
      simp only [List.length_map] at h1 h2
      unfold relaxSummand
      rw [h1, h2]
      have hne : normSq (ys.get ⟨c, hc⟩) ≠ 0 := hn _ (List.get_mem ys c hc)
      simp only [List.get_eq_getElem] at hne
      simp [Matrix.at_, hr, hc, divide, bind, Except.bind, pure, Except.pure, hne]
    rw [accumLoop _ _ r ys.length hterm sum s0 hs]
    have e := sum_range_getD (ys.map (fun y => (b - score w y) / normSq y * f y))
    simp only [List.length_map] at e
    rw [e]
  unfold sumofRelaxation
  rw [hv, scores_ofTriples, squaredNorms_ofTriples, ok_bind]
  simp only [Matrix.getRowsCount, Matrix.fill, Matrix.getColsCount, List.length_replicate]
  have h3 : (colVec w).data.length = 3 := rfl
  have hc : (ofTriples ys).cols_ = ys.length := rfl
  rw [h3, hc, forLoop_three]
  rw [step 0 (fun c => c.1) rfl _ 0 (by rfl)]
  simp only [Except.bind, List.replicate, List.set]
  rw [step 1 (fun c => c.2.1) rfl _ 0 (by rfl)]
  simp only [Except.bind, List.set]
  rw [step 2 (fun c => c.2.2) rfl _ 0 (by rfl)]
  simp [colVec, sum3, relaxTerm, Function.comp_def]

/-- The perceptron criterion loop on 3x1 weights and a 3xM matrix is `runLoop`. -/
theorem criterionLoop_eq (cs : List V3) (lr : ℚ) (fuel : Nat) :
    ∀ (iter : Nat) (p : Perceptron) (w : V3), p.v = colVec w →
      criterionLoop (ofTriples cs) lr fuel iter p (ofTriples (misCols cs 0 w))
        = outcomeOf p cs 0 (runLoop (criterionStep cs lr) cs 0 fuel iter w) := by
  induction fuel with
  | zero =>
    intro iter p w hv
    simp [criterionLoop, runLoop, outcomeOf, ← hv]
  | succ fuel ih =>
    intro iter p w hv
    unfold criterionLoop runLoop
    have hcols : (ofTriples (misCols cs 0 w)).getColsCount = (misCols cs 0 w).length := rfl
    rw [hcols]
    by_cases h0 : (misCols cs 0 w).length = 0
    · simp [h0, outcomeOf, ← hv]
    · simp only [h0, if_false]
      rw [criterion_update p w _ lr hv]
      simp only []
      rw [misclassified_ofTriples _ (criterionStep cs lr w) cs 0 rfl]
      simp only []
      have := ih (iter + 1) { p with v := colVec (criterionStep cs lr w) }
        (criterionStep cs lr w) rfl
      exact this

theorem prepare_eq (inputs : Matrix ℚ) (labels x1 x2 : List ℚ) (hd : inputs.data = [x1, x2])
    (h1 : x1.length = labels.length) (h2 : x2.length = labels.length) :
    prepareInTemp inputs labels = .ok (ofTriples (sampleCols x1 x2 labels)) := by
  unfold prepareInTemp
  rw [buildInTemp_eq inputs labels x1 x2 hd h1 h2]
  rw [← ofTriples_zip3 x1 x2 labels labels.length h1 h2 rfl]
  exact signNormalize_ofTriples _

/-- A call of `perceptronCriterionAlgorithm` with valid shapes, as a run of `runLoop`. -/
theorem perceptronCriterionAlgorithm_eq (p : Perceptron) (inputs : Matrix ℚ)
    (labels x1 x2 : List ℚ) (maxIter : Nat) (lr : ℚ) (w : V3)
    (hN : p.numberOfInputs = 2) (hv : p.v = colVec w) (hd : inputs.data = [x1, x2])
    (hc : inputs.cols_ = labels.length)
    (h1 : x1.length = labels.length) (h2 : x2.length = labels.length) :
    perceptronCriterionAlgorithm p inputs labels maxIter lr
      = outcomeOf p (sampleCols x1 x2 labels) 0
          (runLoop (criterionStep (sampleCols x1 x2 labels) lr) (sampleCols x1 x2 labels) 0
            maxIter 0 w) := by
  unfold perceptronCriterionAlgorithm
  simp only [Matrix.getRowsCount, hd, hN, Matrix.getColsCount, hc, List.length_cons,
    List.length_nil, ne_eq, not_true_eq_false, if_false]
  rw [prepare_eq inputs labels x1 x2 hd h1 h2]
  simp only []
  rw [misclassified_ofTriples p w _ 0 hv]
  simp only []
  exact criterionLoop_eq _ lr maxIter 0 p w hv

theorem score_sum3_right (w : V3) (ys : List V3) :
    score w (sum3 ys) = (ys.map (score w)).sum := by
  induction ys with
  | nil => simp [sum3, score]
  | cons y ys ih =>
    simp only [sum3, score, List.map_cons, List.sum_cons] at ih ⊢
    rw [← ih]
    ring

theorem sum_map_neg_of_forall {ys : List V3} (f : V3 → ℚ) (h : ∀ y ∈ ys, f y < 0) :
    (ys.map f).sum ≤ 0 := by
  induction ys with
  | nil => simp
  | cons y ys ih =>
    simp only [List.map_cons, List.sum_cons]
    have h1 := h y (by simp)
    have h2 := ih (fun z hz => h z (by simp [hz]))
    linarith

theorem sum_map_ge_of_forall {ys : List V3} (f : V3 → ℚ) (g : ℚ) (hg : 0 ≤ g)
    (h : ∀ y ∈ ys, g ≤ f y) (hne : ys ≠ []) : g ≤ (ys.map f).sum := by
  induction ys with
  | nil => exact absurd rfl hne
  | cons y ys ih =>
    simp only [List.map_cons, List.sum_cons]
    have h1 := h y (by simp)
    by_cases hys : ys = []
    · subst hys
      simpa using h1
    · have h2 := ih (fun z hz => h z (by simp [hz])) hys
      linarith

theorem abs_sum_filter_le (cs : List V3) (q : V3 → Bool) (f : V3 → ℚ) :
    |((cs.filter q).map f).sum| ≤ (cs.map (fun c => |f c|)).sum := by
  induction cs with
  | nil => simp
  | cons c cs ih =>
    simp only [List.filter_cons, List.map_cons, List.sum_cons]
    cases q c
    · simp only [Bool.false_eq_true, if_false]
      have := abs_nonneg (f c)
      linarith
    · simp only [if_true, List.map_cons, List.sum_cons]
      have := abs_add (f c) ((List.map f (List.filter q cs)).sum)
      linarith

theorem potential_nonneg (a : V3) (α : ℚ) (w : V3) : 0 ≤ potential a α w := by
  simp only [potential, normSq]
  nlinarith [mul_self_nonneg (w.1 - α * a.1), mul_self_nonneg (w.2.1 - α * a.2.1),
    mul_self_nonneg (w.2.2 - α * a.2.2)]

/-- One update on a non-empty misclassified set lowers the potential by a fixed amount. -/
theorem potential_step (cs : List V3) (lr : ℚ) (hlr : 0 ≤ lr) (a : V3) (γ : ℚ) (hγ : 0 ≤ γ)
    (ha : ∀ c ∈ cs, γ ≤ score a c) (B0 B1 B2 : ℚ)
    (hB0 : (cs.map (fun c => |c.1|)).sum ≤ B0) (hB1 : (cs.map (fun c => |c.2.1|)).sum ≤ B1)
    (hB2 : (cs.map (fun c => |c.2.2|)).sum ≤ B2) (α : ℚ) (hα : 0 ≤ α) (w : V3)
    (hne : misCols cs 0 w ≠ []) :
    potential a α (criterionStep cs lr w)
      ≤ potential a α w - (2 * lr * α * γ - lr ^ 2 * (B0 ^ 2 + B1 ^ 2 + B2 ^ 2)) := by
  have h1 : score w (sum3 (misCols cs 0 w)) ≤ 0 := by
    rw [score_sum3_right]
    apply sum_map_neg_of_forall
    intro y hy
    have := (List.mem_filter.mp hy).2
    simpa using this
  have h2 : γ ≤ score a (sum3 (misCols cs 0 w)) := by
    rw [score_sum3_right]
    exact sum_map_ge_of_forall _ γ hγ (fun y hy => ha y (List.mem_of_mem_filter hy)) hne
  have b0 : |(sum3 (misCols cs 0 w)).1| ≤ B0 :=
    le_trans (abs_sum_filter_le cs _ (fun c => c.1)) hB0
  have b1 : |(sum3 (misCols cs 0 w)).2.1| ≤ B1 :=
    le_trans (abs_sum_filter_le cs _ (fun c => c.2.1)) hB1
  have b2 : |(sum3 (misCols cs 0 w)).2.2| ≤ B2 :=
    le_trans (abs_sum_filter_le cs _ (fun c => c.2.2)) hB2
  have q0 := sq_le_sq' (neg_le_of_abs_le b0) (le_of_abs_le b0)
  have q1 := sq_le_sq' (neg_le_of_abs_le b1) (le_of_abs_le b1)
  have q2 := sq_le_sq' (neg_le_of_abs_le b2) (le_of_abs_le b2)
  unfold criterionStep
  clear hne ha hB0 hB1 hB2 b0 b1 b2
  generalize sum3 (misCols cs 0 w) = s at h1 h2 q0 q1 q2 ⊢
  obtain ⟨s0, s1, s2⟩ := s
  obtain ⟨w0, w1, w2⟩ := w
  obtain ⟨a0, a1, a2⟩ := a
  simp only [potential, addScaled, normSq, score] at h1 h2 q0 q1 q2 ⊢
  have e1 := mul_nonneg hlr (neg_nonneg.mpr h1)
  have e2 := mul_le_mul_of_nonneg_left h2 (mul_nonneg hlr hα)
  have e3 : lr ^ 2 * (s0 ^ 2 + s1 ^ 2 + s2 ^ 2) ≤ lr ^ 2 * (B0 ^ 2 + B1 ^ 2 + B2 ^ 2) :=
    mul_le_mul_of_nonneg_left (by linarith) (sq_nonneg lr)
  linarith

/-- When every update lowers the potential by `δ`, more than `potential / δ` iterations
end with no misclassified column. -/
theorem runLoop_converges (cs : List V3) (lr : ℚ) (a : V3) (α δ : ℚ)
    (hstep : ∀ w, misCols cs 0 w ≠ [] →
      potential a α (criterionStep cs lr w) ≤ potential a α w - δ) (fuel : Nat) :
    ∀ (iter : Nat) (w : V3), potential a α w < fuel * δ →
      misCols cs 0 (runLoop (criterionStep cs lr) cs 0 fuel iter w).1 = [] := by
  induction fuel with
  | zero =>
    intro iter w h
    have := potential_nonneg a α w
    simp at h
    linarith
  | succ fuel ih =>
    intro iter w h
    unfold runLoop
    by_cases h0 : (misCols cs 0 w).length = 0
    · simp only [h0, if_true]
      exact List.length_eq_zero.mp h0
    · simp only [h0, if_false]
      apply ih
      have hne : misCols cs 0 w ≠ [] := fun h => h0 (by simp [h])
      have := hstep w hne
      push_cast at h
      linarith

theorem exists_margin (cs : List V3) (f : V3 → ℚ) (h : ∀ c ∈ cs, 0 < f c) :
    ∃ γ : ℚ, 0 < γ ∧ ∀ c ∈ cs, γ ≤ f c := by
  induction cs with
  | nil => exact ⟨1, by norm_num, by simp⟩
  | cons c cs ih =>
    obtain ⟨γ, hγ, hall⟩ := ih (fun z hz => h z (by simp [hz]))
    refine ⟨min (f c) γ, lt_min (h c (by simp)) hγ, ?_⟩
    intro z hz
    rcases List.mem_cons.mp hz with rfl | hz
    · exact min_le_left _ _
    · exact le_trans (min_le_right _ _) (hall z hz)

theorem runLoop_converges_of_separable (cs : List V3) (lr : ℚ) (hlr : 0 < lr) (a : V3)
    (ha : ∀ c ∈ cs, 0 < score a c) (w : V3) :
    ∃ K : Nat, ∀ maxIter, K ≤ maxIter →
      misCols cs 0 (runLoop (criterionStep cs lr) cs 0 maxIter 0 w).1 = [] := by
  obtain ⟨γ, hγ, hall⟩ := exists_margin cs (score a) ha
  let B : ℚ := ((cs.map (fun c => |c.1|)).sum) ^ 2 + ((cs.map (fun c => |c.2.1|)).sum) ^ 2
    + ((cs.map (fun c => |c.2.2|)).sum) ^ 2
  have hB : 0 ≤ B := by positivity
  let α : ℚ := (lr * B + 1) / (2 * γ)
  have hα : 0 ≤ α := by positivity
  have hδ : 2 * lr * α * γ - lr ^ 2 * B = lr := by
    simp only [α]
    field_simp
    ring
  have hstep : ∀ w, misCols cs 0 w ≠ [] →
      potential a α (criterionStep cs lr w) ≤ potential a α w - lr := by
    intro w hne
    have := potential_step cs lr hlr.le a γ hγ.le hall _ _ _ (le_refl _) (le_refl _) (le_refl _)
      α hα w hne
    rw [hδ] at this
    exact this
  refine ⟨⌊potential a α w / lr⌋₊ + 1, ?_⟩
  intro maxIter hK
  apply runLoop_converges cs lr a α lr hstep
  have h1 : potential a α w / lr < (⌊potential a α w / lr⌋₊ + 1 : ℕ) := by
    push_cast
    exact Nat.lt_floor_add_one _
  have h2 : ((⌊potential a α w / lr⌋₊ + 1 : ℕ) : ℚ) ≤ maxIter := by exact_mod_cast hK
  have h3 : potential a α w / lr < maxIter := lt_of_lt_of_le h1 h2
  rw [div_lt_iff₀ hlr] at h3
  exact h3

theorem validCall_unpack {p : Perceptron} {inputs : Matrix ℚ} {labels : List ℚ}
    (h : ValidCall p inputs labels) :
    ∃ (w : V3) (x1 x2 : List ℚ), p.v = colVec w ∧ inputs.data = [x1, x2] ∧
      inputs.cols_ = labels.length ∧ x1.length = labels.length ∧ x2.length = labels.length := by
  obtain ⟨_, hv, hl, hc, hrows⟩ := h
  obtain ⟨w, hw⟩ := hasShape_three_one hv
  match hd : inputs.data, hl with
  | [x1, x2], _ =>
    refine ⟨w, x1, x2, hw, rfl, hc, ?_, ?_⟩
    · exact hrows x1 (by simp [hd])
    · exact hrows x2 (by simp [hd])

theorem mem_sampleCols {x1 x2 labels : List ℚ} {c : V3} (h : c ∈ sampleCols x1 x2 labels) :
    ∃ j, j < labels.length ∧
      c = normTriple (x1.getD j 0, x2.getD j 0, labels.getD j 0) := by
  obtain ⟨t, ht, rfl⟩ := List.mem_map.mp h
  obtain ⟨j, hj, rfl⟩ := List.mem_iff_getElem.mp ht
  have hj' : j < x1.length ∧ j < x2.length ∧ j < labels.length := by
    simpa [zip3] using hj
  refine ⟨j, hj'.2.2, ?_⟩
  simp [zip3, hj'.1, hj'.2.1, hj'.2.2]

theorem getCol_colVec (w : V3) : (colVec w).getCol 0 = toCol w := by
  simp [Matrix.getCol, colVec, toCol]

theorem score_nonneg_of_misCols_nil {cs : List V3} {thr : ℚ} {w : V3}
    (h : misCols cs thr w = []) : ∀ c ∈ cs, thr ≤ score w c := by
  intro c hc
  by_contra hlt
  have : c ∈ misCols cs thr w := List.mem_filter.mpr ⟨hc, by simpa using hlt⟩
  rw [h] at this
  cases this

/-- A property the loop body preserves holds after the loop. -/
theorem forLoop_invariant {σ : Type} (P : σ → Prop) (body : Nat → σ → Except Error σ)
    (hbody : ∀ i s s', P s → body i s = .ok s' → P s') (n : Nat) :
    ∀ s s', P s → forLoop n body s = .ok s' → P s' := by
  induction n with
  | zero =>
    intro s s' hs h
    rw [forLoop_zero] at h
    cases h
    exact hs
  | succ n ih =>
    intro s s' hs h
    rw [forLoop_succ] at h
    cases hm : forLoop n body s with
    | error e =>
      rw [hm] at h
      cases h
    | ok s1 =>
      rw [hm] at h
      exact hbody n s1 s' (ih s s1 hs hm) h

theorem setAt_hasShape {m m' : Matrix ℚ} {r c a b : Nat} {x : ℚ}
    (h : m.setAt r c x = .ok m') (hs : m.HasShape a b) : m'.HasShape a b := by
  unfold Matrix.setAt at h
  obtain ⟨h1, h2, h3⟩ := hs
  cases hrow : m.data[r]? with
  | none =>
    rw [hrow] at h
    cases h
  | some row =>
    rw [hrow] at h
    simp only at h
    split at h
    · cases h
      refine ⟨by simpa using h1, h2, ?_⟩
      intro row' hrow'
      simp only at hrow'
      rcases List.mem_or_eq_of_mem_set hrow' with hmem | heq
      · exact h3 row' hmem
      · subst heq
        have hmem : row ∈ m.data := List.getElem?_mem hrow
        simpa using h3 row hmem
    · cases h

theorem fill_hasShape (a b : Nat) (x : ℚ) : (Matrix.fill a b x).HasShape a b := by
  refine ⟨by simp [Matrix.fill], rfl, ?_⟩
  intro row hrow
  simp only [Matrix.fill] at hrow
  rw [List.eq_of_mem_replicate hrow]
  simp

theorem accum_hasShape {a b r : Nat} (term : Nat → Except Error ℚ) (n : Nat)
    (sum sum' : Matrix ℚ) (hs : sum.HasShape a b)
    (h : forLoop n (fun c sum => do
      let x ← term c
      let s ← sum.at_ r 0
      sum.setAt r 0 (s + x)) sum = .ok sum') : sum'.HasShape a b := by
  refine forLoop_invariant (fun m => m.HasShape a b) _ ?_ n sum sum' hs h
  intro i s s' hs hb
  cases ht : term i with
  | error e =>
    simp only [ht] at hb
    cases hb
  | ok x =>
    simp only [ht] at hb
    cases hat : s.at_ r 0 with
    | error e =>
      rw [ok_bind, hat] at hb
      cases hb
    | ok y =>
      rw [ok_bind, hat, ok_bind] at hb
      exact setAt_hasShape hb hs

theorem sumof_hasShape {p : Perceptron} {inp s : Matrix ℚ} (h : sumof p inp = .ok s) :
    s.HasShape p.v.data.length 1 := by
  unfold sumof at h
  refine forLoop_invariant (fun m => m.HasShape p.v.data.length 1) _ ?_ _ _ s
    (fill_hasShape _ _ _) h
  intro r s1 s2 hs1 hb
  exact accum_hasShape _ _ _ _ hs1 hb

theorem sumofRelaxation_hasShape {p : Perceptron} {inp s : Matrix ℚ} {b : ℚ}
    (h : sumofRelaxation p inp b = .ok s) : s.HasShape p.v.data.length 1 := by
  unfold sumofRelaxation at h
  cases hc : p.v.transpose.mul inp with
  | error e =>
    rw [hc] at h
    cases h
  | ok criteria =>
    rw [hc, ok_bind] at h
    refine forLoop_invariant (fun m => m.HasShape p.v.data.length 1) _ ?_ _ _ s
      (fill_hasShape _ _ _) h
    intro r s1 s2 hs1 hb
    rw [relaxBody_eq] at hb
    exact accum_hasShape _ _ _ _ hs1 hb

theorem addAssign_scale_hasShape {v s v' : Matrix ℚ} {lr : ℚ} {a b : Nat}
    (h : v.addAssign (s.scale lr) = .ok v') (hv : v.HasShape a b) (hs : s.HasShape a b) :
    v'.HasShape a b := by
  unfold Matrix.addAssign at h
  split at h
  · cases h
  · cases h
    obtain ⟨h1, h2, h3⟩ := hv
    obtain ⟨g1, g2, g3⟩ := hs
    refine ⟨by simp [Matrix.scale, h1, g1], h2, ?_⟩
    intro row hrow
    simp only [Matrix.scale] at hrow
    obtain ⟨i, hi, rfl⟩ := List.mem_iff_getElem.mp hrow
    have hi' : i < v.data.length ∧ i < s.data.length := by simpa using hi
    simp only [List.getElem_zipWith, List.length_zipWith, List.getElem_map, List.length_map]
    rw [h3 _ (List.getElem_mem hi'.1), g3 _ (List.getElem_mem hi'.2)]
    simp

/-- Frame, shape and exit conditions of the perceptron criterion loop, for all arguments. -/
theorem criterionLoop_spec (T : Matrix ℚ) (lr : ℚ) (fuel : Nat) :
    ∀ (iter : Nat) (p : Perceptron) (Y : Matrix ℚ) (out : Outcome),
      criterionLoop T lr fuel iter p Y = out →
      out.perceptron.cv = p.cv ∧
      out.perceptron.numberOfInputs = p.numberOfInputs ∧
      (∀ a, p.v.HasShape a 1 → out.perceptron.v.HasShape a 1) ∧
      (∀ loc, out.result = .ok loc →
        misclassified p T 0 = .ok Y →
        loc.in_temp = T ∧
        misclassified out.perceptron T 0 = .ok loc.Y ∧
        iter ≤ loc.iter ∧ loc.iter ≤ iter + fuel ∧
        (loc.Y.getColsCount = 0 ∨ loc.iter = iter + fuel)) := by
  induction fuel with
  | zero =>
    intro iter p Y out hout
    simp only [criterionLoop] at hout
    subst hout
    refine ⟨rfl, rfl, fun a h => h, ?_⟩
    intro loc hloc hY
    cases hloc
    exact ⟨rfl, hY, le_refl _, le_refl _, Or.inr rfl⟩
  | succ fuel ih =>
    intro iter p Y out hout
    unfold criterionLoop at hout
    by_cases h0 : Y.getColsCount = 0
    · rw [if_pos h0] at hout
      subst hout
      refine ⟨rfl, rfl, fun a h => h, ?_⟩
      intro loc hloc hY
      cases hloc
      exact ⟨rfl, hY, le_refl _, Nat.le_add_right _ _, Or.inl h0⟩
    · rw [if_neg h0] at hout
      cases hs : sumof p Y with
      | error e =>
        rw [hs] at hout
        simp only [Except.bind] at hout
        subst hout
        refine ⟨rfl, rfl, fun a h => h, ?_⟩
        intro loc hloc
        cases hloc
      | ok s =>
        rw [hs] at hout
        simp only [Except.bind] at hout
        cases hv : p.v.addAssign (s.scale lr) with
        | error e =>
          rw [hv] at hout
          simp only [] at hout
          subst hout
          refine ⟨rfl, rfl, fun a h => h, ?_⟩
          intro loc hloc
          cases hloc
        | ok v =>
          rw [hv] at hout
          simp only [] at hout
          have hshape : ∀ a, p.v.HasShape a 1 → v.HasShape a 1 := by
            intro a ha
            have hs' := sumof_hasShape hs
            rw [ha.1] at hs'
            exact addAssign_scale_hasShape hv ha hs'
          cases hm : misclassified { p with v := v } T 0 with
          | error e =>
            rw [hm] at hout
            simp only [] at hout
            subst hout
            refine ⟨rfl, rfl, hshape, ?_⟩
            intro loc hloc
            cases hloc
          | ok Y' =>
            rw [hm] at hout
            simp only [] at hout
            obtain ⟨i1, i2, i3, i4⟩ := ih (iter + 1) { p with v := v } Y' out hout
            refine ⟨i1, i2, fun a ha => i3 a (hshape a ha), ?_⟩
            intro loc hloc _
            obtain ⟨j1, j2, j3, j4, j5⟩ := i4 loc hloc hm
            refine ⟨j1, j2, by omega, by omega, ?_⟩
            rcases j5 with j5 | j5
            · exact Or.inl j5
            · exact Or.inr (by omega)

/-- Frame, shape and exit conditions of the relaxation loop, for all arguments. -/
theorem relaxationLoop_spec (T : Matrix ℚ) (lr : ℚ) (b : ℚ) (fuel : Nat) :
    ∀ (iter : Nat) (p : Perceptron) (Y : Matrix ℚ) (out : Outcome),
      relaxationLoop T lr b fuel iter p Y = out →
      out.perceptron.cv = p.cv ∧
      out.perceptron.numberOfInputs = p.numberOfInputs ∧
      (∀ a, p.v.HasShape a 1 → out.perceptron.v.HasShape a 1) ∧
      (∀ loc, out.result = .ok loc →
        misclassified p T b = .ok Y →
        loc.in_temp = T ∧
        misclassified out.perceptron T b = .ok loc.Y ∧
        iter ≤ loc.iter ∧ loc.iter ≤ iter + fuel ∧
        (loc.Y.getColsCount = 0 ∨ loc.iter = iter + fuel)) := by
  induction fuel with
  | zero =>
    intro iter p Y out hout
    simp only [relaxationLoop] at hout
    subst hout
    refine ⟨rfl, rfl, fun a h => h, ?_⟩
    intro loc hloc hY
    cases hloc
    exact ⟨rfl, hY, le_refl _, le_refl _, Or.inr rfl⟩
  | succ fuel ih =>
    intro iter p Y out hout
    unfold relaxationLoop at hout
    by_cases h0 : Y.getColsCount = 0
    · rw [if_pos h0] at hout
      subst hout
      refine ⟨rfl, rfl, fun a h => h, ?_⟩
      intro loc hloc hY
      cases hloc
      exact ⟨rfl, hY, le_refl _, Nat.le_add_right _ _, Or.inl h0⟩
    · rw [if_neg h0] at hout
      cases hs : sumofRelaxation p Y b with
      | error e =>
        rw [hs] at hout
        simp only [Except.bind] at hout
        subst hout
        refine ⟨rfl, rfl, fun a h => h, ?_⟩
        intro loc hloc
        cases hloc
      | ok s =>
        rw [hs] at hout
        simp only [Except.bind] at hout
        cases hv : p.v.addAssign (s.scale lr) with
        | error e =>
          rw [hv] at hout
          simp only [] at hout
          subst hout
          refine ⟨rfl, rfl, fun a h => h, ?_⟩
          intro loc hloc
          cases hloc
        | ok v =>
          rw [hv] at hout
          simp only [] at hout
          have hshape : ∀ a, p.v.HasShape a 1 → v.HasShape a 1 := by
            intro a ha
            have hs' := sumofRelaxation_hasShape hs
            rw [ha.1] at hs'
            exact addAssign_scale_hasShape hv ha hs'
          cases hm : misclassified { p with v := v } T b with
          | error e =>
            rw [hm] at hout
            simp only [] at hout
            subst hout
            refine ⟨rfl, rfl, hshape, ?_⟩
            intro loc hloc
            cases hloc
          | ok Y' =>
            rw [hm] at hout
            simp only [] at hout
            obtain ⟨i1, i2, i3, i4⟩ := ih (iter + 1) { p with v := v } Y' out hout
            refine ⟨i1, i2, fun a ha => i3 a (hshape a ha), ?_⟩
            intro loc hloc _
            obtain ⟨j1, j2, j3, j4, j5⟩ := i4 loc hloc hm
            refine ⟨j1, j2, by omega, by omega, ?_⟩
            rcases j5 with j5 | j5
            · exact Or.inl j5
            · exact Or.inr (by omega)

theorem perceptronCriterionAlgorithm_frame (p : Perceptron) (inputs : Matrix ℚ) (labels : List ℚ)
    (maxIter : Nat) (lr : ℚ) :
    (perceptronCriterionAlgorithm p inputs labels maxIter lr).perceptron.cv = p.cv ∧
    (perceptronCriterionAlgorithm p inputs labels maxIter lr).perceptron.numberOfInputs = p.numberOfInputs ∧
    (∀ a, p.v.HasShape a 1 →
      (perceptronCriterionAlgorithm p inputs labels maxIter lr).perceptron.v.HasShape a 1) := by
  unfold perceptronCriterionAlgorithm
  split
  · exact ⟨rfl, rfl, fun a h => h⟩
  · split
    · exact ⟨rfl, rfl, fun a h => h⟩
    · split
      · exact ⟨rfl, rfl, fun a h => h⟩
      · split
        · exact ⟨rfl, rfl, fun a h => h⟩
        · obtain ⟨h1, h2, h3, _⟩ := criterionLoop_spec _ lr maxIter 0 p _ _ rfl
          exact ⟨h1, h2, h3⟩

theorem relaxationAlgorithm_frame (p : Perceptron) (inputs : Matrix ℚ) (labels : List ℚ)
    (maxIter : Nat) (lr : ℚ) (b : ℚ) :
    (relaxationAlgorithm p inputs labels maxIter lr b).perceptron.cv = p.cv ∧
    (relaxationAlgorithm p inputs labels maxIter lr b).perceptron.numberOfInputs = p.numberOfInputs ∧
    (∀ a, p.v.HasShape a 1 →
      (relaxationAlgorithm p inputs labels maxIter lr b).perceptron.v.HasShape a 1) := by
  unfold relaxationAlgorithm
  split
  · exact ⟨rfl, rfl, fun a h => h⟩
  · split
    · exact ⟨rfl, rfl, fun a h => h⟩
    · split
      · exact ⟨rfl, rfl, fun a h => h⟩
      · split
        · exact ⟨rfl, rfl, fun a h => h⟩
        · obtain ⟨h1, h2, h3, _⟩ := relaxationLoop_spec _ lr b maxIter 0 p _ _ rfl
          exact ⟨h1, h2, h3⟩

theorem new_eq (dist : Nat → ℚ) :
    Perceptron.new dist
      = .ok ⟨2, colVec (dist 0, dist 1, dist 2), colVec (dist 0, dist 1, dist 2)⟩ := by
  unfold Perceptron.new
  simp only [Matrix.rows_, Matrix.fill, List.length_replicate]
  rw [forLoop_three]
  simp [Matrix.setAtFlat, Matrix.setAt, Except.bind, bind, colVec]

theorem perceptronCriterionAlgorithm_invalid (p : Perceptron) (inputs : Matrix ℚ)
    (labels : List ℚ) (maxIter : Nat) (lr : ℚ)
    (h : inputs.getRowsCount ≠ p.numberOfInputs ∨ labels.length ≠ inputs.getColsCount) :
    perceptronCriterionAlgorithm p inputs labels maxIter lr
      = ⟨p, .error .invalidArgument⟩ := by
  unfold perceptronCriterionAlgorithm
  by_cases h1 : inputs.getRowsCount ≠ p.numberOfInputs
  · rw [if_pos h1]
  · rw [if_neg h1, if_pos (h.resolve_left h1)]

theorem relaxationAlgorithm_invalid (p : Perceptron) (inputs : Matrix ℚ)
    (labels : List ℚ) (maxIter : Nat) (lr b : ℚ)
    (h : inputs.getRowsCount ≠ p.numberOfInputs ∨ labels.length ≠ inputs.getColsCount) :
    relaxationAlgorithm p inputs labels maxIter lr b = ⟨p, .error .invalidArgument⟩ := by
  unfold relaxationAlgorithm
  by_cases h1 : inputs.getRowsCount ≠ p.numberOfInputs
  · rw [if_pos h1]
  · rw [if_neg h1, if_pos (h.resolve_left h1)]

theorem relaxationAlgorithm_unfold (p : Perceptron) (inputs : Matrix ℚ)
    (labels x1 x2 : List ℚ) (maxIter : Nat) (lr b : ℚ) (w : V3)
    (hN : p.numberOfInputs = 2) (hv : p.v = colVec w) (hd : inputs.data = [x1, x2])
    (hc : inputs.cols_ = labels.length)
    (h1 : x1.length = labels.length) (h2 : x2.length = labels.length) :
    relaxationAlgorithm p inputs labels maxIter lr b
      = relaxationLoop (ofTriples (sampleCols x1 x2 labels)) lr b maxIter 0 p
          (ofTriples (misCols (sampleCols x1 x2 labels) b w)) := by
  unfold relaxationAlgorithm
  simp only [Matrix.getRowsCount, hd, hN, Matrix.getColsCount, hc, List.length_cons,
    List.length_nil, ne_eq, not_true_eq_false, if_false]
  rw [prepare_eq inputs labels x1 x2 hd h1 h2]
  simp only []
  rw [misclassified_ofTriples p w _ b hv]
  rfl

theorem filter_columns_ofTriples (cs : List V3) (w : V3) (thr : ℚ) :
    (ofTriples cs).columns.filter (fun col => decide (Matrix.dot ((colVec w).getCol 0) col < thr))
      = (misCols cs thr w).map toCol := by
  rw [columns_ofTriples, getCol_colVec, List.filter_map]
  congr 1
  unfold misCols
  congr 1
  funext c
  simp [dot_toCol]

theorem sampleCols_and : sampleCols [0, 0, 1, 1] [0, 1, 0, 1] andLabels = andCols := by
  simp [sampleCols, zip3, normTriple, andLabels, andCols]

theorem validCall_and (w0 w1 w2 : ℚ) (labels : List ℚ) (h : labels.length = 4) :
    ValidCall (perceptronOf w0 w1 w2) andInputs labels := by
  refine ⟨rfl, colVec_hasShape _, ?_⟩
  simp [Matrix.HasShape, andInputs, h]

theorem perceptronCriterionAlgorithm_and (w : V3) (p : Perceptron) (hN : p.numberOfInputs = 2)
    (hv : p.v = colVec w) (maxIter : Nat) (lr : ℚ) :
    perceptronCriterionAlgorithm p andInputs andLabels maxIter lr
      = outcomeOf p andCols 0 (runLoop (criterionStep andCols lr) andCols 0 maxIter 0 w) := by
  rw [perceptronCriterionAlgorithm_eq p andInputs andLabels [0, 0, 1, 1] [0, 1, 0, 1] maxIter lr
    w hN hv rfl rfl rfl rfl, sampleCols_and]

theorem runLoop_of_nil (step : V3 → V3) (cs : List V3) (thr : ℚ) (fuel iter : Nat) (w : V3)
    (h : misCols cs thr w = []) : runLoop step cs thr fuel iter w = (w, iter) := by
  cases fuel with
  | zero => rfl
  | succ fuel =>
    unfold runLoop
    rw [h]
    rfl

theorem and_potential_step (w : V3) (hne : misCols andCols 0 w ≠ []) :
    potential (2, 2, -3) 6 (criterionStep andCols (1 / 4) w)
      ≤ potential (2, 2, -3) 6 w - 3 / 2 := by
  have h := potential_step andCols (1 / 4) (by norm_num) (2, 2, -3) 1 (by norm_num)
    (by
      intro c hc
      simp only [andCols, List.mem_cons, List.mem_singleton, List.not_mem_nil, or_false] at hc
      rcases hc with rfl | rfl | rfl | rfl <;> simp [score] <;> norm_num)
    2 2 4
    (by simp [andCols]; norm_num) (by simp [andCols]; norm_num) (by simp [andCols]; norm_num)
    6 (by norm_num) w hne
  have e : (2 * (1 / 4 : ℚ) * 6 * 1 - (1 / 4) ^ 2 * (2 ^ 2 + 2 ^ 2 + 4 ^ 2)) = 3 / 2 := by
    norm_num
  rw [e] at h
  exact h

theorem prepareInTemp_and : prepareInTemp andInputs andLabels = .ok (ofTriples andCols) := by
  rw [prepare_eq andInputs andLabels [0, 0, 1, 1] [0, 1, 0, 1] rfl rfl rfl, sampleCols_and]

theorem ofTriples_hasShape (cs : List V3) : (ofTriples cs).HasShape 3 cs.length := by
  refine ⟨rfl, rfl, ?_⟩
  intro row hrow
  simp only [ofTriples, List.mem_cons, List.mem_singleton, List.not_mem_nil, or_false] at hrow
  rcases hrow with h | h | h <;> simp [h]

theorem hasShape_three {m : Matrix ℚ} {n : Nat} (h : m.HasShape 3 n) :
    ∃ cs : List V3, m = ofTriples cs ∧ cs.length = n := by
  obtain ⟨cols, data⟩ := m
  obtain ⟨h1, h2, h3⟩ := h
  simp only at h1 h2 h3
  subst h2
  match data, h1, h3 with
  | [r0, r1, r2], _, h3 =>
    have e0 := h3 r0 (by simp)
    have e1 := h3 r1 (by simp)
    have e2 := h3 r2 (by simp)
    refine ⟨zip3 r0 r1 r2, (ofTriples_zip3 r0 r1 r2 cols e0 e1 e2).symm, ?_⟩
    simp [zip3, e0, e1, e2]

theorem entry_ofTriples (cs : List V3) (j : Nat) (hj : j < cs.length) :
    (ofTriples cs).entry 0 j = (cs.get ⟨j, hj⟩).1 ∧
    (ofTriples cs).entry 1 j = (cs.get ⟨j, hj⟩).2.1 ∧
    (ofTriples cs).entry 2 j = (cs.get ⟨j, hj⟩).2.2 := by
  simp [Matrix.entry, ofTriples, hj]

theorem normTriple_normTriple (c : V3) : normTriple (normTriple c) = c := by
  obtain ⟨a, b, l⟩ := c
  by_cases h : l < 0 <;> simp [normTriple, h]

theorem ofTriples_injective : ∀ (cs ds : List V3), ofTriples cs = ofTriples ds → cs = ds := by
  intro cs
  induction cs with
  | nil =>
    intro ds h
    have hl := congrArg Matrix.cols_ h
    simp only [ofTriples, List.length_nil] at hl
    exact (List.length_eq_zero.mp hl.symm).symm
  | cons c cs ih =>
    intro ds h
    cases ds with
    | nil =>
      have hl := congrArg Matrix.cols_ h
      simp [ofTriples] at hl
    | cons d ds =>
      simp only [ofTriples, List.map_cons, List.length_cons, Matrix.mk.injEq, List.cons.injEq,
        and_true] at h
      obtain ⟨hlen, ⟨a1, a2⟩, ⟨b1, b2⟩, ⟨c1, c2⟩⟩ := h
      have hcd : c = d := Prod.ext a1 (Prod.ext b1 c1)
      have htl : ofTriples cs = ofTriples ds := by
        simp only [ofTriples, a2, b2, c2]
        congr 1
        omega
      rw [hcd, ih ds htl]

theorem signNormalize_entries (A : Matrix ℚ) (n : Nat) (hA : A.HasShape 3 n) :
    ∃ B, signNormalize A = .ok B ∧ B.HasShape 3 n ∧ B.getRow 2 = A.getRow 2 ∧
      ∀ j, j < n →
        (A.entry 2 j < 0 →
          B.entry 0 j = -A.entry 0 j ∧ B.entry 1 j = -A.entry 1 j ∧
            B.entry 2 j = A.entry 2 j) ∧
        (¬ A.entry 2 j < 0 → ∀ r, r < 3 → B.entry r j = A.entry r j) := by
  obtain ⟨cs, rfl, hlen⟩ := hasShape_three hA
  subst hlen
  refine ⟨_, signNormalize_ofTriples cs, ?_, ?_, ?_⟩
  · have := ofTriples_hasShape (cs.map normTriple)
    simpa using this
  · have hfun : ((fun c : V3 => c.2.2) ∘ normTriple) = fun c => c.2.2 := by
      funext c
      simp only [Function.comp, normTriple]
      split <;> rfl
    simp [Matrix.getRow, ofTriples, hfun]
  · intro j hj
    have hj' : j < (cs.map normTriple).length := by simpa using hj
    obtain ⟨a0, a1, a2⟩ := entry_ofTriples cs j hj
    obtain ⟨b0, b1, b2⟩ := entry_ofTriples (cs.map normTriple) j hj'
    have hget : (cs.map normTriple).get ⟨j, hj'⟩ = normTriple (cs.get ⟨j, hj⟩) := by simp
    rw [hget] at b0 b1 b2
    rw [a2]
    have key : ∀ c : V3, (c.2.2 < 0 → (normTriple c).1 = -c.1 ∧ (normTriple c).2.1 = -c.2.1 ∧
        (normTriple c).2.2 = c.2.2) ∧ (¬ c.2.2 < 0 → normTriple c = c) := by
      intro c
      constructor
      · intro h
        simp [normTriple, h]
      · intro h
        simp [normTriple, h]
    obtain ⟨k1, k2⟩ := key (cs.get ⟨j, hj⟩)
    constructor
    · intro hneg
      rw [a0, a1, b0, b1, b2]
      exact k1 hneg
    · intro hneg r hr
      rw [k2 hneg] at b0 b1 b2
      interval_cases r
      · rw [a0, b0]
      · rw [a1, b1]
      · rw [a2, b2]

theorem sampleCols_length (x1 x2 labels : List ℚ) (h1 : x1.length = labels.length)
    (h2 : x2.length = labels.length) : (sampleCols x1 x2 labels).length = labels.length := by
  simp [sampleCols, zip3, h1, h2]

theorem sampleCols_get (x1 x2 labels : List ℚ) (j : Nat)
    (hj : j < (sampleCols x1 x2 labels).length) :
    (sampleCols x1 x2 labels).get ⟨j, hj⟩
      = normTriple (x1.getD j 0, x2.getD j 0, labels.getD j 0) := by
  have hj' : j < x1.length ∧ j < x2.length ∧ j < labels.length := by
    simpa [sampleCols, zip3] using hj
  simp [sampleCols, zip3, hj'.1, hj'.2.1, hj'.2.2]

theorem entry_inputs {inputs : Matrix ℚ} {x1 x2 : List ℚ} (hd : inputs.data = [x1, x2])
    (j : Nat) : inputs.entry 0 j = x1.getD j 0 ∧ inputs.entry 1 j = x2.getD j 0 := by
  simp [Matrix.entry, hd]

theorem entry_colVec (w : V3) :
    (colVec w).entry 0 0 = w.1 ∧ (colVec w).entry 1 0 = w.2.1 ∧ (colVec w).entry 2 0 = w.2.2 := by
  simp [Matrix.entry, colVec]

theorem dot_self_toCol (c : V3) : Matrix.dot (toCol c) (toCol c) = normSq c := by
  rw [dot_toCol]
  rfl

/-- One iteration of the relaxation loop, when no misclassified column has squared norm 0. -/
theorem relaxationLoop_one (cs : List V3) (lr b : ℚ) (iter : Nat) (p : Perceptron) (w : V3)
    (hv : p.v = colVec w) (hn : ∀ y ∈ misCols cs b w, normSq y ≠ 0) :
    relaxationLoop (ofTriples cs) lr b 1 iter p (ofTriples (misCols cs b w))
      = outcomeOf p cs b (runLoop (relaxationStep cs lr b) cs b 1 iter w) := by
  show relaxationLoop (ofTriples cs) lr b (0 + 1) iter p (ofTriples (misCols cs b w))
      = outcomeOf p cs b (runLoop (relaxationStep cs lr b) cs b (0 + 1) iter w)
  unfold relaxationLoop runLoop
  have hcols : (ofTriples (misCols cs b w)).getColsCount = (misCols cs b w).length := rfl
  rw [hcols]
  by_cases h0 : (misCols cs b w).length = 0
  · simp [h0, outcomeOf, ← hv]
  · simp only [h0, if_false]
    rw [sumofRelaxation_ofTriples p w _ b hv hn]
    simp only [Except.bind]
    rw [hv, addAssign_scale_colVec]
    simp only []
    rw [misclassified_ofTriples _ (relaxationStep cs lr b w) cs b rfl]
    rfl

theorem relaxationAlgorithm_one (p : Perceptron) (inputs : Matrix ℚ)
    (labels x1 x2 : List ℚ) (lr b : ℚ) (w : V3)
    (hN : p.numberOfInputs = 2) (hv : p.v = colVec w) (hd : inputs.data = [x1, x2])
    (hc : inputs.cols_ = labels.length)
    (h1 : x1.length = labels.length) (h2 : x2.length = labels.length)
    (hn : ∀ y ∈ misCols (sampleCols x1 x2 labels) b w, normSq y ≠ 0) :
    relaxationAlgorithm p inputs labels 1 lr b
      = outcomeOf p (sampleCols x1 x2 labels) b
          (runLoop (relaxationStep (sampleCols x1 x2 labels) lr b) (sampleCols x1 x2 labels) b
            1 0 w) := by
  rw [relaxationAlgorithm_unfold p inputs labels x1 x2 1 lr b w hN hv hd hc h1 h2]
  exact relaxationLoop_one _ lr b 0 p w hv hn

theorem and_lone_violator :
    (ofTriples andCols).columns.filter
      (fun col => decide (Matrix.dot ((perceptronOf 2 2 (-15 / 4)).v.getCol 0) col < 1 / 2))
      = [[1, 1, 1]] := by
  show (ofTriples andCols).columns.filter
      (fun col => decide (Matrix.dot ((colVec (2, 2, -15 / 4)).getCol 0) col < 1 / 2)) = _
  rw [filter_columns_ofTriples]
  have hm : misCols andCols (1 / 2) (2, 2, -15 / 4) = [((1 : ℚ), (1 : ℚ), (1 : ℚ))] := by
    simp only [misCols, andCols, score, List.filter]
    norm_num
  rw [hm]
  rfl

theorem sampleCols_eq_map_range (x1 x2 labels : List ℚ) (h1 : x1.length = labels.length)
    (h2 : x2.length = labels.length) :
    sampleCols x1 x2 labels
      = (List.range labels.length).map
          (fun j => normTriple (x1.getD j 0, x2.getD j 0, labels.getD j 0)) := by
  have hlen := sampleCols_length x1 x2 labels h1 h2
  apply List.ext_getElem
  · simp [hlen]
  · intro j hj1 hj2
    have := sampleCols_get x1 x2 labels j hj1
    simp only [List.get_eq_getElem] at this
    rw [this]
    simp

theorem sampleCols_permute (idx : List Nat) (x1 x2 labels : List ℚ) :
    sampleCols (permuteList idx x1) (permuteList idx x2) (permuteList idx labels)
      = idx.map (fun j => normTriple (x1.getD j 0, x2.getD j 0, labels.getD j 0)) := by
  simp only [sampleCols, zip3, permuteList, List.zip_map', List.map_map]
  rfl

theorem sum3_perm {ys zs : List V3} (h : ys.Perm zs) : sum3 ys = sum3 zs := by
  simp only [sum3]
  rw [(h.map (fun c => c.1)).sum_eq, (h.map (fun c => c.2.1)).sum_eq,
    (h.map (fun c => c.2.2)).sum_eq]

/-- The training loop does not depend on the order of the sample columns. -/
theorem runLoop_perm {cs ds : List V3} (h : cs.Perm ds) (lr : ℚ) (fuel : Nat) :
    ∀ (iter : Nat) (w : V3),
      runLoop (criterionStep cs lr) cs 0 fuel iter w
        = runLoop (criterionStep ds lr) ds 0 fuel iter w := by
  have hmis : ∀ w, (misCols cs 0 w).Perm (misCols ds 0 w) := fun w => h.filter _
  have hstep : ∀ w, criterionStep cs lr w = criterionStep ds lr w := by
    intro w
    simp only [criterionStep, sum3_perm (hmis w)]
  induction fuel with
  | zero =>
    intro iter w
    rfl
  | succ fuel ih =>
    intro iter w
    unfold runLoop
    rw [(hmis w).length_eq, hstep w, ih]

/-! ## Lemmas, arithmetic of `double` -/

theorem roundHalfEven_intCast (n : ℤ) : roundHalfEven (n : ℚ) = n := by
  simp [roundHalfEven]

theorem log_lt_of_abs_lt {q : ℚ} {x : ℤ} (hq : q ≠ 0) (h : |q| < 2 ^ x) :
    Int.log 2 |q| < x := by
  have hpos : 0 < |q| := abs_pos.mpr hq
  have hb : 1 < 2 := by norm_num
  have hcast : |q| < ((2 : ℕ) : ℚ) ^ x := by simpa using h
  exact (Int.lt_zpow_iff_log_lt hb hpos).mp hcast

/-- A rational `m * 2 ^ e` with a significand of at most 53 bits and an exponent in the
range of `double` is a `double`: rounding leaves it as it is. -/
theorem round_exact (m e : ℤ) (hm : |m| < 2 ^ 53) (he1 : -1074 ≤ e) (he2 : e ≤ 971) :
    Double.round ((m : ℚ) * 2 ^ e) = .fin ((m : ℚ) * 2 ^ e) := by
  by_cases h0 : m = 0
  · subst h0
    have hp : ¬ ((2 : ℚ) ^ (1024 : ℤ) ≤ 0) := not_le.mpr (by positivity)
    simp [Double.round, roundHalfEven, hp]
  have h2e : (0 : ℚ) < 2 ^ e := zpow_pos (by norm_num) e
  have hmq : |(m : ℚ)| < 2 ^ 53 := by exact_mod_cast hm
  have hqne : (m : ℚ) * 2 ^ e ≠ 0 := mul_ne_zero (by exact_mod_cast h0) (ne_of_gt h2e)
  have habs : |(m : ℚ) * 2 ^ e| = |(m : ℚ)| * 2 ^ e := by
    rw [abs_mul, abs_of_pos h2e]
  have hL : Int.log 2 |(m : ℚ) * 2 ^ e| < 53 + e := by
    apply log_lt_of_abs_lt hqne
    rw [habs, zpow_add₀ (by norm_num : (2 : ℚ) ≠ 0)]
    refine mul_lt_mul_of_pos_right ?_ h2e
    rw [show (53 : ℤ) = ((53 : ℕ) : ℤ) from rfl, zpow_natCast]
    exact hmq
  have hbe : Double.binade ((m : ℚ) * 2 ^ e) - 52 ≤ e := by
    unfold Double.binade
    rcases max_cases (Int.log 2 |(m : ℚ) * 2 ^ e|) (-1022) with ⟨h, _⟩ | ⟨h, _⟩ <;>
      rw [h] <;> omega
  obtain ⟨k, hk⟩ : ∃ k : ℕ, e = (Double.binade ((m : ℚ) * 2 ^ e) - 52) + k :=
    ⟨(e - (Double.binade ((m : ℚ) * 2 ^ e) - 52)).toNat, by omega⟩
  generalize hb : Double.binade ((m : ℚ) * 2 ^ e) - 52 = u at hk hbe
  have hu : (0 : ℚ) < 2 ^ u := zpow_pos (by norm_num) u
  have hsplit : (2 : ℚ) ^ e = 2 ^ u * 2 ^ k := by
    rw [hk, zpow_add₀ (by norm_num : (2 : ℚ) ≠ 0), zpow_natCast]
  have hdiv : (m : ℚ) * 2 ^ e / 2 ^ u = ((m * 2 ^ k : ℤ) : ℚ) := by
    rw [hsplit]
    field_simp
    ring
  have hlt : |(m : ℚ) * 2 ^ e| < 2 ^ (1024 : ℤ) := by
    rw [habs]
    calc |(m : ℚ)| * 2 ^ e < 2 ^ 53 * 2 ^ e := mul_lt_mul_of_pos_right hmq h2e
      _ ≤ 2 ^ 53 * 2 ^ (971 : ℤ) := by
        apply mul_le_mul_of_nonneg_left _ (by norm_num)
        exact zpow_le_zpow_right₀ (by norm_num) he2
      _ = 2 ^ (1024 : ℤ) := by
        rw [← zpow_natCast, ← zpow_add₀ (by norm_num : (2 : ℚ) ≠ 0)]
        norm_num
  unfold Double.round
  simp only [hb, hdiv, roundHalfEven_intCast]
  have hr : ((m * 2 ^ k : ℤ) : ℚ) * 2 ^ u = (m : ℚ) * 2 ^ e := by
    rw [hsplit]
    push_cast
    ring
  rw [hr, if_neg (not_le.mpr hlt)]

theorem round_zero : Double.round 0 = .fin 0 := by
  have h := round_exact 0 0 (by norm_num) (by norm_num) (by norm_num)
  simpa using h

theorem round_one : Double.round 1 = .fin 1 := by
  have h := round_exact 1 0 (by norm_num) (by norm_num) (by norm_num)
  simpa using h

theorem round_two : Double.round 2 = .fin 2 := by
  have h := round_exact 2 0 (by norm_num) (by norm_num) (by norm_num)
  simpa using h

theorem round_three : Double.round 3 = .fin 3 := by
  have h := round_exact 3 0 (by norm_num) (by norm_num) (by norm_num)
  simpa using h

theorem round_neg_one : Double.round (-1) = .fin (-1) := by
  have h := round_exact (-1) 0 (by norm_num) (by norm_num) (by norm_num)
  simpa using h

theorem round_neg_two : Double.round (-2) = .fin (-2) := by
  have h := round_exact (-2) 0 (by norm_num) (by norm_num) (by norm_num)
  simpa using h

theorem round_neg_three : Double.round (-3) = .fin (-3) := by
  have h := round_exact (-3) 0 (by norm_num) (by norm_num) (by norm_num)
  simpa using h

theorem round_four : Double.round 4 = .fin 4 := by
  have h := round_exact 4 0 (by norm_num) (by norm_num) (by norm_num)
  simpa using h

theorem double_add_nan (x : Double) : Double.add x .nan = .nan := by
  cases x <;> rfl

theorem double_nan_mul (x : Double) : Double.mul .nan x = .nan := rfl

/-- A quotient by zero is an infinity or NaN; times zero it is NaN. -/
theorem double_div_zero_mul_zero (x : Double) :
    Double.mul (Double.div x (.fin 0)) (.fin 0) = .nan := by
  cases x with
  | fin a =>
    by_cases ha : a = 0
    · simp [Double.div, ha, Double.mul]
    · by_cases hp : 0 < a
      · simp [Double.div, ha, hp, Double.mul]
      · simp [Double.div, ha, hp, Double.mul]
  | posInf => simp [Double.div, Double.mul]
  | negInf => simp [Double.div, Double.mul]
  | nan => rfl

theorem binary64_zero : binary64.zero = .fin 0 := rfl

theorem binary64_negOne : binary64.negOne = .fin (-1) := rfl

theorem binary64_add : binary64.add = Double.add := rfl

theorem binary64_mul : binary64.mul = Double.mul := rfl

theorem binary64_lt : binary64.lt = Double.lt := rfl

theorem double_add_fin (a b : ℚ) : Double.add (.fin a) (.fin b) = Double.round (a + b) := rfl

theorem double_mul_fin (a b : ℚ) : Double.mul (.fin a) (.fin b) = Double.round (a * b) := rfl

theorem double_lt_fin (a b : ℚ) : Double.lt (.fin a) (.fin b) = decide (a < b) := rfl

/-- Where `x >= y` holds, the comparison `x < y` is false. -/
theorem double_lt_eq_false_of_ge (x y : Double) (h : Double.ge x y = true) :
    Double.lt x y = false := by
  cases x <;> cases y <;> simp_all [Double.ge, Double.lt]

/-- Where the comparison `x < y` is false and neither operand is NaN, `x >= y` holds. -/
theorem double_ge_of_lt_eq_false (x y : Double) (hx : x ≠ .nan) (hy : y ≠ .nan)
    (h : Double.lt x y = false) : Double.ge x y = true := by
  cases x <;> cases y <;> simp_all [Double.ge, Double.lt]

namespace Gen

variable {D : Type}

theorem gen_dot_toCol (A : Arith D) (w c : V3 D) : dot A (toCol w) (toCol c) = score A w c := by
  simp [dot, toCol, score]

theorem gen_columns_ofTriples (cs : List (V3 D)) : (ofTriples cs).columns = cs.map toCol := by
  apply List.ext_getElem
  · simp [Matrix.columns, ofTriples]
  · intro j h1 h2
    have hj : j < cs.length := by simpa using h2
    simp [Matrix.columns, ofTriples, Matrix.getCol, toCol, hj]

theorem gen_columns_colVec (w : V3 D) : (colVec w).columns = [toCol w] := by
  simp [Matrix.columns, colVec, Matrix.getCol, toCol, List.range_succ]

theorem gen_getCol_colVec (w : V3 D) : (colVec w).getCol 0 = toCol w := by
  simp [Matrix.getCol, colVec, toCol]

theorem gen_scores_ofTriples (A : Arith D) (w : V3 D) (cs : List (V3 D)) :
    mul A (colVec w).transpose (ofTriples cs) = .ok ⟨cs.length, [cs.map (score A w)]⟩ := by
  have hfun : ((fun col => dot A (toCol w) col) ∘ toCol) = score A w := by
    funext c
    simp [gen_dot_toCol]
  simp only [Matrix.transpose, gen_columns_colVec, mul, gen_columns_ofTriples]
  simp [colVec, ofTriples, hfun]

/-- `Y` for 3x1 weights `w` and a 3xM matrix: the columns whose weighted sum is below the
threshold, in order. -/
theorem gen_misclassified_ofTriples (A : Arith D) (p : Perceptron D) (w : V3 D)
    (cs : List (V3 D)) (thr : D) (hv : p.v = colVec w) :
    misclassified A p (ofTriples cs) thr = .ok (ofTriples (misCols A cs thr w)) := by
  unfold misclassified
  rw [hv, gen_scores_ofTriples, ok_bind]
  have hrow : (lt A ⟨cs.length, [cs.map (score A w)]⟩ thr).getRow 0
      = .ok (cs.map (fun c => A.lt (score A w c) thr)) := by
    simp [lt, Matrix.getRow]
  simp only []
  rw [hrow, ok_bind]
  simp [ofTriples, Matrix.filterCols, filterMask_map, count_map_true, misCols]

theorem gen_hasShape_three_one {m : Matrix D} (h : m.HasShape 3 1) :
    ∃ w : V3 D, m = colVec w := by
  obtain ⟨cols, data⟩ := m
  obtain ⟨h1, h2, h3⟩ := h
  simp only at h1 h2 h3
  subst h2
  match data, h1, h3 with
  | [r0, r1, r2], _, h3 =>
    have e0 := h3 r0 (by simp)
    have e1 := h3 r1 (by simp)
    have e2 := h3 r2 (by simp)
    match r0, r1, r2, e0, e1, e2 with
    | [a], [b], [c], _, _, _ => exact ⟨(a, b, c), rfl⟩

theorem gen_colVec_hasShape (w : V3 D) : (colVec w).HasShape 3 1 := by
  simp [Matrix.HasShape, colVec]

theorem gen_ofTriples_zip3 (r0 r1 r2 : List D) (n : Nat) (h0 : r0.length = n)
    (h1 : r1.length = n) (h2 : r2.length = n) :
    ofTriples (zip3 r0 r1 r2) = ⟨n, [r0, r1, r2]⟩ := by
  have hz : (List.zip r1 r2).length = n := by simp [h1, h2]
  have e0 : (zip3 r0 r1 r2).map (fun c => c.1) = r0 := by
    unfold zip3
    exact List.map_fst_zip r0 _ (by omega)
  have e12 : (zip3 r0 r1 r2).map (fun c => c.2) = List.zip r1 r2 := by
    unfold zip3
    exact List.map_snd_zip r0 _ (by omega)
  have e1 : (zip3 r0 r1 r2).map (fun c => c.2.1) = r1 := by
    have := congrArg (List.map (fun c : D × D => c.1)) e12
    rw [List.map_map] at this
    rw [List.map_fst_zip r1 r2 (by omega)] at this
    exact this
  have e2 : (zip3 r0 r1 r2).map (fun c => c.2.2) = r2 := by
    have := congrArg (List.map (fun c : D × D => c.2)) e12
    rw [List.map_map] at this
    rw [List.map_snd_zip r1 r2 (by omega)] at this
    exact this
  have hl : (zip3 r0 r1 r2).length = n := by simp [zip3, h0, h1, h2]
  simp [ofTriples, e0, e1, e2, hl]

/-- The working matrix of a 2xM input matrix with rows `x1`, `x2` is `[x1; x2; labels]`. -/
theorem gen_buildInTemp_eq (inputs : Matrix D) (labels x1 x2 : List D)
    (hd : inputs.data = [x1, x2])
    (h1 : x1.length = labels.length) (h2 : x2.length = labels.length) :
    buildInTemp inputs labels = .ok ⟨labels.length, [x1, x2, labels]⟩ := by
  simp [buildInTemp, Matrix.ofData, Matrix.getRows, hd, List.range_succ, bind, Except.bind,
    Matrix.push_backRow, h1, h2, Matrix.swapRows, pure, Except.pure]

theorem gen_normUpTo_zero (A : Arith D) (cs : List (V3 D)) : normUpTo A 0 cs = cs := by
  apply List.ext_getElem
  · simp [normUpTo]
  · intro i h1 h2
    simp [normUpTo]

theorem gen_normUpTo_length (A : Arith D) (cs : List (V3 D)) :
    normUpTo A cs.length cs = cs.map (normTriple A) := by
  apply List.ext_getElem
  · simp [normUpTo]
  · intro i h1 h2
    have hi : i < cs.length := by simpa using h2
    simp [normUpTo, hi]

theorem gen_normUpTo_succ (A : Arith D) (l : Nat) (cs : List (V3 D)) (hl : l < cs.length) :
    (normUpTo A l cs).set l (normTriple A (cs.get ⟨l, hl⟩)) = normUpTo A (l + 1) cs := by
  apply List.ext_getElem
  · simp [normUpTo]
  · intro i h1 h2
    have hi : i < cs.length := by simpa [normUpTo] using h2
    by_cases hil : l = i
    · subst hil
      simp [normUpTo]
    · have h3 : (i < l + 1) = (i < l) := by
        apply propext
        constructor <;> intro h <;> omega
      simp [normUpTo, List.getElem_set_ne hil, h3]

theorem gen_normalizeBody_ofTriples (A : Arith D) (ds : List (V3 D)) (l : Nat)
    (hl : l < ds.length) :
    (do
      let label ← (ofTriples ds).at_ 2 l
      if A.lt label A.zero then
        forLoop ((ofTriples ds).getRowsCount - 1) (fun dr m => do
          let x ← m.at_ dr l
          m.setAt dr l (A.mul x A.negOne)) (ofTriples ds)
      else .ok (ofTriples ds) : Except Error (Matrix D))
      = .ok (ofTriples (ds.set l (normTriple A (ds.get ⟨l, hl⟩)))) := by
  have hlab : (ofTriples ds).at_ 2 l = .ok (ds.get ⟨l, hl⟩).2.2 := by
    simp [ofTriples, Matrix.at_, hl]
  rw [hlab]
  simp only [bind, Except.bind]
  by_cases hneg : A.lt (ds.get ⟨l, hl⟩).2.2 A.zero = true
  · simp only [hneg, if_true]
    have hrows : (ofTriples ds).getRowsCount - 1 = 2 := rfl
    rw [hrows, forLoop_succ, forLoop_succ, forLoop_zero]
    have hneg' : A.lt ds[l].2.2 A.zero = true := hneg
    simp [ofTriples, Matrix.at_, Matrix.setAt, hl, Except.bind, bind, normTriple, hneg']
    exact (set_getElem_same _ l (by simpa using hl) _ (by simp)).symm
  · have hneg' : ¬ A.lt ds[l].2.2 A.zero = true := hneg
    have hs : ds.set l ds[l] = ds := set_getElem_same ds l hl _ rfl
    simp [normTriple, hneg', hs]

theorem gen_signNormalize_upTo (A : Arith D) (cs : List (V3 D)) (l : Nat)
    (hl : l ≤ cs.length) :
    forLoop l (fun l m => do
      let label ← m.at_ 2 l
      if A.lt label A.zero then
        forLoop (m.getRowsCount - 1) (fun dr m => do
          let x ← m.at_ dr l
          m.setAt dr l (A.mul x A.negOne)) m
      else .ok m) (ofTriples cs) = .ok (ofTriples (normUpTo A l cs)) := by
  induction l with
  | zero => rw [forLoop_zero, gen_normUpTo_zero]
  | succ l ih =>
    rw [forLoop_succ, ih (by omega)]
    have hl2 : l < (normUpTo A l cs).length := by simp [normUpTo]; omega
    have hget : (normUpTo A l cs).get ⟨l, hl2⟩ = cs.get ⟨l, by omega⟩ := by
      simp [normUpTo]
    show (do
      let label ← (ofTriples (normUpTo A l cs)).at_ 2 l
      if A.lt label A.zero then
        forLoop ((ofTriples (normUpTo A l cs)).getRowsCount - 1) (fun dr m => do
          let x ← m.at_ dr l
          m.setAt dr l (A.mul x A.negOne)) (ofTriples (normUpTo A l cs))
      else .ok (ofTriples (normUpTo A l cs)) : Except Error (Matrix D)) = _
    rw [gen_normalizeBody_ofTriples A _ l hl2, hget, gen_normUpTo_succ]

/-- The sign normalization loop normalizes every column. -/
theorem gen_signNormalize_ofTriples (A : Arith D) (cs : List (V3 D)) :
    signNormalize A (ofTriples cs) = .ok (ofTriples (cs.map (normTriple A))) := by
  have h := gen_signNormalize_upTo A cs cs.length (le_refl _)
  rw [gen_normUpTo_length] at h
  exact h

theorem gen_prepare_eq (A : Arith D) (inputs : Matrix D) (labels x1 x2 : List D)
    (hd : inputs.data = [x1, x2])
    (h1 : x1.length = labels.length) (h2 : x2.length = labels.length) :
    prepareInTemp A inputs labels = .ok (ofTriples (sampleCols A x1 x2 labels)) := by
  unfold prepareInTemp
  rw [gen_buildInTemp_eq inputs labels x1 x2 hd h1 h2]
  rw [← gen_ofTriples_zip3 x1 x2 labels labels.length h1 h2 rfl]
  exact gen_signNormalize_ofTriples A _

end Gen

namespace Gen

variable {D : Type}

/-- An inner loop that adds the terms `val 0`, ..., `val (k - 1)` to `sum.at(r, 0)`, in
this order. -/
theorem gen_accumLoop (A : Arith D) (term : Nat → Except Error D) (val : Nat → D) (r k : Nat)
    (hterm : ∀ c, c < k → term c = .ok (val c)) (sum : Matrix D) (s0 : D)
    (hrow : sum.data[r]? = some [s0]) :
    forLoop k (fun c sum => do
      let x ← term c
      let s ← sum.at_ r 0
      sum.setAt r 0 (A.add s x)) sum
    = .ok ⟨sum.cols_, sum.data.set r
        [(List.range k).foldl (fun acc c => A.add acc (val c)) s0]⟩ := by
  have hr : r < sum.data.length := by
    rcases Nat.lt_or_ge r sum.data.length with h | h
    · exact h
    · rw [List.getElem?_eq_none h] at hrow
      cases hrow
  have hget : sum.data.get ⟨r, hr⟩ = [s0] := by
    have := List.getElem?_eq_getElem hr
    rw [this] at hrow
    simpa using hrow
  induction k with
  | zero =>
    rw [forLoop_zero]
    simp only [List.range_zero, List.foldl_nil]
    rw [set_getElem_same sum.data r hr [s0] hget.symm]
  | succ k ih =>
    rw [forLoop_succ, ih (fun c hc => hterm c (by omega))]
    simp only [Except.bind, bind, hterm k (Nat.lt_succ_self k)]
    simp [Matrix.at_, Matrix.setAt, hr, List.range_succ]

theorem gen_foldl_range_getD (A : Arith D) (xs : List D) (d s0 : D) :
    (List.range xs.length).foldl (fun acc c => A.add acc (xs.getD c d)) s0
      = xs.foldl A.add s0 := by
  have h : (List.range xs.length).map (fun c => xs.getD c d) = xs := by
    apply List.ext_getElem
    · simp
    · intro i h1 h2
      simp [h2]
  have h2 := List.foldl_map (fun c => xs.getD c d) A.add (List.range xs.length) s0
  rw [h] at h2
  exact h2.symm

theorem gen_foldl_map_sumRow (A : Arith D) (f : V3 D → D) (ys : List (V3 D)) :
    (ys.map f).foldl A.add A.zero = sumRow A f ys := by
  unfold sumRow
  rw [List.foldl_map]

/-- The lambda `sumof` of the perceptron criterion sums the columns row by row. -/
theorem gen_sumof_ofTriples (A : Arith D) (p : Perceptron D) (ys : List (V3 D))
    (h3 : p.v.data.length = 3) :
    sumof A p (ofTriples ys) = .ok (colVec (sum3 A ys)) := by
  have step : ∀ (r : Nat) (f : V3 D → D), (ofTriples ys).data[r]? = some (ys.map f) →
      ∀ (sum : Matrix D) (s0 : D), sum.data[r]? = some [s0] →
      forLoop ys.length (fun c sum => do
        let x ← (ofTriples ys).at_ r c
        let s ← sum.at_ r 0
        sum.setAt r 0 (A.add s x)) sum
      = .ok ⟨sum.cols_, sum.data.set r [(ys.map f).foldl A.add s0]⟩ := by
    intro r f hr sum s0 hs
    have hterm : ∀ c, c < ys.length →
        (ofTriples ys).at_ r c = .ok ((ys.map f).getD c A.zero) := by
      intro c hc
      simp [Matrix.at_, hr, hc]
    rw [gen_accumLoop A _ _ r ys.length hterm sum s0 hs]
    have e := gen_foldl_range_getD A (ys.map f) A.zero s0
    simp only [List.length_map] at e
    rw [e]
  unfold sumof
  simp only [Matrix.getRowsCount, h3, Matrix.fill, Matrix.getColsCount, List.length_replicate]
  have hc : (ofTriples ys).cols_ = ys.length := rfl
  rw [hc, forLoop_three]
  rw [step 0 (fun c => c.1) rfl _ A.zero (by rfl)]
  simp only [Except.bind, List.replicate, List.set]
  rw [step 1 (fun c => c.2.1) rfl _ A.zero (by rfl)]
  simp only [Except.bind, List.set]
  rw [step 2 (fun c => c.2.2) rfl _ A.zero (by rfl)]
  simp only [List.set, gen_foldl_map_sumRow]
  rfl

theorem gen_addAssign_scale_colVec (A : Arith D) (w s : V3 D) (lr : D) :
    addAssign A (colVec w) (scale A (colVec s) lr) = .ok (colVec (addScaled A w s lr)) := by
  simp [addAssign, scale, colVec, addScaled]

theorem gen_criterionUpdate (A : Arith D) (p : Perceptron D) (w : V3 D) (ys : List (V3 D))
    (lr : D) (hv : p.v = colVec w) :
    criterionUpdate A lr p (ofTriples ys) = .ok (colVec (addScaled A w (sum3 A ys) lr)) := by
  unfold criterionUpdate
  rw [gen_sumof_ofTriples A p ys (by rw [hv]; rfl), hv]
  exact gen_addAssign_scale_colVec A w (sum3 A ys) lr

theorem gen_squaredNorms_ofTriples (A : Arith D) (cs : List (V3 D)) :
    sumCols A (power A (ofTriples cs)) = ⟨cs.length, [cs.map (normSq A)]⟩ := by
  have hp : power A (ofTriples cs)
      = ofTriples (cs.map (fun c => (A.mul c.1 c.1, A.mul c.2.1 c.2.1, A.mul c.2.2 c.2.2))) := by
    simp [power, ofTriples, Function.comp_def]
  rw [hp]
  simp only [sumCols, gen_columns_ofTriples]
  have hfun : ((fun col : List D => col.foldl A.add A.zero) ∘ toCol ∘
      (fun c : V3 D => (A.mul c.1 c.1, A.mul c.2.1 c.2.1, A.mul c.2.2 c.2.2))) = normSq A := by
    funext c
    simp [toCol, normSq]
  simp [ofTriples, hfun]

theorem gen_atFlat_row (xs : List D) (c : Nat) (hc : c < xs.length) :
    (⟨xs.length, [xs]⟩ : Matrix D).atFlat c = .ok (xs.get ⟨c, hc⟩) := by
  simp [Matrix.atFlat, Matrix.at_, Nat.div_eq_of_lt hc, Nat.mod_eq_of_lt hc, hc]

theorem gen_relaxBody_eq (A : Arith D) (criteria in2 inp : Matrix D) (b : D) (r : Nat) :
    (fun (c : Nat) (sum : Matrix D) => (do
        let crit ← criteria.atFlat c
        let norm ← in2.atFlat c
        let x ← inp.at_ r c
        let s ← sum.at_ r 0
        sum.setAt r 0 (A.add s (A.mul (A.div (A.sub b crit) norm) x)) :
          Except Error (Matrix D)))
      = (fun c sum => do
          let t ← relaxSummand A criteria in2 inp b r c
          let s ← sum.at_ r 0
          sum.setAt r 0 (A.add s t)) := by
  funext c sum
  simp only [relaxSummand, bind_assoc, pure_bind]

/-- The lambda `sumof` of the relaxation procedure: every column scaled by
`(b - criteria[c]) / in2[c]`, summed row by row. -/
theorem gen_sumofRelaxation_ofTriples (A : Arith D) (p : Perceptron D) (w : V3 D)
    (ys : List (V3 D)) (b : D) (hv : p.v = colVec w) :
    sumofRelaxation A p (ofTriples ys) b = .ok (colVec (relaxSum3 A w b ys)) := by
  have step : ∀ (r : Nat) (f : V3 D → D), (ofTriples ys).data[r]? = some (ys.map f) →
      ∀ (sum : Matrix D) (s0 : D), sum.data[r]? = some [s0] →
      forLoop ys.length (fun c sum => do
        let crit ← (⟨ys.length, [ys.map (score A w)]⟩ : Matrix D).atFlat c
        let norm ← (⟨ys.length, [ys.map (normSq A)]⟩ : Matrix D).atFlat c
        let x ← (ofTriples ys).at_ r c
        let s ← sum.at_ r 0
        sum.setAt r 0 (A.add s (A.mul (A.div (A.sub b crit) norm) x))) sum
      = .ok ⟨sum.cols_, sum.data.set r
          [(ys.map (fun y => A.mul (relaxCoef A w b y) (f y))).foldl A.add s0]⟩ := by
    intro r f hr sum s0 hs
    rw [gen_relaxBody_eq]
    have hterm : ∀ c, c < ys.length →
        relaxSummand A ⟨ys.length, [ys.map (score A w)]⟩ ⟨ys.length, [ys.map (normSq A)]⟩
          (ofTriples ys) b r c
          = .ok ((ys.map (fun y => A.mul (relaxCoef A w b y) (f y))).getD c A.zero) := by
      intro c hc
      have h1 := gen_atFlat_row (ys.map (score A w)) c (by simpa using hc)
      have h2 := gen_atFlat_row (ys.map (normSq A)) c (by simpa using hc)
      simp only [List.length_map] at h1 h2
      unfold relaxSummand
      rw [h1, h2]
      simp [Matrix.at_, hr, hc, bind, Except.bind, pure, Except.pure, relaxCoef]
    rw [gen_accumLoop A _ _ r ys.length hterm sum s0 hs]
    have e := gen_foldl_range_getD A (ys.map (fun y => A.mul (relaxCoef A w b y) (f y)))
      A.zero s0
    simp only [List.length_map] at e
    rw [e]
  unfold sumofRelaxation
  rw [hv, gen_scores_ofTriples, gen_squaredNorms_ofTriples, ok_bind]
  simp only [Matrix.getRowsCount, Matrix.fill, Matrix.getColsCount, List.length_replicate]
  have h3 : (colVec w).data.length = 3 := rfl
  have hc : (ofTriples ys).cols_ = ys.length := rfl
  rw [h3, hc, forLoop_three]
  rw [step 0 (fun c => c.1) rfl _ A.zero (by rfl)]
  simp only [Except.bind, List.replicate, List.set]
  rw [step 1 (fun c => c.2.1) rfl _ A.zero (by rfl)]
  simp only [Except.bind, List.set]
  rw [step 2 (fun c => c.2.2) rfl _ A.zero (by rfl)]
  simp only [List.set, gen_foldl_map_sumRow]
  rfl

theorem gen_relaxationUpdate (A : Arith D) (p : Perceptron D) (w : V3 D) (ys : List (V3 D))
    (lr b : D) (hv : p.v = colVec w) :
    relaxationUpdate A lr b p (ofTriples ys)
      = .ok (colVec (addScaled A w (relaxSum3 A w b ys) lr)) := by
  unfold relaxationUpdate
  rw [gen_sumofRelaxation_ofTriples A p w ys b hv, hv]
  exact gen_addAssign_scale_colVec A w _ lr

/-- The perceptron criterion loop on 3x1 weights and a 3xM matrix is `runLoop`. -/
theorem gen_criterionLoop_eq (A : Arith D) (cs : List (V3 D)) (lr : D) (fuel : Nat) :
    ∀ (iter : Nat) (p : Perceptron D) (w : V3 D), p.v = colVec w →
      criterionLoop A (ofTriples cs) lr fuel iter p (ofTriples (misCols A cs A.zero w))
        = outcomeOf A p cs A.zero (runLoop A (criterionStep A cs lr) cs A.zero fuel iter w) := by
  induction fuel with
  | zero =>
    intro iter p w hv
    simp [criterionLoop, runLoop, outcomeOf, ← hv]
  | succ fuel ih =>
    intro iter p w hv
    unfold criterionLoop runLoop
    have hcols : (ofTriples (misCols A cs A.zero w)).getColsCount
        = (misCols A cs A.zero w).length := rfl
    rw [hcols]
    by_cases h0 : (misCols A cs A.zero w).length = 0
    · simp [h0, outcomeOf, ← hv]
    · simp only [h0, if_false]
      rw [gen_criterionUpdate A p w _ lr hv]
      simp only []
      rw [gen_misclassified_ofTriples A _ (criterionStep A cs lr w) cs A.zero rfl]
      simp only []
      exact ih (iter + 1) { p with v := colVec (criterionStep A cs lr w) }
        (criterionStep A cs lr w) rfl

/-- The relaxation loop on 3x1 weights and a 3xM matrix is `runLoop`. -/
theorem gen_relaxationLoop_eq (A : Arith D) (cs : List (V3 D)) (lr b : D) (fuel : Nat) :
    ∀ (iter : Nat) (p : Perceptron D) (w : V3 D), p.v = colVec w →
      relaxationLoop A (ofTriples cs) lr b fuel iter p (ofTriples (misCols A cs b w))
        = outcomeOf A p cs b (runLoop A (relaxationStep A cs lr b) cs b fuel iter w) := by
  induction fuel with
  | zero =>
    intro iter p w hv
    simp [relaxationLoop, runLoop, outcomeOf, ← hv]
  | succ fuel ih =>
    intro iter p w hv
    unfold relaxationLoop runLoop
    have hcols : (ofTriples (misCols A cs b w)).getColsCount = (misCols A cs b w).length := rfl
    rw [hcols]
    by_cases h0 : (misCols A cs b w).length = 0
    · simp [h0, outcomeOf, ← hv]
    · simp only [h0, if_false]
      rw [gen_relaxationUpdate A p w _ lr b hv]
      simp only []
      rw [gen_misclassified_ofTriples A _ (relaxationStep A cs lr b w) cs b rfl]
      simp only []
      exact ih (iter + 1) { p with v := colVec (relaxationStep A cs lr b w) }
        (relaxationStep A cs lr b w) rfl

theorem gen_validCall_unpack {p : Perceptron D} {inputs : Matrix D} {labels : List D}
    (h : ValidCall p inputs labels) :
    ∃ (w : V3 D) (x1 x2 : List D), p.v = colVec w ∧ inputs.data = [x1, x2] ∧
      inputs.cols_ = labels.length ∧ x1.length = labels.length ∧ x2.length = labels.length := by
  obtain ⟨_, hv, hl, hc, hrows⟩ := h
  obtain ⟨w, hw⟩ := gen_hasShape_three_one hv
  match hd : inputs.data, hl with
  | [x1, x2], _ =>
    refine ⟨w, x1, x2, hw, rfl, hc, ?_, ?_⟩
    · exact hrows x1 (by simp [hd])
    · exact hrows x2 (by simp [hd])

/-- A call of `perceptronCriterionAlgorithm` with valid shapes, as a run of `runLoop`. -/
theorem gen_perceptronCriterionAlgorithm_eq (A : Arith D) (p : Perceptron D)
    (inputs : Matrix D) (labels x1 x2 : List D) (maxIter : Nat) (lr : D) (w : V3 D)
    (hN : p.numberOfInputs = 2) (hv : p.v = colVec w) (hd : inputs.data = [x1, x2])
    (hc : inputs.cols_ = labels.length)
    (h1 : x1.length = labels.length) (h2 : x2.length = labels.length) :
    perceptronCriterionAlgorithm A p inputs labels maxIter lr
      = outcomeOf A p (sampleCols A x1 x2 labels) A.zero
          (runLoop A (criterionStep A (sampleCols A x1 x2 labels) lr)
            (sampleCols A x1 x2 labels) A.zero maxIter 0 w) := by
  unfold perceptronCriterionAlgorithm
  simp only [Matrix.getRowsCount, hd, hN, Matrix.getColsCount, hc, List.length_cons,
    List.length_nil, ne_eq, not_true_eq_false, if_false]
  rw [gen_prepare_eq A inputs labels x1 x2 hd h1 h2]
  simp only []
  rw [gen_misclassified_ofTriples A p w _ A.zero hv]
  simp only []
  exact gen_criterionLoop_eq A _ lr maxIter 0 p w hv

/-- A call of `relaxationAlgorithm` with valid shapes, as a run of `runLoop`. -/
theorem gen_relaxationAlgorithm_eq (A : Arith D) (p : Perceptron D)
    (inputs : Matrix D) (labels x1 x2 : List D) (maxIter : Nat) (lr b : D) (w : V3 D)
    (hN : p.numberOfInputs = 2) (hv : p.v = colVec w) (hd : inputs.data = [x1, x2])
    (hc : inputs.cols_ = labels.length)
    (h1 : x1.length = labels.length) (h2 : x2.length = labels.length) :
    relaxationAlgorithm A p inputs labels maxIter lr b
      = outcomeOf A p (sampleCols A x1 x2 labels) b
          (runLoop A (relaxationStep A (sampleCols A x1 x2 labels) lr b)
            (sampleCols A x1 x2 labels) b maxIter 0 w) := by
  unfold relaxationAlgorithm
  simp only [Matrix.getRowsCount, hd, hN, Matrix.getColsCount, hc, List.length_cons,
    List.length_nil, ne_eq, not_true_eq_false, if_false]
  rw [gen_prepare_eq A inputs labels x1 x2 hd h1 h2]
  simp only []
  rw [gen_misclassified_ofTriples A p w _ b hv]
  simp only []
  exact gen_relaxationLoop_eq A _ lr b maxIter 0 p w hv

end Gen

namespace Gen

variable {D : Type}

theorem gen_filter_columns_ofTriples (A : Arith D) (cs : List (V3 D)) (w : V3 D) (thr : D) :
    (ofTriples cs).columns.filter (fun col => A.lt (dot A ((colVec w).getCol 0) col) thr)
      = (misCols A cs thr w).map toCol := by
  rw [gen_columns_ofTriples, gen_getCol_colVec, List.filter_map]
  congr 1

theorem gen_misCols_eq_nil_of_columns (A : Arith D) {cs : List (V3 D)} {thr : D} {w : V3 D}
    (h : ∀ col ∈ (ofTriples cs).columns, A.lt (dot A ((colVec w).getCol 0) col) thr = false) :
    misCols A cs thr w = [] := by
  rw [gen_columns_ofTriples, gen_getCol_colVec] at h
  apply List.filter_eq_nil_iff.mpr
  intro c hc
  have := h (toCol c) (List.mem_map_of_mem _ hc)
  rw [gen_dot_toCol] at this
  simp [this]

theorem gen_columns_of_misCols_eq_nil (A : Arith D) {cs : List (V3 D)} {thr : D} {w : V3 D}
    (h : misCols A cs thr w = []) :
    ∀ col ∈ (ofTriples cs).columns, A.lt (dot A ((colVec w).getCol 0) col) thr = false := by
  intro col hcol
  rw [gen_columns_ofTriples] at hcol
  obtain ⟨c, hc, rfl⟩ := List.mem_map.mp hcol
  rw [gen_getCol_colVec, gen_dot_toCol]
  have := List.filter_eq_nil_iff.mp h c hc
  simpa using this

theorem gen_misCols_ne_nil_of_columns (A : Arith D) {cs : List (V3 D)} {thr : D} {w : V3 D}
    (h : ∃ col ∈ (ofTriples cs).columns, A.lt (dot A ((colVec w).getCol 0) col) thr = true) :
    (misCols A cs thr w).length ≠ 0 := by
  obtain ⟨col, hcol, hlt⟩ := h
  have hmem : col ∈ (ofTriples cs).columns.filter
      (fun col => A.lt (dot A ((colVec w).getCol 0) col) thr) :=
    List.mem_filter.mpr ⟨hcol, hlt⟩
  rw [gen_filter_columns_ofTriples] at hmem
  intro h0
  rw [List.length_eq_zero.mp h0] at hmem
  cases hmem

/-- A sum over columns given as lists is the sum over the triples. -/
theorem gen_foldl_columns (A : Arith D) (ys : List (V3 D)) (g : List D → D) :
    (ys.map toCol).foldl (fun acc col => A.add acc (g col)) A.zero
      = sumRow A (fun y => g (toCol y)) ys := by
  unfold sumRow
  rw [List.foldl_map]

/-- One iteration of the loop from a non-empty `Y`. -/
theorem gen_runLoop_one (A : Arith D) (step : V3 D → V3 D) (cs : List (V3 D)) (thr : D)
    (w : V3 D) (hne : (misCols A cs thr w).length ≠ 0) :
    runLoop A step cs thr 1 0 w = (step w, 1) := by
  show runLoop A step cs thr (0 + 1) 0 w = _
  unfold runLoop
  rw [if_neg hne]
  rfl

/-- No iteration when `Y` is empty at the start. -/
theorem gen_runLoop_exit (A : Arith D) (step : V3 D → V3 D) (cs : List (V3 D)) (thr : D)
    (fuel iter : Nat) (w : V3 D) (h : misCols A cs thr w = []) :
    runLoop A step cs thr fuel iter w = (w, iter) := by
  cases fuel with
  | zero => rfl
  | succ fuel =>
    unfold runLoop
    rw [if_pos (by rw [h]; rfl)]

/-- The loop performs `k` updates, where `k` is the smaller of `fuel` and the first index
at which `Y` is empty. -/
theorem gen_runLoop_spec (A : Arith D) (step : V3 D → V3 D) (cs : List (V3 D)) (thr : D)
    (fuel : Nat) :
    ∀ (iter : Nat) (w : V3 D), ∃ k, k ≤ fuel ∧
      runLoop A step cs thr fuel iter w = (step^[k] w, iter + k) ∧
      (∀ j, j < k → (misCols A cs thr (step^[j] w)).length ≠ 0) ∧
      ((misCols A cs thr (step^[k] w)).length = 0 ∨ k = fuel) := by
  induction fuel with
  | zero =>
    intro iter w
    exact ⟨0, le_refl 0, rfl, fun j hj => absurd hj (Nat.not_lt_zero j), Or.inr rfl⟩
  | succ fuel ih =>
    intro iter w
    by_cases h0 : (misCols A cs thr w).length = 0
    · refine ⟨0, Nat.zero_le _, ?_, fun j hj => absurd hj (Nat.not_lt_zero j), Or.inl h0⟩
      unfold runLoop
      rw [if_pos h0]
      rfl
    · obtain ⟨k, hk, hrun, hbefore, hstop⟩ := ih (iter + 1) (step w)
      refine ⟨k + 1, Nat.succ_le_succ hk, ?_, ?_, ?_⟩
      · unfold runLoop
        rw [if_neg h0, hrun, Function.iterate_succ_apply]
        simp only [Nat.add_assoc, Nat.add_comm 1 k]
      · intro j hj
        cases j with
        | zero => exact h0
        | succ j =>
          rw [Function.iterate_succ_apply]
          exact hbefore j (Nat.lt_of_succ_lt_succ hj)
      · rw [Function.iterate_succ_apply]
        rcases hstop with hstop | hstop
        · exact Or.inl hstop
        · exact Or.inr (by rw [hstop])

theorem gen_perceptron_eta (p : Perceptron D) (w : V3 D) (hv : p.v = colVec w) :
    ({ p with v := colVec w } : Perceptron D) = p := by
  cases p
  simp only at hv
  subst hv
  rfl

/-- The perceptron after `k` loop bodies of the perceptron criterion, on triples. -/
theorem gen_criterionUpdates_eq (A : Arith D) (cs : List (V3 D)) (lr : D) (p : Perceptron D)
    (w : V3 D) (hv : p.v = colVec w) (k : Nat) :
    criterionUpdates A (ofTriples cs) lr k p
      = .ok { p with v := colVec ((criterionStep A cs lr)^[k] w) } := by
  induction k with
  | zero =>
    simp only [criterionUpdates, Function.iterate_zero, id_eq]
    rw [gen_perceptron_eta p w hv]
  | succ k ih =>
    unfold criterionUpdates
    rw [ih]
    simp only [Except.bind]
    rw [gen_misclassified_ofTriples A _ ((criterionStep A cs lr)^[k] w) cs A.zero rfl]
    simp only []
    rw [gen_criterionUpdate A _ ((criterionStep A cs lr)^[k] w) _ lr rfl]
    simp only [Function.iterate_succ_apply']
    rfl

/-- The perceptron after `k` loop bodies of the relaxation procedure, on triples. -/
theorem gen_relaxationUpdates_eq (A : Arith D) (cs : List (V3 D)) (lr b : D)
    (p : Perceptron D) (w : V3 D) (hv : p.v = colVec w) (k : Nat) :
    relaxationUpdates A (ofTriples cs) lr b k p
      = .ok { p with v := colVec ((relaxationStep A cs lr b)^[k] w) } := by
  induction k with
  | zero =>
    simp only [relaxationUpdates, Function.iterate_zero, id_eq]
    rw [gen_perceptron_eta p w hv]
  | succ k ih =>
    unfold relaxationUpdates
    rw [ih]
    simp only [Except.bind]
    rw [gen_misclassified_ofTriples A _ ((relaxationStep A cs lr b)^[k] w) cs b rfl]
    simp only []
    rw [gen_relaxationUpdate A _ ((relaxationStep A cs lr b)^[k] w) _ lr b rfl]
    simp only [Function.iterate_succ_apply']
    rfl

/-- The outcome of a loop that stops after `k` updates. -/
theorem gen_outcomeOf_stop (A : Arith D) (p : Perceptron D) (cs : List (V3 D)) (thr : D)
    (step : V3 D → V3 D) (maxIter : Nat) (w : V3 D)
    (updates : Nat → Perceptron D → Except Error (Perceptron D))
    (hupd : ∀ k, updates k p = .ok { p with v := colVec (step^[k] w) }) :
    ∃ loc, (outcomeOf A p cs thr (runLoop A step cs thr maxIter 0 w)).result = .ok loc ∧
      loc.in_temp = ofTriples cs ∧
      loc.iter ≤ maxIter ∧
      updates loc.iter p = .ok (outcomeOf A p cs thr (runLoop A step cs thr maxIter 0 w)).perceptron ∧
      misclassified A (outcomeOf A p cs thr (runLoop A step cs thr maxIter 0 w)).perceptron
        (ofTriples cs) thr = .ok loc.Y ∧
      (loc.Y.getColsCount = 0 ∨ loc.iter = maxIter) ∧
      ∀ k, k < loc.iter → ∃ q Y, updates k p = .ok q ∧
        misclassified A q (ofTriples cs) thr = .ok Y ∧ Y.getColsCount ≠ 0 := by
  obtain ⟨k, hk, hrun, hbefore, hstop⟩ := gen_runLoop_spec A step cs thr maxIter 0 w
  rw [hrun]
  refine ⟨_, rfl, rfl, ?_, ?_, ?_, ?_, ?_⟩
  · simpa [outcomeOf] using hk
  · simp only [outcomeOf, Nat.zero_add]
    exact hupd k
  · simp only [outcomeOf]
    exact gen_misclassified_ofTriples A _ _ cs thr rfl
  · simp only [outcomeOf, Nat.zero_add]
    exact hstop
  · intro j hj
    simp only [outcomeOf, Nat.zero_add] at hj
    exact ⟨_, _, hupd j, gen_misclassified_ofTriples A _ _ cs thr rfl, hbefore j hj⟩

theorem gen_prepared_eq (A : Arith D) {inputs : Matrix D} {labels x1 x2 : List D}
    {T : Matrix D} (hT : prepareInTemp A inputs labels = .ok T)
    (hd : inputs.data = [x1, x2])
    (h1 : x1.length = labels.length) (h2 : x2.length = labels.length) :
    T = ofTriples (sampleCols A x1 x2 labels) := by
  rw [gen_prepare_eq A inputs labels x1 x2 hd h1 h2] at hT
  exact (Except.ok.inj hT).symm

theorem gen_dot_self_toCol (A : Arith D) (c : V3 D) :
    dot A (toCol c) (toCol c) = normSq A c := by
  simp [dot, toCol, normSq]

end Gen

namespace Gen

theorem double_sumRow_nan_acc (f : V3 Double → Double) (ys : List (V3 Double)) :
    ys.foldl (fun acc y => binary64.add acc (f y)) .nan = .nan := by
  induction ys with
  | nil => rfl
  | cons y ys ih =>
    rw [List.foldl_cons]
    exact ih

/-- A sum with a NaN term is NaN. -/
theorem double_sumRow_nan (f : V3 Double → Double) (ys : List (V3 Double))
    (h : ∃ y ∈ ys, f y = .nan) : sumRow binary64 f ys = .nan := by
  unfold sumRow
  generalize binary64.zero = acc
  induction ys generalizing acc with
  | nil =>
    obtain ⟨y, hy, _⟩ := h
    cases hy
  | cons y ys ih =>
    rw [List.foldl_cons]
    by_cases hy : f y = .nan
    · rw [hy]
      have : binary64.add acc .nan = .nan := double_add_nan acc
      rw [this]
      exact double_sumRow_nan_acc f ys
    · apply ih
      obtain ⟨z, hz, hfz⟩ := h
      rcases List.mem_cons.mp hz with rfl | hz
      · exact absurd hfz hy
      · exact ⟨z, hz, hfz⟩

/-- With NaN weights every weighted sum is NaN. -/
theorem double_score_nan (c : V3 Double) :
    score binary64 (.nan, .nan, .nan) c = .nan := by
  simp only [score, binary64_add, binary64_mul, double_nan_mul, double_add_nan]

/-- With NaN weights no column compares below the threshold. -/
theorem double_misCols_nan (cs : List (V3 Double)) (b : Double) :
    misCols binary64 cs b (.nan, .nan, .nan) = [] := by
  apply List.filter_eq_nil_iff.mpr
  intro c _
  rw [double_score_nan]
  simp [binary64, Double.lt]

/-- The squared norm of the zero column is zero. -/
theorem double_normSq_zero : normSq binary64 (.fin 0, .fin 0, .fin 0) = .fin 0 := by
  norm_num [normSq, binary64_zero, binary64_add, binary64_mul, double_add_fin, double_mul_fin,
    round_zero]

/-- The correction of a misclassified zero column is NaN in every row. -/
theorem double_relaxSum3_nan (w : V3 Double) (b : Double) (ys : List (V3 Double))
    (h : (.fin 0, .fin 0, .fin 0) ∈ ys) :
    relaxSum3 binary64 w b ys = (.nan, .nan, .nan) := by
  have hterm : binary64.mul (relaxCoef binary64 w b (.fin 0, .fin 0, .fin 0)) (.fin 0)
      = .nan := by
    unfold relaxCoef
    rw [double_normSq_zero]
    exact double_div_zero_mul_zero _
  unfold relaxSum3
  rw [double_sumRow_nan _ ys ⟨_, h, hterm⟩, double_sumRow_nan _ ys ⟨_, h, hterm⟩,
    double_sumRow_nan _ ys ⟨_, h, hterm⟩]

/-- One relaxation update with a misclassified zero column turns every weight into NaN. -/
theorem double_relaxationStep_nan (cs : List (V3 Double)) (lr b : Double) (w : V3 Double)
    (h : (.fin 0, .fin 0, .fin 0) ∈ misCols binary64 cs b w) :
    relaxationStep binary64 cs lr b w = (.nan, .nan, .nan) := by
  unfold relaxationStep
  rw [double_relaxSum3_nan w b _ h]
  simp only [addScaled]
  have h1 : binary64.mul .nan lr = .nan := double_nan_mul lr
  have h2 : ∀ x, binary64.add x .nan = .nan := double_add_nan
  rw [h1, h2, h2, h2]

/-- The relaxation loop with a misclassified zero column: one update, NaN weights, and
the loop stops because `Y` is empty for NaN weights. -/
theorem double_zero_column_run (cs : List (V3 Double)) (lr b : Double) (w : V3 Double)
    (fuel : Nat) (h : (.fin 0, .fin 0, .fin 0) ∈ misCols binary64 cs b w) :
    runLoop binary64 (relaxationStep binary64 cs lr b) cs b (fuel + 1) 0 w
      = ((.nan, .nan, .nan), 1) := by
  have hne : (misCols binary64 cs b w).length ≠ 0 := by
    intro h0
    rw [List.length_eq_zero.mp h0] at h
    cases h
  unfold runLoop
  rw [if_neg hne, double_relaxationStep_nan cs lr b w h,
    gen_runLoop_exit binary64 _ cs b fuel (0 + 1) _ (double_misCols_nan cs b)]

theorem double_sampleCols_zeroSample :
    sampleCols binary64 [.fin 0, .fin 1] [.fin 0, .fin 1] zeroSampleLabels
      = zeroSampleCols := by
  simp [sampleCols, zip3, normTriple, zeroSampleLabels, zeroSampleCols, binary64, Double.lt]

theorem double_validCall_zeroSample (w : V3 Double) :
    ValidCall (perceptronOf w) zeroSampleInputs zeroSampleLabels :=
  ⟨rfl, gen_colVec_hasShape _, by simp [Matrix.HasShape, zeroSampleInputs, zeroSampleLabels]⟩

theorem double_prepare_zeroSample :
    prepareInTemp binary64 zeroSampleInputs zeroSampleLabels
      = .ok (ofTriples zeroSampleCols) := by
  rw [gen_prepare_eq binary64 zeroSampleInputs zeroSampleLabels [.fin 0, .fin 1]
    [.fin 0, .fin 1] rfl rfl rfl, double_sampleCols_zeroSample]

theorem double_misCols_zeroSample :
    misCols binary64 zeroSampleCols (.fin (1 / 2)) (.fin 1, .fin 1, .fin 1)
      = [(.fin 0, .fin 0, .fin 0)] := by
  norm_num [misCols, zeroSampleCols, score, binary64_zero, binary64_add, binary64_mul,
    binary64_lt,
    double_add_fin, double_mul_fin, double_lt_fin, round_zero, round_one, round_two,
    round_three]

/-- The call of `relaxationAlgorithm` on the data with a zero column: the weights
(1, 1, 1), `maxIter = 100`, `learningRate = 1/4`, `biasValue = 1/2`. -/
theorem double_zeroSample_run :
    relaxationAlgorithm binary64 (perceptronOf (.fin 1, .fin 1, .fin 1)) zeroSampleInputs
        zeroSampleLabels 100 (.fin (1 / 4)) (.fin (1 / 2))
      = ⟨{ perceptronOf (.fin 1, .fin 1, .fin 1) with v := colVec (.nan, .nan, .nan) },
          .ok ⟨ofTriples zeroSampleCols,
            ofTriples [], 1⟩⟩ := by
  rw [gen_relaxationAlgorithm_eq binary64 _ zeroSampleInputs zeroSampleLabels [.fin 0, .fin 1]
    [.fin 0, .fin 1] 100 _ _ (.fin 1, .fin 1, .fin 1) rfl rfl rfl rfl rfl rfl,
    double_sampleCols_zeroSample,
    double_zero_column_run _ _ _ _ 99 (by rw [double_misCols_zeroSample]; simp)]
  simp only [outcomeOf, double_misCols_nan]

end Gen

namespace Gen

theorem double_sampleCols_and :
    sampleCols binary64 [.fin 0, .fin 0, .fin 1, .fin 1] [.fin 0, .fin 1, .fin 0, .fin 1]
      andLabels64 = andCols64 := by
  norm_num [sampleCols, zip3, normTriple, andLabels64, andCols64, binary64_zero,
    binary64_negOne, binary64_mul, binary64_lt, double_mul_fin, double_lt_fin, round_zero,
    round_neg_one]

theorem double_validCall_and (w : V3 Double) :
    ValidCall (perceptronOf w) andInputs64 andLabels64 :=
  ⟨rfl, gen_colVec_hasShape _, by simp [Matrix.HasShape, andInputs64, andLabels64]⟩

theorem double_prepare_and :
    prepareInTemp binary64 andInputs64 andLabels64 = .ok (ofTriples andCols64) := by
  rw [gen_prepare_eq binary64 andInputs64 andLabels64 [.fin 0, .fin 0, .fin 1, .fin 1]
    [.fin 0, .fin 1, .fin 0, .fin 1] rfl rfl rfl, double_sampleCols_and]

/-- Under the weights (1, 1, 1) the column of the sample (0, 0) has the weighted sum -1. -/
theorem double_and_violator :
    dot binary64 ((perceptronOf (.fin 1, .fin 1, .fin 1) : Perceptron Double).v.getCol 0)
      [.fin 0, .fin 0, .fin (-1)] = .fin (-1) := by
  show dot binary64 ((colVec (.fin 1, .fin 1, .fin 1)).getCol 0)
    (toCol (.fin 0, .fin 0, .fin (-1))) = .fin (-1)
  rw [gen_getCol_colVec, gen_dot_toCol]
  norm_num [score, binary64_zero, binary64_add, binary64_mul, double_add_fin, double_mul_fin,
    round_zero, round_neg_one]

theorem double_and_violator_mem : [.fin 0, .fin 0, .fin (-1)] ∈ (ofTriples andCols64).columns := by
  rw [gen_columns_ofTriples]
  simp [andCols64, toCol]

/-- Under the weights (2, 2, -3) the AND-gate columns have the weighted sums 3, 1, 1, 1. -/
theorem double_and_trained (col : List Double) (h : col ∈ (ofTriples andCols64).columns) :
    dot binary64 ((perceptronOf (.fin 2, .fin 2, .fin (-3)) : Perceptron Double).v.getCol 0) col
        = .fin 3 ∨
      dot binary64 ((perceptronOf (.fin 2, .fin 2, .fin (-3)) : Perceptron Double).v.getCol 0)
        col = .fin 1 := by
  rw [gen_columns_ofTriples] at h
  obtain ⟨c, hc, rfl⟩ := List.mem_map.mp h
  show dot binary64 ((colVec (.fin 2, .fin 2, .fin (-3))).getCol 0) (toCol c) = .fin 3 ∨
    dot binary64 ((colVec (.fin 2, .fin 2, .fin (-3))).getCol 0) (toCol c) = .fin 1
  rw [gen_getCol_colVec, gen_dot_toCol]
  simp only [andCols64, List.mem_cons, List.mem_singleton, List.not_mem_nil, or_false] at hc
  rcases hc with rfl | rfl | rfl | rfl <;>
    norm_num [score, binary64_zero, binary64_add, binary64_mul, double_add_fin,
      double_mul_fin, round_zero, round_one, round_two, round_three, round_four,
      round_neg_two, round_neg_three]

theorem double_and_trained_ge (thr : ℚ) (hthr : thr ≤ 1) (col : List Double)
    (h : col ∈ (ofTriples andCols64).columns) :
    Double.ge
      (dot binary64 ((perceptronOf (.fin 2, .fin 2, .fin (-3)) : Perceptron Double).v.getCol 0)
        col) (.fin thr) = true := by
  rcases double_and_trained col h with e | e <;> rw [e] <;> simp [Double.ge] <;> linarith

theorem double_and_trained_ne_nan (col : List Double)
    (h : col ∈ (ofTriples andCols64).columns) :
    dot binary64 ((perceptronOf (.fin 2, .fin 2, .fin (-3)) : Perceptron Double).v.getCol 0) col
      ≠ .nan := by
  rcases double_and_trained col h with e | e <;> rw [e] <;> simp

/-- The relaxation call on the AND-gate data from the weights (2, 2, -3): no update. -/
theorem double_and_trained_run :
    relaxationAlgorithm binary64 (perceptronOf (.fin 2, .fin 2, .fin (-3))) andInputs64
        andLabels64 100 (.fin (1 / 4)) (.fin (1 / 2))
      = ⟨perceptronOf (.fin 2, .fin 2, .fin (-3)),
          .ok ⟨ofTriples andCols64, ofTriples [], 0⟩⟩ := by
  have hm : misCols binary64 andCols64 (.fin (1 / 2)) (.fin 2, .fin 2, .fin (-3)) = [] :=
    gen_misCols_eq_nil_of_columns binary64 (fun col hcol =>
      double_lt_eq_false_of_ge _ _ (double_and_trained_ge (1 / 2) (by norm_num) col hcol))
  rw [gen_relaxationAlgorithm_eq binary64 _ andInputs64 andLabels64
    [.fin 0, .fin 0, .fin 1, .fin 1] [.fin 0, .fin 1, .fin 0, .fin 1] 100 _ _
    (.fin 2, .fin 2, .fin (-3)) rfl rfl rfl rfl rfl rfl, double_sampleCols_and,
    gen_runLoop_exit binary64 _ _ _ _ _ _ hm]
  simp only [outcomeOf, hm]
  rfl

/-- The relaxation call on valid shapes whose `in_temp` has a misclassified zero column. -/
theorem double_zero_column_call (p : Perceptron Double) (inputs : Matrix Double)
    (labels x1 x2 : List Double) (fuel : Nat) (lr b : Double) (w : V3 Double)
    (hN : p.numberOfInputs = 2) (hv : p.v = colVec w) (hd : inputs.data = [x1, x2])
    (hc : inputs.cols_ = labels.length)
    (h1 : x1.length = labels.length) (h2 : x2.length = labels.length)
    (hz : (.fin 0, .fin 0, .fin 0) ∈ misCols binary64 (sampleCols binary64 x1 x2 labels) b w) :
    relaxationAlgorithm binary64 p inputs labels (fuel + 1) lr b
      = ⟨{ p with v := colVec (.nan, .nan, .nan) },
          .ok ⟨ofTriples (sampleCols binary64 x1 x2 labels), ofTriples [], 1⟩⟩ := by
  rw [gen_relaxationAlgorithm_eq binary64 p inputs labels x1 x2 (fuel + 1) lr b w hN hv hd hc
    h1 h2, double_zero_column_run _ lr b w fuel hz]
  simp only [outcomeOf, double_misCols_nan]

/-- The weighted sum of the zero column under finite weights is zero. -/
theorem double_dot_zero_column (a b c : ℚ) :
    dot binary64 [.fin a, .fin b, .fin c] [.fin 0, .fin 0, .fin 0] = .fin 0 := by
  norm_num [dot, binary64_zero, binary64_add, binary64_mul, double_add_fin, double_mul_fin,
    round_zero]

end Gen

/-! ## The claims -/

/-- Claim C1.  On linearly separable classes with labels in {+1, -1}, for every initial
weight vector and every positive learning rate there is a bound `K` such that, for every
`maxIter ≥ K`, `perceptronCriterionAlgorithm` returns with `Y` empty, and no column of
the sign-normalized `in_temp` has a negative weighted sum under the final weights. -/
theorem perceptronCriterion_converges_on_separable (p : Perceptron) (inputs : Matrix ℚ)
    (labels : List ℚ) (learningRate : ℚ) (hvalid : ValidCall p inputs labels)
    (hlabels : ∀ l ∈ labels, l = 1 ∨ l = -1)
    (hsep : ∃ a b c : ℚ, ∀ j, j < labels.length →
      0 < labels.getD j 0 * (a * inputs.entry 0 j + b * inputs.entry 1 j + c))
    (hlr : 0 < learningRate) :
    ∃ K : Nat, ∀ maxIter, K ≤ maxIter →
      ∃ loc : Locals,
        (perceptronCriterionAlgorithm p inputs labels maxIter learningRate).result = .ok loc ∧
        loc.Y.getColsCount = 0 ∧
        prepareInTemp inputs labels = .ok loc.in_temp ∧
        ∀ col ∈ loc.in_temp.columns,
          0 ≤ Matrix.dot
            ((perceptronCriterionAlgorithm p inputs labels maxIter learningRate).perceptron.v.getCol 0)
            col := by
  obtain ⟨w, x1, x2, hv, hd, hc, h1, h2⟩ := validCall_unpack hvalid
  obtain ⟨a, b, c, hsep⟩ := hsep
  have ha : ∀ y ∈ sampleCols x1 x2 labels, 0 < score (a, b, c) y := by
    intro y hy
    obtain ⟨j, hj, rfl⟩ := mem_sampleCols hy
    have hs := hsep j hj
    have e0 : inputs.entry 0 j = x1.getD j 0 := by simp [Matrix.entry, hd]
    have e1 : inputs.entry 1 j = x2.getD j 0 := by simp [Matrix.entry, hd]
    rw [e0, e1] at hs
    have hl : labels.getD j 0 ∈ labels := by
      rw [List.getD_eq_getElem _ _ hj]
      exact List.getElem_mem _
    have hl' := hlabels _ hl
    generalize x1.getD j 0 = X1 at hs ⊢
    generalize x2.getD j 0 = X2 at hs ⊢
    generalize labels.getD j 0 = L at hs hl' ⊢
    rcases hl' with h | h
    · subst h
      simp only [normTriple, score]
      norm_num
      linarith
    · subst h
      simp only [normTriple, score]
      norm_num
      linarith
  obtain ⟨K, hK⟩ := runLoop_converges_of_separable _ learningRate hlr (a, b, c) ha w
  refine ⟨K, fun maxIter hle => ?_⟩
  have hmis := hK maxIter hle
  rw [perceptronCriterionAlgorithm_eq p inputs labels x1 x2 maxIter learningRate w hvalid.1 hv hd
    hc h1 h2]
  refine ⟨_, rfl, ?_, ?_, ?_⟩
  · show (misCols _ _ _).length = 0
    rw [hmis]
    rfl
  · exact prepare_eq inputs labels x1 x2 hd h1 h2
  · intro col hcol
    simp only [outcomeOf, columns_ofTriples, getCol_colVec] at hcol ⊢
    obtain ⟨y, hy, rfl⟩ := List.mem_map.mp hcol
    rw [dot_toCol]
    exact score_nonneg_of_misCols_nil hmis y hy

/-- Witness of C1: the AND-gate data, separated by `2*x1 + 2*x2 - 3`. -/
theorem perceptronCriterion_converges_on_separable_witness :
    ∃ K : Nat, ∀ maxIter, K ≤ maxIter →
      ∃ loc : Locals,
        (perceptronCriterionAlgorithm (perceptronOf 1 (-1) (1 / 2)) andInputs andLabels maxIter
          (1 / 4)).result = .ok loc ∧
        loc.Y.getColsCount = 0 ∧
        prepareInTemp andInputs andLabels = .ok loc.in_temp ∧
        ∀ col ∈ loc.in_temp.columns,
          0 ≤ Matrix.dot
            ((perceptronCriterionAlgorithm (perceptronOf 1 (-1) (1 / 2)) andInputs andLabels
              maxIter (1 / 4)).perceptron.v.getCol 0) col :=
  perceptronCriterion_converges_on_separable (perceptronOf 1 (-1) (1 / 2)) andInputs andLabels
    (1 / 4) (validCall_and _ _ _ _ rfl)
    (by
      intro l hl
      simp only [andLabels, List.mem_cons, List.mem_singleton, List.not_mem_nil, or_false] at hl
      rcases hl with rfl | rfl | rfl | rfl <;> simp)
    ⟨2, 2, -3, by
      intro j hj
      have hj4 : j < 4 := hj
      interval_cases j <;> norm_num [andLabels, andInputs, Matrix.entry]⟩
    (by norm_num)

/-- Claim C2.  Input validation is eager and atomic in both procedures: when the row
count of `inputs` differs from `numberOfInputs`, or the number of labels differs from the
column count of `inputs`, the call fails with the invalid-argument error and the weight
vector `v` (indeed the whole perceptron) is what it was before the call. -/
theorem invalid_argument_before_any_mutation (p : Perceptron) (inputs : Matrix ℚ)
    (labels : List ℚ) (maxIter : Nat) (learningRate biasValue : ℚ)
    (h : inputs.getRowsCount ≠ p.numberOfInputs ∨ labels.length ≠ inputs.getColsCount) :
    (perceptronCriterionAlgorithm p inputs labels maxIter learningRate).result
        = .error .invalidArgument ∧
    (perceptronCriterionAlgorithm p inputs labels maxIter learningRate).perceptron.v = p.v ∧
    (perceptronCriterionAlgorithm p inputs labels maxIter learningRate).perceptron = p ∧
    (relaxationAlgorithm p inputs labels maxIter learningRate biasValue).result
        = .error .invalidArgument ∧
    (relaxationAlgorithm p inputs labels maxIter learningRate biasValue).perceptron.v = p.v ∧
    (relaxationAlgorithm p inputs labels maxIter learningRate biasValue).perceptron = p := by
  rw [perceptronCriterionAlgorithm_invalid p inputs labels maxIter learningRate h,
    relaxationAlgorithm_invalid p inputs labels maxIter learningRate biasValue h]
  exact ⟨rfl, rfl, rfl, rfl, rfl, rfl⟩

/-- Witness of C2: three labels for the four sample columns of the AND-gate data. -/
theorem invalid_argument_before_any_mutation_witness :
    (perceptronCriterionAlgorithm (perceptronOf 1 (-1) (1 / 2)) andInputs [-1, -1, 1] 1000
        (1 / 4)).result = .error .invalidArgument ∧
    (perceptronCriterionAlgorithm (perceptronOf 1 (-1) (1 / 2)) andInputs [-1, -1, 1] 1000
        (1 / 4)).perceptron.v = (perceptronOf 1 (-1) (1 / 2)).v ∧
    (relaxationAlgorithm (perceptronOf 1 (-1) (1 / 2)) andInputs [-1, -1, 1] 1000 (1 / 4)
        (1 / 2)).result = .error .invalidArgument ∧
    (relaxationAlgorithm (perceptronOf 1 (-1) (1 / 2)) andInputs [-1, -1, 1] 1000 (1 / 4)
        (1 / 2)).perceptron.v = (perceptronOf 1 (-1) (1 / 2)).v := by
  have h := invalid_argument_before_any_mutation (perceptronOf 1 (-1) (1 / 2)) andInputs
    [-1, -1, 1] 1000 (1 / 4) (1 / 2) (Or.inr (by decide))
  exact ⟨h.1, h.2.1, h.2.2.2.1, h.2.2.2.2.1⟩

/-- Counterexample to C3 as stated.  The initial weights (1/2, 1/2, -3/4) classify all
four samples, so training returns them unchanged; read as the claim words it (element 0
the bias) they give `v0 + v1*0 + v2*0 = 1/2 > 0` on the sample (0,0) whose label is -1.
And from all-zero initial weights training returns all-zero weights, whose weighted sum
has sign 0 on every sample, whichever element is read as the bias. -/
theorem and_gate_counterexample :
    (perceptronCriterionAlgorithm (perceptronOf (1 / 2) (1 / 2) (-3 / 4)) andInputs andLabels
        1000 (1 / 4)).perceptron.v = colVec (1 / 2, 1 / 2, -3 / 4) ∧
    ¬ StatedAndGate (perceptronCriterionAlgorithm (perceptronOf (1 / 2) (1 / 2) (-3 / 4))
        andInputs andLabels 1000 (1 / 4)).perceptron.v ∧
    (perceptronCriterionAlgorithm (perceptronOf 0 0 0) andInputs andLabels
        1000 (1 / 4)).perceptron.v = colVec (0, 0, 0) ∧
    ¬ StatedAndGate (perceptronCriterionAlgorithm (perceptronOf 0 0 0)
        andInputs andLabels 1000 (1 / 4)).perceptron.v ∧
    ¬ StrictAndGate (perceptronCriterionAlgorithm (perceptronOf 0 0 0)
        andInputs andLabels 1000 (1 / 4)).perceptron.v := by
  have e1 : perceptronCriterionAlgorithm (perceptronOf (1 / 2) (1 / 2) (-3 / 4)) andInputs
      andLabels 1000 (1 / 4)
      = outcomeOf (perceptronOf (1 / 2) (1 / 2) (-3 / 4)) andCols 0
          ((1 / 2, 1 / 2, -3 / 4), 0) := by
    rw [perceptronCriterionAlgorithm_and (1 / 2, 1 / 2, -3 / 4) _ rfl rfl, runLoop_of_nil]
    simp [misCols, andCols, score]
    norm_num
  have e2 : perceptronCriterionAlgorithm (perceptronOf 0 0 0) andInputs andLabels 1000 (1 / 4)
      = outcomeOf (perceptronOf 0 0 0) andCols 0 ((0, 0, 0), 0) := by
    rw [perceptronCriterionAlgorithm_and (0, 0, 0) _ rfl rfl, runLoop_of_nil]
    simp [misCols, andCols, score]
  rw [e1, e2]
  refine ⟨rfl, ?_, rfl, ?_, ?_⟩
  · intro h
    have := h (0, 0, -1) (by simp [andSamples])
    simp [outcomeOf, Matrix.entry, colVec] at this
    norm_num at this
  · intro h
    have := h (0, 0, -1) (by simp [andSamples])
    simp [outcomeOf, Matrix.entry, colVec] at this
  · intro h
    have := h (0, 0, -1) (by simp [andSamples])
    simp [outcomeOf, Matrix.entry, colVec] at this

/-- Claim C3, amended.  AND-gate scenario: for the inputs with columns (0,0), (0,1),
(1,0), (1,1), labels (-1,-1,-1,+1), `maxIter = 1000`, `learningRate = 0.25` and every
initial weight vector with each weight in [-1, 1], `perceptronCriterionAlgorithm` returns
with `Y` empty and the final weights satisfy `label * (v0*x1 + v1*x2 + v2) ≥ 0` on all
four samples: elements 0 and 1 multiply the features, element 2 is the bias, and the
weighted sum may be 0. -/
theorem and_gate_trained_weights (p : Perceptron) (hN : p.numberOfInputs = 2)
    (hshape : p.v.HasShape 3 1)
    (hw : ∀ r, r < 3 → -1 ≤ p.v.entry r 0 ∧ p.v.entry r 0 ≤ 1) :
    ∃ loc, (perceptronCriterionAlgorithm p andInputs andLabels 1000 (1 / 4)).result = .ok loc ∧
      loc.Y.getColsCount = 0 ∧
      ∀ s ∈ andSamples,
        0 ≤ s.2.2 *
          ((perceptronCriterionAlgorithm p andInputs andLabels 1000 (1 / 4)).perceptron.v.entry 0 0
              * s.1
            + (perceptronCriterionAlgorithm p andInputs andLabels 1000
                (1 / 4)).perceptron.v.entry 1 0 * s.2.1
            + (perceptronCriterionAlgorithm p andInputs andLabels 1000
                (1 / 4)).perceptron.v.entry 2 0) := by
  obtain ⟨w, hv⟩ := hasShape_three_one hshape
  obtain ⟨w0, w1, w2⟩ := w
  have b0 := hw 0 (by norm_num)
  have b1 := hw 1 (by norm_num)
  have b2 := hw 2 (by norm_num)
  rw [hv] at b0 b1 b2
  simp only [Matrix.entry, colVec, List.getD_cons_zero, List.getD_cons_succ] at b0 b1 b2
  have hpot : potential (2, 2, -3) 6 (w0, w1, w2) < (1000 : ℕ) * (3 / 2 : ℚ) := by
    simp only [potential, normSq]
    push_cast
    nlinarith [b0.1, b0.2, b1.1, b1.2, b2.1, b2.2]
  have hm := runLoop_converges andCols (1 / 4) (2, 2, -3) 6 (3 / 2) and_potential_step 1000 0
    (w0, w1, w2) hpot
  rw [perceptronCriterionAlgorithm_and (w0, w1, w2) p hN hv]
  refine ⟨_, rfl, ?_, ?_⟩
  · show (misCols andCols 0 _).length = 0
    rw [hm]
    rfl
  · have hall := score_nonneg_of_misCols_nil hm
    simp only [outcomeOf, Matrix.entry, colVec, List.getD_cons_zero, List.getD_cons_succ]
    generalize (runLoop (criterionStep andCols (1 / 4)) andCols 0 1000 0 (w0, w1, w2)).1 = wf
      at hall ⊢
    obtain ⟨f0, f1, f2⟩ := wf
    have c0 := hall (0, 0, -1) (by simp [andCols])
    have c1 := hall (0, -1, -1) (by simp [andCols])
    have c2 := hall (-1, 0, -1) (by simp [andCols])
    have c3 := hall (1, 1, 1) (by simp [andCols])
    simp only [score] at c0 c1 c2 c3
    intro s hs
    simp only [andSamples, List.mem_cons, List.mem_singleton, List.not_mem_nil, or_false] at hs
    rcases hs with rfl | rfl | rfl | rfl <;> simp only [] <;> linarith

/-- Witness of the amended C3: the initial weights (1, -1, 1/2). -/
theorem and_gate_trained_weights_witness :
    ∃ loc, (perceptronCriterionAlgorithm (perceptronOf 1 (-1) (1 / 2)) andInputs andLabels 1000
        (1 / 4)).result = .ok loc ∧
      loc.Y.getColsCount = 0 ∧
      ∀ s ∈ andSamples,
        0 ≤ s.2.2 *
          ((perceptronCriterionAlgorithm (perceptronOf 1 (-1) (1 / 2)) andInputs andLabels 1000
              (1 / 4)).perceptron.v.entry 0 0 * s.1
            + (perceptronCriterionAlgorithm (perceptronOf 1 (-1) (1 / 2)) andInputs andLabels 1000
                (1 / 4)).perceptron.v.entry 1 0 * s.2.1
            + (perceptronCriterionAlgorithm (perceptronOf 1 (-1) (1 / 2)) andInputs andLabels 1000
                (1 / 4)).perceptron.v.entry 2 0) :=
  and_gate_trained_weights (perceptronOf 1 (-1) (1 / 2)) rfl (colVec_hasShape _)
    (by
      intro r hr
      interval_cases r <;> norm_num [perceptronOf, Matrix.entry, colVec])

namespace Gen

variable {D : Type}

/-- Claim C4.  The perceptron-criterion weight update is purely additive, in the
arithmetic of `double` (whatever its rounding): for a call with valid shapes in which at
least one column of the sign-normalized `in_temp` is misclassified (the program's
weighted sum `v_before^T * column` compares `< 0`), one loop iteration (`maxIter = 1`)
returns after exactly one update with `v_after[r] = v_before[r] + sumof(Y)[r] *
learningRate`, where `sumof(Y)[r]` is the sum of row `r` over the misclassified columns,
accumulated from `0.0` in column order.  The program computes the product as
`sumof(Y)[r] * learningRate`; where multiplication commutes, as it does for `double`,
this is the claim's `learningRate * sumof(Y)[r]`. -/
theorem criterion_update_is_additive (A : Arith D) (p : Perceptron D) (inputs : Matrix D)
    (labels : List D) (T : Matrix D) (learningRate : D)
    (hvalid : ValidCall p inputs labels) (hT : prepareInTemp A inputs labels = .ok T)
    (hmis : ∃ col ∈ T.columns, A.lt (dot A (p.v.getCol 0) col) A.zero = true) :
    ∃ loc, (perceptronCriterionAlgorithm A p inputs labels 1 learningRate).result = .ok loc ∧
      loc.iter = 1 ∧
      (perceptronCriterionAlgorithm A p inputs labels 1 learningRate).perceptron.v.HasShape 3 1 ∧
      (∀ r, r < 3 →
        entry A (perceptronCriterionAlgorithm A p inputs labels 1 learningRate).perceptron.v r 0
          = A.add (entry A p.v r 0)
              (A.mul
                ((T.columns.filter (fun col => A.lt (dot A (p.v.getCol 0) col) A.zero)).foldl
                  (fun acc col => A.add acc (col.getD r A.zero)) A.zero)
                learningRate)) ∧
      ((∀ x y, A.mul x y = A.mul y x) → ∀ r, r < 3 →
        entry A (perceptronCriterionAlgorithm A p inputs labels 1 learningRate).perceptron.v r 0
          = A.add (entry A p.v r 0)
              (A.mul learningRate
                ((T.columns.filter (fun col => A.lt (dot A (p.v.getCol 0) col) A.zero)).foldl
                  (fun acc col => A.add acc (col.getD r A.zero)) A.zero))) := by
  obtain ⟨w, x1, x2, hv, hd, hc, h1, h2⟩ := gen_validCall_unpack hvalid
  have hT' := gen_prepared_eq A hT hd h1 h2
  subst hT'
  rw [hv] at hmis ⊢
  have hne := gen_misCols_ne_nil_of_columns A hmis
  rw [gen_perceptronCriterionAlgorithm_eq A p inputs labels x1 x2 1 learningRate w hvalid.1 hv
    hd hc h1 h2, gen_runLoop_one A _ _ _ w hne, gen_filter_columns_ofTriples]
  have hmain : ∀ r, r < 3 →
      entry A (outcomeOf A p (sampleCols A x1 x2 labels) A.zero
          (criterionStep A (sampleCols A x1 x2 labels) learningRate w, 1)).perceptron.v r 0
        = A.add (entry A (colVec w) r 0)
            (A.mul
              (((misCols A (sampleCols A x1 x2 labels) A.zero w).map toCol).foldl
                (fun acc col => A.add acc (col.getD r A.zero)) A.zero)
              learningRate) := by
    intro r hr
    rw [gen_foldl_columns A _ (fun col => col.getD r A.zero)]
    simp only [outcomeOf]
    interval_cases r
    · simp [entry, colVec, criterionStep, addScaled, sum3, toCol]
    · simp [entry, colVec, criterionStep, addScaled, sum3, toCol]
    · simp [entry, colVec, criterionStep, addScaled, sum3, toCol]
  refine ⟨_, rfl, rfl, gen_colVec_hasShape _, hmain, ?_⟩
  intro hcomm r hr
  rw [hmain r hr, hcomm]

/-- Witness of C4: the AND-gate data in `double` arithmetic; under the weights (1, 1, 1)
the column of the sample (0, 0) has the weighted sum -1. -/
theorem criterion_update_is_additive_witness :
    ∃ loc, (perceptronCriterionAlgorithm binary64 (perceptronOf (.fin 1, .fin 1, .fin 1))
        andInputs64 andLabels64 1 (.fin (1 / 4))).result = .ok loc ∧
      loc.iter = 1 ∧
      (perceptronCriterionAlgorithm binary64 (perceptronOf (.fin 1, .fin 1, .fin 1))
        andInputs64 andLabels64 1 (.fin (1 / 4))).perceptron.v.HasShape 3 1 ∧
      (∀ r, r < 3 →
        entry binary64 (perceptronCriterionAlgorithm binary64
            (perceptronOf (.fin 1, .fin 1, .fin 1)) andInputs64 andLabels64 1
            (.fin (1 / 4))).perceptron.v r 0
          = binary64.add (entry binary64 (perceptronOf (.fin 1, .fin 1, .fin 1)).v r 0)
              (binary64.mul
                (((ofTriples andCols64).columns.filter (fun col => binary64.lt
                    (dot binary64 ((perceptronOf (.fin 1, .fin 1, .fin 1)).v.getCol 0) col)
                    binary64.zero)).foldl
                  (fun acc col => binary64.add acc (col.getD r binary64.zero)) binary64.zero)
                (.fin (1 / 4)))) ∧
      ((∀ x y, binary64.mul x y = binary64.mul y x) → ∀ r, r < 3 →
        entry binary64 (perceptronCriterionAlgorithm binary64
            (perceptronOf (.fin 1, .fin 1, .fin 1)) andInputs64 andLabels64 1
            (.fin (1 / 4))).perceptron.v r 0
          = binary64.add (entry binary64 (perceptronOf (.fin 1, .fin 1, .fin 1)).v r 0)
              (binary64.mul (.fin (1 / 4))
                (((ofTriples andCols64).columns.filter (fun col => binary64.lt
                    (dot binary64 ((perceptronOf (.fin 1, .fin 1, .fin 1)).v.getCol 0) col)
                    binary64.zero)).foldl
                  (fun acc col => binary64.add acc (col.getD r binary64.zero))
                  binary64.zero))) :=
  criterion_update_is_additive binary64 (perceptronOf (.fin 1, .fin 1, .fin 1)) andInputs64
    andLabels64 (ofTriples andCols64) (.fin (1 / 4)) (double_validCall_and _)
    double_prepare_and
    ⟨[.fin 0, .fin 0, .fin (-1)], double_and_violator_mem, by
      rw [double_and_violator]
      norm_num [binary64_lt, binary64_zero, double_lt_fin]⟩

/-- Claim C5.  When no sample is misclassified the weights do not change, in the
arithmetic of `double` (whatever its rounding): if for every column of the
sign-normalized `in_temp` the program's comparison `v^T * column < 0` (perceptron
criterion), respectively `v^T * column < biasValue` (relaxation), is false under the
initial weights, as it is whenever the weighted sum is `>=` the threshold, then for every
`maxIter` and `learningRate` the call returns, no iteration is executed, and the
perceptron (in particular `v`) is what it was before the call. -/
theorem no_misclassified_no_update (A : Arith D) (p : Perceptron D) (inputs : Matrix D)
    (labels : List D) (T : Matrix D) (maxIter : Nat) (learningRate biasValue : D)
    (hvalid : ValidCall p inputs labels) (hT : prepareInTemp A inputs labels = .ok T) :
    ((∀ col ∈ T.columns, A.lt (dot A (p.v.getCol 0) col) A.zero = false) →
      (perceptronCriterionAlgorithm A p inputs labels maxIter learningRate).perceptron.v = p.v ∧
      (perceptronCriterionAlgorithm A p inputs labels maxIter learningRate).perceptron = p ∧
      ∃ loc, (perceptronCriterionAlgorithm A p inputs labels maxIter learningRate).result
          = .ok loc ∧ loc.iter = 0 ∧ loc.Y.getColsCount = 0) ∧
    ((∀ col ∈ T.columns, A.lt (dot A (p.v.getCol 0) col) biasValue = false) →
      (relaxationAlgorithm A p inputs labels maxIter learningRate biasValue).perceptron.v
        = p.v ∧
      (relaxationAlgorithm A p inputs labels maxIter learningRate biasValue).perceptron = p ∧
      ∃ loc, (relaxationAlgorithm A p inputs labels maxIter learningRate biasValue).result
          = .ok loc ∧ loc.iter = 0 ∧ loc.Y.getColsCount = 0) := by
  obtain ⟨w, x1, x2, hv, hd, hc, h1, h2⟩ := gen_validCall_unpack hvalid
  have hT' := gen_prepared_eq A hT hd h1 h2
  subst hT'
  rw [hv]
  constructor
  · intro h
    have hm := gen_misCols_eq_nil_of_columns A h
    rw [gen_perceptronCriterionAlgorithm_eq A p inputs labels x1 x2 maxIter learningRate w
      hvalid.1 hv hd hc h1 h2, gen_runLoop_exit A _ _ _ _ _ _ hm]
    refine ⟨rfl, gen_perceptron_eta p w hv, _, rfl, rfl, ?_⟩
    simp only [outcomeOf, hm]
    rfl
  · intro h
    have hm := gen_misCols_eq_nil_of_columns A h
    rw [gen_relaxationAlgorithm_eq A p inputs labels x1 x2 maxIter learningRate biasValue w
      hvalid.1 hv hd hc h1 h2, gen_runLoop_exit A _ _ _ _ _ _ hm]
    refine ⟨rfl, gen_perceptron_eta p w hv, _, rfl, rfl, ?_⟩
    simp only [outcomeOf, hm]
    rfl

/-- Witness of C5: the AND-gate data in `double` arithmetic; the weights (2, 2, -3) give
the four columns the weighted sums 3, 1, 1 and 1, all `>= 0` and `>= 1/2`. -/
theorem no_misclassified_no_update_witness :
    (∀ col ∈ (ofTriples andCols64).columns,
      Double.ge (dot binary64 ((perceptronOf (.fin 2, .fin 2, .fin (-3))).v.getCol 0) col)
        (.fin 0) = true ∧
      Double.ge (dot binary64 ((perceptronOf (.fin 2, .fin 2, .fin (-3))).v.getCol 0) col)
        (.fin (1 / 2)) = true) ∧
    (perceptronCriterionAlgorithm binary64 (perceptronOf (.fin 2, .fin 2, .fin (-3)))
        andInputs64 andLabels64 1000 (.fin (1 / 4))).perceptron
      = perceptronOf (.fin 2, .fin 2, .fin (-3)) ∧
    (relaxationAlgorithm binary64 (perceptronOf (.fin 2, .fin 2, .fin (-3))) andInputs64
        andLabels64 1000 (.fin (1 / 4)) (.fin (1 / 2))).perceptron
      = perceptronOf (.fin 2, .fin 2, .fin (-3)) := by
  have h := no_misclassified_no_update binary64 (perceptronOf (.fin 2, .fin 2, .fin (-3)))
    andInputs64 andLabels64 (ofTriples andCols64) 1000 (.fin (1 / 4)) (.fin (1 / 2))
    (double_validCall_and _) double_prepare_and
  have h0 := double_and_trained_ge 0 (by norm_num)
  have hb := double_and_trained_ge (1 / 2) (by norm_num)
  exact ⟨fun col hcol => ⟨h0 col hcol, hb col hcol⟩,
    (h.1 (fun col hcol => double_lt_eq_false_of_ge _ _ (h0 col hcol))).2.1,
    (h.2 (fun col hcol => double_lt_eq_false_of_ge _ _ (hb col hcol))).2.1⟩

/-- Counterexample to C6 as stated.  Two samples, the first with features (0, 0) and
label 0; weights (1, 1, 1), `maxIter = 100`, `learningRate = 1/4`, `biasValue = 1/2`.
The zero column is misclassified (0 < 1/2) and has squared norm 0, so the first update
computes `0.5 / 0 * 0 = NaN` and every weight becomes NaN.  Every comparison with NaN is
false, so `Y` is empty and the call returns after 1 < 100 updates; but no column
satisfies `v^T x >= biasValue`: every weighted sum is NaN. -/
theorem relaxation_margin_counterexample :
    ValidCall (perceptronOf (.fin 1, .fin 1, .fin 1)) zeroSampleInputs zeroSampleLabels ∧
    (relaxationAlgorithm binary64 (perceptronOf (.fin 1, .fin 1, .fin 1)) zeroSampleInputs
        zeroSampleLabels 100 (.fin (1 / 4)) (.fin (1 / 2))).result
      = .ok ⟨ofTriples zeroSampleCols, ofTriples [], 1⟩ ∧
    1 < 100 ∧
    (ofTriples ([] : List (V3 Double))).getColsCount = 0 ∧
    ∀ col ∈ (ofTriples zeroSampleCols).columns,
      dot binary64 ((relaxationAlgorithm binary64 (perceptronOf (.fin 1, .fin 1, .fin 1))
          zeroSampleInputs zeroSampleLabels 100 (.fin (1 / 4))
          (.fin (1 / 2))).perceptron.v.getCol 0) col = .nan ∧
      Double.ge (dot binary64 ((relaxationAlgorithm binary64
          (perceptronOf (.fin 1, .fin 1, .fin 1)) zeroSampleInputs zeroSampleLabels 100
          (.fin (1 / 4)) (.fin (1 / 2))).perceptron.v.getCol 0) col) (.fin (1 / 2))
        = false := by
  refine ⟨double_validCall_zeroSample _, ?_, by decide, rfl, ?_⟩
  · rw [double_zeroSample_run]
  · intro col hcol
    rw [gen_columns_ofTriples] at hcol
    obtain ⟨c, _, rfl⟩ := List.mem_map.mp hcol
    rw [double_zeroSample_run]
    have hdot : dot binary64 ((colVec (.nan, .nan, .nan)).getCol 0) (toCol c) = .nan := by
      rw [gen_getCol_colVec, gen_dot_toCol, double_score_nan]
    exact ⟨hdot, by rw [hdot]; rfl⟩

/-- Claim C6, amended.  Stopping property of `relaxationAlgorithm`, in the arithmetic of
`double`: every call with valid shapes returns, and when it returns before the iteration
cap (fewer than `maxIter` weight updates), `Y` is empty and for every column `x` of the
sign-normalized `in_temp` the program's comparison `v^T x < biasValue` is false under the
final weights `v`.  (That is `v^T x >= biasValue` unless the weighted sum is NaN.) -/
theorem relaxation_stops_without_violation (A : Arith D) (p : Perceptron D)
    (inputs : Matrix D) (labels : List D) (T : Matrix D) (maxIter : Nat)
    (learningRate biasValue : D)
    (hvalid : ValidCall p inputs labels) (hT : prepareInTemp A inputs labels = .ok T) :
    ∃ loc, (relaxationAlgorithm A p inputs labels maxIter learningRate biasValue).result
        = .ok loc ∧
      loc.in_temp = T ∧
      (loc.iter < maxIter →
        loc.Y.getColsCount = 0 ∧
        ∀ col ∈ T.columns,
          A.lt (dot A
            ((relaxationAlgorithm A p inputs labels maxIter learningRate
              biasValue).perceptron.v.getCol 0) col) biasValue = false) := by
  obtain ⟨w, x1, x2, hv, hd, hc, h1, h2⟩ := gen_validCall_unpack hvalid
  have hT' := gen_prepared_eq A hT hd h1 h2
  subst hT'
  rw [gen_relaxationAlgorithm_eq A p inputs labels x1 x2 maxIter learningRate biasValue w
    hvalid.1 hv hd hc h1 h2]
  obtain ⟨k, hk, hrun, _, hstop⟩ := gen_runLoop_spec A
    (relaxationStep A (sampleCols A x1 x2 labels) learningRate biasValue)
    (sampleCols A x1 x2 labels) biasValue maxIter 0 w
  rw [hrun]
  refine ⟨_, rfl, rfl, ?_⟩
  intro hlt
  simp only [outcomeOf, Nat.zero_add] at hlt ⊢
  have hnil : (misCols A (sampleCols A x1 x2 labels) biasValue
      ((relaxationStep A (sampleCols A x1 x2 labels) learningRate biasValue)^[k] w)).length
      = 0 := by
    rcases hstop with hstop | hstop
    · exact hstop
    · omega
  refine ⟨hnil, ?_⟩
  exact gen_columns_of_misCols_eq_nil A (List.length_eq_zero.mp hnil)

/-- Witness of C6, amended: the AND-gate data in `double` arithmetic with the weights
(2, 2, -3) and margin 1/2.  The call stops at once, and since no weighted sum is NaN every
column meets the margin: `v^T x >= 1/2`. -/
theorem relaxation_stops_without_violation_witness :
    (relaxationAlgorithm binary64 (perceptronOf (.fin 2, .fin 2, .fin (-3))) andInputs64
        andLabels64 100 (.fin (1 / 4)) (.fin (1 / 2))).result
      = .ok ⟨ofTriples andCols64, ofTriples [], 0⟩ ∧
    ∀ col ∈ (ofTriples andCols64).columns,
      Double.ge (dot binary64
        ((relaxationAlgorithm binary64 (perceptronOf (.fin 2, .fin 2, .fin (-3)))
          andInputs64 andLabels64 100 (.fin (1 / 4)) (.fin (1 / 2))).perceptron.v.getCol 0)
        col) (.fin (1 / 2)) = true := by
  obtain ⟨loc, hres, _, himp⟩ := relaxation_stops_without_violation binary64
    (perceptronOf (.fin 2, .fin 2, .fin (-3))) andInputs64 andLabels64 (ofTriples andCols64)
    100 (.fin (1 / 4)) (.fin (1 / 2)) (double_validCall_and _) double_prepare_and
  rw [double_and_trained_run] at hres himp ⊢
  have hloc : loc = ⟨ofTriples andCols64, ofTriples [], 0⟩ := (Except.ok.inj hres).symm
  subst hloc
  refine ⟨rfl, ?_⟩
  intro col hcol
  exact double_ge_of_lt_eq_false _ _ (double_and_trained_ne_nan col hcol) (by simp)
    ((himp (by decide)).2 col hcol)

/-- Claim C7.  Both training loops stop on convergence or on the iteration cap, whichever
comes first, in the arithmetic of `double`.  Every call with valid shapes returns, and
the number `iter` of weight updates it performed satisfies: `iter ≤ maxIter`; the
perceptron left behind is the initial one after exactly `iter` executions of the loop
body (each taking `Y` for the current weights and assigning `v += ...`); for every
`k < iter` the set `Y` recomputed for the weights after `k` updates is non-empty, so no
earlier iteration found `Y` empty; and on return `Y` is the misclassified set of the final
weights and either it is empty or `iter = maxIter`.  Hence `iter` is the smaller of
`maxIter` and the index of the first iteration at which `Y` is empty. -/
theorem loops_stop_on_convergence_or_cap (A : Arith D) (p : Perceptron D)
    (inputs : Matrix D) (labels : List D) (T : Matrix D) (maxIter : Nat)
    (learningRate biasValue : D)
    (hvalid : ValidCall p inputs labels) (hT : prepareInTemp A inputs labels = .ok T) :
    (∃ loc, (perceptronCriterionAlgorithm A p inputs labels maxIter learningRate).result
          = .ok loc ∧
        loc.in_temp = T ∧
        loc.iter ≤ maxIter ∧
        criterionUpdates A T learningRate loc.iter p
          = .ok (perceptronCriterionAlgorithm A p inputs labels maxIter learningRate).perceptron ∧
        misclassified A
          (perceptronCriterionAlgorithm A p inputs labels maxIter learningRate).perceptron
          T A.zero = .ok loc.Y ∧
        (loc.Y.getColsCount = 0 ∨ loc.iter = maxIter) ∧
        ∀ k, k < loc.iter → ∃ q Y, criterionUpdates A T learningRate k p = .ok q ∧
          misclassified A q T A.zero = .ok Y ∧ Y.getColsCount ≠ 0) ∧
    (∃ loc, (relaxationAlgorithm A p inputs labels maxIter learningRate biasValue).result
          = .ok loc ∧
        loc.in_temp = T ∧
        loc.iter ≤ maxIter ∧
        relaxationUpdates A T learningRate biasValue loc.iter p
          = .ok (relaxationAlgorithm A p inputs labels maxIter learningRate
              biasValue).perceptron ∧
        misclassified A
          (relaxationAlgorithm A p inputs labels maxIter learningRate biasValue).perceptron
          T biasValue = .ok loc.Y ∧
        (loc.Y.getColsCount = 0 ∨ loc.iter = maxIter) ∧
        ∀ k, k < loc.iter → ∃ q Y, relaxationUpdates A T learningRate biasValue k p = .ok q ∧
          misclassified A q T biasValue = .ok Y ∧ Y.getColsCount ≠ 0) := by
  obtain ⟨w, x1, x2, hv, hd, hc, h1, h2⟩ := gen_validCall_unpack hvalid
  have hT' := gen_prepared_eq A hT hd h1 h2
  subst hT'
  constructor
  · rw [gen_perceptronCriterionAlgorithm_eq A p inputs labels x1 x2 maxIter learningRate w
      hvalid.1 hv hd hc h1 h2]
    exact gen_outcomeOf_stop A p _ A.zero _ maxIter w
      (criterionUpdates A (ofTriples (sampleCols A x1 x2 labels)) learningRate)
      (gen_criterionUpdates_eq A _ learningRate p w hv)
  · rw [gen_relaxationAlgorithm_eq A p inputs labels x1 x2 maxIter learningRate biasValue w
      hvalid.1 hv hd hc h1 h2]
    exact gen_outcomeOf_stop A p _ biasValue _ maxIter w
      (relaxationUpdates A (ofTriples (sampleCols A x1 x2 labels)) learningRate biasValue)
      (gen_relaxationUpdates_eq A _ learningRate biasValue p w hv)

/-- Witness of C7: both procedures on the AND-gate data in `double` arithmetic. -/
theorem loops_stop_on_convergence_or_cap_witness :
    (∃ loc, (perceptronCriterionAlgorithm binary64 (perceptronOf (.fin 1, .fin 1, .fin 1))
          andInputs64 andLabels64 1000 (.fin (1 / 4))).result = .ok loc ∧
        loc.iter ≤ 1000 ∧
        criterionUpdates binary64 (ofTriples andCols64) (.fin (1 / 4)) loc.iter
            (perceptronOf (.fin 1, .fin 1, .fin 1))
          = .ok (perceptronCriterionAlgorithm binary64 (perceptronOf (.fin 1, .fin 1, .fin 1))
              andInputs64 andLabels64 1000 (.fin (1 / 4))).perceptron ∧
        (loc.Y.getColsCount = 0 ∨ loc.iter = 1000)) ∧
    (∃ loc, (relaxationAlgorithm binary64 (perceptronOf (.fin 1, .fin 1, .fin 1))
          andInputs64 andLabels64 1000 (.fin (1 / 4)) (.fin (1 / 2))).result = .ok loc ∧
        loc.iter ≤ 1000 ∧
        relaxationUpdates binary64 (ofTriples andCols64) (.fin (1 / 4)) (.fin (1 / 2)) loc.iter
            (perceptronOf (.fin 1, .fin 1, .fin 1))
          = .ok (relaxationAlgorithm binary64 (perceptronOf (.fin 1, .fin 1, .fin 1))
              andInputs64 andLabels64 1000 (.fin (1 / 4)) (.fin (1 / 2))).perceptron ∧
        (loc.Y.getColsCount = 0 ∨ loc.iter = 1000)) := by
  have h := loops_stop_on_convergence_or_cap binary64 (perceptronOf (.fin 1, .fin 1, .fin 1))
    andInputs64 andLabels64 (ofTriples andCols64) 1000 (.fin (1 / 4)) (.fin (1 / 2))
    (double_validCall_and _) double_prepare_and
  obtain ⟨loc1, a1, _, a3, a4, _, a6, _⟩ := h.1
  obtain ⟨loc2, b1, _, b3, b4, _, b6, _⟩ := h.2
  exact ⟨⟨loc1, a1, a3, a4, a6⟩, ⟨loc2, b1, b3, b4, b6⟩⟩

end Gen

/-- Claim C8.  Training never touches the initial-weight snapshot: every call of either
procedure, whether it returns or throws, leaves `cv` and `numberOfInputs` as they were;
hence after any sequence of training calls on a freshly constructed perceptron `cv` is
still the value `v` had at construction. -/
theorem training_never_touches_cv :
    (∀ (p : Perceptron) (inputs : Matrix ℚ) (labels : List ℚ) (maxIter : Nat)
        (learningRate biasValue : ℚ),
      (perceptronCriterionAlgorithm p inputs labels maxIter learningRate).perceptron.cv = p.cv ∧
      (perceptronCriterionAlgorithm p inputs labels maxIter learningRate).perceptron.numberOfInputs
        = p.numberOfInputs ∧
      (relaxationAlgorithm p inputs labels maxIter learningRate biasValue).perceptron.cv
        = p.cv ∧
      (relaxationAlgorithm p inputs labels maxIter learningRate biasValue).perceptron.numberOfInputs
        = p.numberOfInputs) ∧
    (∀ (dist : Nat → ℚ), ∃ p, Perceptron.new dist = .ok p ∧ p.cv = p.v ∧
      ∀ calls : List TrainingCall,
        (trainAll p calls).cv = p.v ∧ (trainAll p calls).numberOfInputs = p.numberOfInputs) := by
  have single : ∀ (p : Perceptron) (c : TrainingCall),
      (c.run p).cv = p.cv ∧ (c.run p).numberOfInputs = p.numberOfInputs := by
    intro p c
    cases c with
    | criterion inputs labels maxIter lr =>
      have h := perceptronCriterionAlgorithm_frame p inputs labels maxIter lr
      exact ⟨h.1, h.2.1⟩
    | relaxation inputs labels maxIter lr b =>
      have h := relaxationAlgorithm_frame p inputs labels maxIter lr b
      exact ⟨h.1, h.2.1⟩
  have many : ∀ (calls : List TrainingCall) (p : Perceptron),
      (trainAll p calls).cv = p.cv ∧ (trainAll p calls).numberOfInputs = p.numberOfInputs := by
    intro calls
    induction calls with
    | nil => exact fun p => ⟨rfl, rfl⟩
    | cons c calls ih =>
      intro p
      have h1 := ih (c.run p)
      have h2 := single p c
      simp only [trainAll, List.foldl_cons] at h1 ⊢
      exact ⟨h1.1.trans h2.1, h1.2.trans h2.2⟩
  refine ⟨?_, ?_⟩
  · intro p inputs labels maxIter lr b
    have h1 := perceptronCriterionAlgorithm_frame p inputs labels maxIter lr
    have h2 := relaxationAlgorithm_frame p inputs labels maxIter lr b
    exact ⟨h1.1, h1.2.1, h2.1, h2.2.1⟩
  · intro dist
    refine ⟨_, new_eq dist, rfl, ?_⟩
    intro calls
    exact many calls _

/-- Claim C9.  The weight vector keeps its shape: the constructor builds `v` as a 3x1
column vector (`N + 1` rows for the fixed `N = 2`), and a call of either procedure, for
any `maxIter`, leaves a `v` of `N + 1` rows and one column with `N + 1` rows and one
column. -/
theorem weight_vector_keeps_shape (dist : Nat → ℚ) (p : Perceptron) (inputs : Matrix ℚ)
    (labels : List ℚ) (maxIter : Nat) (learningRate biasValue : ℚ)
    (hp : p.v.HasShape (p.numberOfInputs + 1) 1) :
    (∃ q, Perceptron.new dist = .ok q ∧ q.numberOfInputs = 2 ∧
      q.v.HasShape (q.numberOfInputs + 1) 1 ∧ q.v.getRowsCount = 3 ∧ q.v.getColsCount = 1) ∧
    (perceptronCriterionAlgorithm p inputs labels maxIter learningRate).perceptron.v.HasShape
      (p.numberOfInputs + 1) 1 ∧
    (relaxationAlgorithm p inputs labels maxIter learningRate biasValue).perceptron.v.HasShape
      (p.numberOfInputs + 1) 1 := by
  refine ⟨⟨_, new_eq dist, rfl, colVec_hasShape _, rfl, rfl⟩, ?_, ?_⟩
  · exact (perceptronCriterionAlgorithm_frame p inputs labels maxIter learningRate).2.2 _ hp
  · exact (relaxationAlgorithm_frame p inputs labels maxIter learningRate biasValue).2.2 _ hp

/-- Witness of C9: a constructed perceptron trained on the AND-gate data. -/
theorem weight_vector_keeps_shape_witness :
    (perceptronCriterionAlgorithm (perceptronOf 1 (-1) (1 / 2)) andInputs andLabels 1000
      (1 / 4)).perceptron.v.HasShape 3 1 ∧
    (relaxationAlgorithm (perceptronOf 1 (-1) (1 / 2)) andInputs andLabels 1000 (1 / 4)
      (1 / 2)).perceptron.v.HasShape 3 1 :=
  (weight_vector_keeps_shape (fun _ => 0) (perceptronOf 1 (-1) (1 / 2)) andInputs andLabels
    1000 (1 / 4) (1 / 2) (colVec_hasShape _)).2

/-- Counterexample to C10 as stated: on the AND-gate data the matrix built before sign
normalization has three rows, not four, and its row 0 is the first feature row, not a
row of ones. -/
theorem inTemp_layout_counterexample :
    ∃ T, buildInTemp andInputs andLabels = .ok T ∧
      T.getRowsCount = 3 ∧ T.getRow 0 = .ok [0, 0, 1, 1] ∧
      ¬ StatedLayout andInputs andLabels T := by
  refine ⟨⟨4, [[0, 0, 1, 1], [0, 1, 0, 1], [-1, -1, -1, 1]]⟩, ?_, rfl, rfl, ?_⟩
  · exact buildInTemp_eq andInputs andLabels _ _ rfl rfl rfl
  · intro h
    have h1 := h.1
    simp [Matrix.getRowsCount, andInputs] at h1

/-- Claim C10, amended.  For every 2xM `inputs` and M labels, the working matrix built by
both procedures (after the two row swaps, before sign normalization) is 3xM: rows 0 and 1
are the two feature rows of `inputs` in order and row 2 is the labels; there is no bias
row.  Sign normalization is then applied to this matrix. -/
theorem inTemp_layout (inputs : Matrix ℚ) (labels : List ℚ)
    (hshape : inputs.HasShape 2 labels.length) :
    ∃ T, buildInTemp inputs labels = .ok T ∧
      T.HasShape 3 labels.length ∧
      SwappedLayout inputs labels T ∧
      prepareInTemp inputs labels = signNormalize T := by
  obtain ⟨hl, hc, hrows⟩ := hshape
  match hd : inputs.data, hl with
  | [x1, x2], _ =>
    have h1 : x1.length = labels.length := hrows x1 (by simp [hd])
    have h2 : x2.length = labels.length := hrows x2 (by simp [hd])
    have hb := buildInTemp_eq inputs labels x1 x2 hd h1 h2
    refine ⟨_, hb, ?_, ?_, ?_⟩
    · refine ⟨rfl, rfl, ?_⟩
      intro row hrow
      simp only [List.mem_cons, List.mem_singleton, List.not_mem_nil, or_false] at hrow
      rcases hrow with h | h | h
      · rw [h, h1]
      · rw [h, h2]
      · rw [h]
    · refine ⟨by simp [Matrix.getRowsCount, hd], by simp [Matrix.getColsCount, hc], ?_, ?_⟩
      · intro i hi
        have hi2 : i < 2 := by simpa [Matrix.getRowsCount, hd] using hi
        interval_cases i <;> simp [Matrix.getRow, hd]
      · simp [Matrix.getRowsCount, Matrix.getRow, hd]
    · unfold prepareInTemp
      rw [hb]
      rfl

/-- Witness of the amended C10 on the AND-gate data. -/
theorem inTemp_layout_witness :
    ∃ T, buildInTemp andInputs andLabels = .ok T ∧
      T.HasShape 3 andLabels.length ∧
      SwappedLayout andInputs andLabels T ∧
      prepareInTemp andInputs andLabels = signNormalize T :=
  inTemp_layout andInputs andLabels (by simp [Matrix.HasShape, andInputs, andLabels])

/-- Claim C11.  Sign normalization: for every 2xM `inputs` and M labels, the normalization
loop applied to the working matrix `in_temp` returns a matrix of the same shape in which
each column whose label (row 2) is negative has rows 0 and 1 (every row except the label
row) equal to the negation of their value before the loop, while every column whose label
is not negative, and the whole label row, are unchanged. -/
theorem sign_normalization_effect (inputs : Matrix ℚ) (labels : List ℚ) (T0 : Matrix ℚ)
    (hshape : inputs.HasShape 2 labels.length) (hT0 : buildInTemp inputs labels = .ok T0) :
    ∃ T, signNormalize T0 = .ok T ∧ prepareInTemp inputs labels = .ok T ∧
      T.HasShape 3 labels.length ∧ T.getRow 2 = T0.getRow 2 ∧ T.getRow 2 = .ok labels ∧
      ∀ j, j < labels.length →
        (T0.entry 2 j < 0 →
          T.entry 0 j = -T0.entry 0 j ∧ T.entry 1 j = -T0.entry 1 j ∧
            T.entry 2 j = T0.entry 2 j) ∧
        (¬ T0.entry 2 j < 0 → ∀ r, r < 3 → T.entry r j = T0.entry r j) := by
  obtain ⟨hl, hc, hrows⟩ := hshape
  match hd : inputs.data, hl with
  | [x1, x2], _ =>
    have h1 : x1.length = labels.length := hrows x1 (by simp [hd])
    have h2 : x2.length = labels.length := hrows x2 (by simp [hd])
    have hb := buildInTemp_eq inputs labels x1 x2 hd h1 h2
    rw [hb] at hT0
    have hT0' := (Except.ok.inj hT0).symm
    subst hT0'
    have hA : (⟨labels.length, [x1, x2, labels]⟩ : Matrix ℚ).HasShape 3 labels.length := by
      refine ⟨rfl, rfl, ?_⟩
      intro row hrow
      simp only [List.mem_cons, List.mem_singleton, List.not_mem_nil, or_false] at hrow
      rcases hrow with h | h | h
      · rw [h, h1]
      · rw [h, h2]
      · rw [h]
    obtain ⟨B, e1, e2, e3, e4⟩ := signNormalize_entries _ _ hA
    refine ⟨B, e1, ?_, e2, e3, ?_, e4⟩
    · unfold prepareInTemp
      rw [hb]
      exact e1
    · rw [e3]
      rfl

/-- Witness of C11 on the AND-gate data. -/
theorem sign_normalization_effect_witness :
    ∃ T, signNormalize ⟨4, [[0, 0, 1, 1], [0, 1, 0, 1], [-1, -1, -1, 1]]⟩ = .ok T ∧
      prepareInTemp andInputs andLabels = .ok T ∧
      T.HasShape 3 andLabels.length ∧
      T.getRow 2 = (⟨4, [[0, 0, 1, 1], [0, 1, 0, 1], [-1, -1, -1, 1]]⟩ : Matrix ℚ).getRow 2 ∧
      T.getRow 2 = .ok andLabels ∧
      ∀ j, j < andLabels.length →
        ((⟨4, [[0, 0, 1, 1], [0, 1, 0, 1], [-1, -1, -1, 1]]⟩ : Matrix ℚ).entry 2 j < 0 →
          T.entry 0 j = -(⟨4, [[0, 0, 1, 1], [0, 1, 0, 1], [-1, -1, -1, 1]]⟩ : Matrix ℚ).entry 0 j ∧
          T.entry 1 j = -(⟨4, [[0, 0, 1, 1], [0, 1, 0, 1], [-1, -1, -1, 1]]⟩ : Matrix ℚ).entry 1 j ∧
          T.entry 2 j = (⟨4, [[0, 0, 1, 1], [0, 1, 0, 1], [-1, -1, -1, 1]]⟩ : Matrix ℚ).entry 2 j) ∧
        (¬ (⟨4, [[0, 0, 1, 1], [0, 1, 0, 1], [-1, -1, -1, 1]]⟩ : Matrix ℚ).entry 2 j < 0 →
          ∀ r, r < 3 →
            T.entry r j = (⟨4, [[0, 0, 1, 1], [0, 1, 0, 1], [-1, -1, -1, 1]]⟩ : Matrix ℚ).entry r j) :=
  sign_normalization_effect andInputs andLabels
    ⟨4, [[0, 0, 1, 1], [0, 1, 0, 1], [-1, -1, -1, 1]]⟩
    (by simp [Matrix.HasShape, andInputs, andLabels])
    (buildInTemp_eq andInputs andLabels _ _ rfl rfl rfl)

namespace Gen

variable {D : Type}

/-- Claim C12.  Relaxation correction term, in the arithmetic of `double` (whatever its
rounding): for a call with valid shapes in which at least one column of the
sign-normalized `in_temp` is misclassified (the program's weighted sum
`criteria[c] = v_before^T * column_c` compares `< biasValue`), one loop iteration of
`relaxationAlgorithm` (`maxIter = 1`) returns after exactly one update with
`v_after[r] = v_before[r] + s[r] * learningRate`, where `s[r]` is the sum over the
misclassified columns `c`, accumulated from `0.0` in column order, of
`((biasValue - criteria[c]) / squaredNorm[c]) * column_c[r]`, and `squaredNorm[c]` is
the sum of the squares of the entries of column `c`.  The division is the plain
division of `double`, so the equation also holds when a squared norm is zero.  The
program computes the product as `s[r] * learningRate`; where multiplication commutes, as
it does for `double`, this is the claim's `learningRate * s[r]`.  When no column is
misclassified the loop body is not executed and the perceptron is unchanged. -/
theorem relaxation_correction_term (A : Arith D) (p : Perceptron D) (inputs : Matrix D)
    (labels : List D) (T : Matrix D) (learningRate biasValue : D)
    (hvalid : ValidCall p inputs labels) (hT : prepareInTemp A inputs labels = .ok T) :
    ((∃ col ∈ T.columns, A.lt (dot A (p.v.getCol 0) col) biasValue = true) →
      ∃ loc, (relaxationAlgorithm A p inputs labels 1 learningRate biasValue).result
          = .ok loc ∧
        loc.iter = 1 ∧
        (relaxationAlgorithm A p inputs labels 1 learningRate biasValue).perceptron.v.HasShape
          3 1 ∧
        (∀ r, r < 3 →
          entry A (relaxationAlgorithm A p inputs labels 1 learningRate
              biasValue).perceptron.v r 0
            = A.add (entry A p.v r 0)
                (A.mul
                  ((T.columns.filter
                      (fun col => A.lt (dot A (p.v.getCol 0) col) biasValue)).foldl
                    (fun acc col => A.add acc
                      (A.mul
                        (A.div (A.sub biasValue (dot A (p.v.getCol 0) col))
                          (dot A col col))
                        (col.getD r A.zero))) A.zero)
                  learningRate)) ∧
        ((∀ x y, A.mul x y = A.mul y x) → ∀ r, r < 3 →
          entry A (relaxationAlgorithm A p inputs labels 1 learningRate
              biasValue).perceptron.v r 0
            = A.add (entry A p.v r 0)
                (A.mul learningRate
                  ((T.columns.filter
                      (fun col => A.lt (dot A (p.v.getCol 0) col) biasValue)).foldl
                    (fun acc col => A.add acc
                      (A.mul
                        (A.div (A.sub biasValue (dot A (p.v.getCol 0) col))
                          (dot A col col))
                        (col.getD r A.zero))) A.zero)))) ∧
    ((∀ col ∈ T.columns, A.lt (dot A (p.v.getCol 0) col) biasValue = false) →
      (relaxationAlgorithm A p inputs labels 1 learningRate biasValue).perceptron = p) := by
  obtain ⟨w, x1, x2, hv, hd, hc, h1, h2⟩ := gen_validCall_unpack hvalid
  have hT' := gen_prepared_eq A hT hd h1 h2
  subst hT'
  rw [hv]
  constructor
  · intro hmis
    have hne := gen_misCols_ne_nil_of_columns A hmis
    rw [gen_relaxationAlgorithm_eq A p inputs labels x1 x2 1 learningRate biasValue w hvalid.1
      hv hd hc h1 h2, gen_runLoop_one A _ _ _ w hne, gen_filter_columns_ofTriples,
      gen_getCol_colVec]
    have hmain : ∀ r, r < 3 →
        entry A (outcomeOf A p (sampleCols A x1 x2 labels) biasValue
            (relaxationStep A (sampleCols A x1 x2 labels) learningRate biasValue w,
              1)).perceptron.v r 0
          = A.add (entry A (colVec w) r 0)
              (A.mul
                (((misCols A (sampleCols A x1 x2 labels) biasValue w).map toCol).foldl
                  (fun acc col => A.add acc
                    (A.mul (A.div (A.sub biasValue (dot A (toCol w) col)) (dot A col col))
                      (col.getD r A.zero))) A.zero)
                learningRate) := by
      intro r hr
      rw [gen_foldl_columns A _ (fun col =>
        A.mul (A.div (A.sub biasValue (dot A (toCol w) col)) (dot A col col))
          (col.getD r A.zero))]
      simp only [outcomeOf, gen_dot_toCol, gen_dot_self_toCol]
      interval_cases r
      · simp [entry, colVec, relaxationStep, addScaled, relaxSum3, relaxCoef, toCol, score,
          normSq]
      · simp [entry, colVec, relaxationStep, addScaled, relaxSum3, relaxCoef, toCol, score,
          normSq]
      · simp [entry, colVec, relaxationStep, addScaled, relaxSum3, relaxCoef, toCol, score,
          normSq]
    refine ⟨_, rfl, rfl, gen_colVec_hasShape _, hmain, ?_⟩
    intro hcomm r hr
    rw [hmain r hr, hcomm]
  · intro h
    have hm := gen_misCols_eq_nil_of_columns A h
    rw [gen_relaxationAlgorithm_eq A p inputs labels x1 x2 1 learningRate biasValue w
      hvalid.1 hv hd hc h1 h2, gen_runLoop_exit A _ _ _ _ _ _ hm]
    simp only [outcomeOf]
    exact gen_perceptron_eta p w hv

/-- Witness of C12: the AND-gate data in `double` arithmetic with the weights (1, 1, 1),
learning rate 1/4 and margin 1/2; the column of the sample (0, 0) has the weighted sum
-1. -/
theorem relaxation_correction_term_witness :
    ∃ loc, (relaxationAlgorithm binary64 (perceptronOf (.fin 1, .fin 1, .fin 1)) andInputs64
        andLabels64 1 (.fin (1 / 4)) (.fin (1 / 2))).result = .ok loc ∧
      loc.iter = 1 ∧
      (relaxationAlgorithm binary64 (perceptronOf (.fin 1, .fin 1, .fin 1)) andInputs64
        andLabels64 1 (.fin (1 / 4)) (.fin (1 / 2))).perceptron.v.HasShape 3 1 ∧
      ∀ r, r < 3 →
        entry binary64 (relaxationAlgorithm binary64 (perceptronOf (.fin 1, .fin 1, .fin 1))
            andInputs64 andLabels64 1 (.fin (1 / 4)) (.fin (1 / 2))).perceptron.v r 0
          = binary64.add (entry binary64 (perceptronOf (.fin 1, .fin 1, .fin 1)).v r 0)
              (binary64.mul
                (((ofTriples andCols64).columns.filter (fun col => binary64.lt
                    (dot binary64 ((perceptronOf (.fin 1, .fin 1, .fin 1)).v.getCol 0) col)
                    (.fin (1 / 2)))).foldl
                  (fun acc col => binary64.add acc
                    (binary64.mul
                      (binary64.div
                        (binary64.sub (.fin (1 / 2))
                          (dot binary64 ((perceptronOf (.fin 1, .fin 1, .fin 1)).v.getCol 0)
                            col))
                        (dot binary64 col col))
                      (col.getD r binary64.zero))) binary64.zero)
                (.fin (1 / 4))) := by
  obtain ⟨loc, h1, h2, h3, h4, _⟩ :=
    (relaxation_correction_term binary64 (perceptronOf (.fin 1, .fin 1, .fin 1)) andInputs64
      andLabels64 (ofTriples andCols64) (.fin (1 / 4)) (.fin (1 / 2)) (double_validCall_and _)
      double_prepare_and).1
      ⟨[.fin 0, .fin 0, .fin (-1)], double_and_violator_mem, by
        rw [double_and_violator]
        norm_num [binary64_lt, double_lt_fin]⟩
  exact ⟨loc, h1, h2, h3, h4⟩

/-- Counterexample to C13 as stated.  Two samples, the first with features (0, 0) and
label 0; weights (1, 1, 1), `maxIter = 100`, `learningRate = 1/4`, `biasValue = 1/2 > 0`.
The zero column is in `in_temp`, it is misclassified and its squared norm is 0, yet no
error branch is reached: the division is plain `double` division, the call returns
normally after one update and the weights have been assigned NaN. -/
theorem zero_column_counterexample :
    prepareInTemp binary64 zeroSampleInputs zeroSampleLabels
      = .ok (ofTriples zeroSampleCols) ∧
    [.fin 0, .fin 0, .fin 0] ∈ (ofTriples zeroSampleCols).columns ∧
    misclassified binary64 (perceptronOf (.fin 1, .fin 1, .fin 1)) (ofTriples zeroSampleCols)
      (.fin (1 / 2)) = .ok (ofTriples [(.fin 0, .fin 0, .fin 0)]) ∧
    sumCols binary64 (power binary64 (ofTriples [(.fin 0, .fin 0, .fin 0)]))
      = ⟨1, [[.fin 0]]⟩ ∧
    (relaxationAlgorithm binary64 (perceptronOf (.fin 1, .fin 1, .fin 1)) zeroSampleInputs
        zeroSampleLabels 100 (.fin (1 / 4)) (.fin (1 / 2))).result
      = .ok ⟨ofTriples zeroSampleCols, ofTriples [], 1⟩ ∧
    (relaxationAlgorithm binary64 (perceptronOf (.fin 1, .fin 1, .fin 1)) zeroSampleInputs
        zeroSampleLabels 100 (.fin (1 / 4)) (.fin (1 / 2))).perceptron.v
      = colVec (.nan, .nan, .nan) := by
  refine ⟨double_prepare_zeroSample, ?_, ?_, ?_, ?_, ?_⟩
  · rw [gen_columns_ofTriples]
    simp [zeroSampleCols, toCol]
  · rw [gen_misclassified_ofTriples binary64 _ (.fin 1, .fin 1, .fin 1) _ _ rfl,
      double_misCols_zeroSample]
  · rw [gen_squaredNorms_ofTriples]
    simp only [List.map_cons, List.map_nil, double_normSq_zero]
    rfl
  · rw [double_zeroSample_run]
  · rw [double_zeroSample_run]

/-- Claim C13, amended.  Unguarded division by zero in `relaxationAlgorithm`, in `double`
arithmetic: if a misclassified column of the sign-normalized `in_temp` is the zero vector
(under finite weights its weighted sum is 0, so it is misclassified whenever
`biasValue > 0`), then its squared norm is 0 and, for `maxIter ≥ 1`, the first weight
update divides by zero.  No error is raised: the quotient is an infinity or NaN, its
product with the zero entries of the column is NaN, every weight becomes NaN, and the
call returns normally after this one update with `Y` empty, since every comparison with
NaN is false. -/
theorem relaxation_zero_column_yields_nan (p : Perceptron Double) (inputs : Matrix Double)
    (labels : List Double) (T : Matrix Double) (maxIter : Nat)
    (learningRate biasValue : Double)
    (hvalid : ValidCall p inputs labels) (hT : prepareInTemp binary64 inputs labels = .ok T)
    (hzero : [.fin 0, .fin 0, .fin 0] ∈ T.columns)
    (hmis : binary64.lt (dot binary64 (p.v.getCol 0) [.fin 0, .fin 0, .fin 0]) biasValue
      = true)
    (hmax : 1 ≤ maxIter) :
    (∀ a b c : ℚ, dot binary64 [.fin a, .fin b, .fin c] [.fin 0, .fin 0, .fin 0] = .fin 0) ∧
    (∃ Y, misclassified binary64 p T biasValue = .ok Y ∧
      [.fin 0, .fin 0, .fin 0] ∈ Y.columns) ∧
    dot binary64 [.fin 0, .fin 0, .fin 0] [.fin 0, .fin 0, .fin 0] = .fin 0 ∧
    (∀ x : Double, binary64.mul (binary64.div x (.fin 0)) (.fin 0) = .nan) ∧
    (relaxationAlgorithm binary64 p inputs labels maxIter learningRate biasValue).result
      = .ok ⟨T, ofTriples [], 1⟩ ∧
    (relaxationAlgorithm binary64 p inputs labels maxIter learningRate biasValue).perceptron.v
      = colVec (.nan, .nan, .nan) := by
  obtain ⟨w, x1, x2, hv, hd, hc, h1, h2⟩ := gen_validCall_unpack hvalid
  have hT' := gen_prepared_eq binary64 hT hd h1 h2
  subst hT'
  rw [gen_columns_ofTriples] at hzero
  obtain ⟨c, hc_cs, hc0⟩ := List.mem_map.mp hzero
  have hcz : c = (.fin 0, .fin 0, .fin 0) := by
    obtain ⟨c1, c2, c3⟩ := c
    simp only [toCol, List.cons.injEq, and_true] at hc0
    obtain ⟨e1, e2, e3⟩ := hc0
    rw [e1, e2, e3]
  subst hcz
  have hz : (.fin 0, .fin 0, .fin 0) ∈ misCols binary64 (sampleCols binary64 x1 x2 labels)
      biasValue w := by
    refine List.mem_filter.mpr ⟨hc_cs, ?_⟩
    rw [hv, gen_getCol_colVec] at hmis
    have := gen_dot_toCol binary64 w (.fin 0, .fin 0, .fin 0)
    rw [← this]
    exact hmis
  obtain ⟨fuel, rfl⟩ : ∃ fuel, maxIter = fuel + 1 := ⟨maxIter - 1, by omega⟩
  rw [double_zero_column_call p inputs labels x1 x2 fuel learningRate biasValue w hvalid.1 hv
    hd hc h1 h2 hz]
  refine ⟨double_dot_zero_column, ?_, double_dot_zero_column 0 0 0,
    double_div_zero_mul_zero, rfl, rfl⟩
  refine ⟨_, gen_misclassified_ofTriples binary64 p w _ biasValue hv, ?_⟩
  rw [gen_columns_ofTriples]
  exact List.mem_map.mpr ⟨_, hz, rfl⟩

/-- Witness of C13, amended: two samples, the first with features (0, 0) and label 0. -/
theorem relaxation_zero_column_yields_nan_witness :
    (relaxationAlgorithm binary64 (perceptronOf (.fin 1, .fin 1, .fin 1)) zeroSampleInputs
        zeroSampleLabels 100 (.fin (1 / 4)) (.fin (1 / 2))).result
      = .ok ⟨ofTriples zeroSampleCols, ofTriples [], 1⟩ ∧
    (relaxationAlgorithm binary64 (perceptronOf (.fin 1, .fin 1, .fin 1)) zeroSampleInputs
        zeroSampleLabels 100 (.fin (1 / 4)) (.fin (1 / 2))).perceptron.v
      = colVec (.nan, .nan, .nan) :=
  (relaxation_zero_column_yields_nan (perceptronOf (.fin 1, .fin 1, .fin 1)) zeroSampleInputs
    zeroSampleLabels (ofTriples zeroSampleCols) 100 (.fin (1 / 4)) (.fin (1 / 2))
    (double_validCall_zeroSample _) double_prepare_zeroSample
    (by rw [gen_columns_ofTriples]; simp [zeroSampleCols, toCol])
    (by
      show binary64.lt (dot binary64 ((colVec (.fin 1, .fin 1, .fin 1)).getCol 0)
        [.fin 0, .fin 0, .fin 0]) (.fin (1 / 2)) = true
      rw [gen_getCol_colVec]
      show binary64.lt (dot binary64 [.fin 1, .fin 1, .fin 1] [.fin 0, .fin 0, .fin 0])
        (.fin (1 / 2)) = true
      rw [double_dot_zero_column]
      norm_num [binary64_lt, double_lt_fin])
    (by decide)).2.2.2.2

end Gen

/-- Claim C14.  Sign normalization is a one-time transform, not an idempotent one: on a
3xM matrix `A` (the shape of `in_temp`) the normalization step returns a matrix `B`, and
applied to `B` it selects the same negative-label columns, negates them again and returns
exactly `A`; it leaves `B` unchanged only if (indeed exactly when) every negative-label
column of `A` has zeros in its two non-label rows. -/
theorem sign_normalization_involution (A : Matrix ℚ) (n : Nat) (hA : A.HasShape 3 n) :
    ∃ B, signNormalize A = .ok B ∧ signNormalize B = .ok A ∧
      (signNormalize B = .ok B ↔
        ∀ j, j < n → A.entry 2 j < 0 → A.entry 0 j = 0 ∧ A.entry 1 j = 0) := by
  obtain ⟨cs, rfl, hlen⟩ := hasShape_three hA
  subst hlen
  have hinv : (cs.map normTriple).map normTriple = cs := by
    rw [List.map_map]
    have : (normTriple ∘ normTriple) = id := by
      funext c
      exact normTriple_normTriple c
    rw [this, List.map_id]
  refine ⟨_, signNormalize_ofTriples cs, ?_, ?_⟩
  · rw [signNormalize_ofTriples, hinv]
  · rw [signNormalize_ofTriples, hinv]
    have hfix : ∀ c : V3, normTriple c = c ↔ (c.2.2 < 0 → c.1 = 0 ∧ c.2.1 = 0) := by
      intro c
      obtain ⟨x, y, l⟩ := c
      by_cases h : l < 0
      · simp only [normTriple, h, if_true, Prod.mk.injEq, and_true, true_implies]
        constructor
        · rintro ⟨e1, e2⟩
          constructor <;> linarith
        · rintro ⟨e1, e2⟩
          simp [e1, e2]
      · simp [normTriple, h]
    constructor
    · intro h j hj hneg
      have heq : cs = cs.map normTriple := ofTriples_injective _ _ (Except.ok.inj h)
      obtain ⟨a0, a1, a2⟩ := entry_ofTriples cs j hj
      rw [a2] at hneg
      rw [a0, a1]
      have hc : normTriple (cs.get ⟨j, hj⟩) = cs.get ⟨j, hj⟩ := by
        have h1 := congrArg (fun l => l[j]?) heq
        simp only [List.getElem?_map, List.getElem?_eq_getElem hj, Option.map_some'] at h1
        simpa using (Option.some.inj h1).symm
      exact (hfix _).mp hc hneg
    · intro h
      congr 1
      congr 1
      apply List.ext_getElem
      · simp
      · intro j h1 h2
        obtain ⟨a0, a1, a2⟩ := entry_ofTriples cs j h1
        have := h j h1
        rw [a0, a1, a2] at this
        simp only [List.getElem_map]
        exact ((hfix _).mpr this).symm

/-- Witness of C14: the working matrix of the AND-gate data. -/
theorem sign_normalization_involution_witness :
    ∃ B, signNormalize ⟨4, [[0, 0, 1, 1], [0, 1, 0, 1], [-1, -1, -1, 1]]⟩ = .ok B ∧
      signNormalize B = .ok ⟨4, [[0, 0, 1, 1], [0, 1, 0, 1], [-1, -1, -1, 1]]⟩ ∧
      (signNormalize B = .ok B ↔
        ∀ j, j < 4 →
          (⟨4, [[0, 0, 1, 1], [0, 1, 0, 1], [-1, -1, -1, 1]]⟩ : Matrix ℚ).entry 2 j < 0 →
          (⟨4, [[0, 0, 1, 1], [0, 1, 0, 1], [-1, -1, -1, 1]]⟩ : Matrix ℚ).entry 0 j = 0 ∧
          (⟨4, [[0, 0, 1, 1], [0, 1, 0, 1], [-1, -1, -1, 1]]⟩ : Matrix ℚ).entry 1 j = 0) :=
  sign_normalization_involution ⟨4, [[0, 0, 1, 1], [0, 1, 0, 1], [-1, -1, -1, 1]]⟩ 4
    (by simp [Matrix.HasShape])

/-- Claim C15.  Which weight is the bias: for every call with valid shapes and labels in
{+1, -1}, entry `j` of `v^T * in_temp` (the weighted sum both procedures compare against
the threshold when they build `Y_filter`) equals
`label_j * (v[0]*x1_j + v[1]*x2_j + v[2])`: the untouched label row is the sign-normalized
bias input, the constant term of the decision function is the last weight `v[2]`, and
`v[0]`, `v[1]` multiply the two features. -/
theorem last_weight_is_the_bias (p : Perceptron) (inputs : Matrix ℚ) (labels : List ℚ)
    (hvalid : ValidCall p inputs labels) (hlabels : ∀ l ∈ labels, l = 1 ∨ l = -1) :
    ∃ T S, prepareInTemp inputs labels = .ok T ∧ p.v.transpose.mul T = .ok S ∧
      S.HasShape 1 labels.length ∧
      (∀ threshold, misclassified p T threshold
        = ((S.lt threshold).getRow 0).bind (fun mask => T.filterCols mask)) ∧
      ∀ j, j < labels.length →
        S.entry 0 j = labels.getD j 0 *
          (p.v.entry 0 0 * inputs.entry 0 j + p.v.entry 1 0 * inputs.entry 1 j
            + p.v.entry 2 0) := by
  obtain ⟨w, x1, x2, hv, hd, hc, h1, h2⟩ := validCall_unpack hvalid
  have hlen := sampleCols_length x1 x2 labels h1 h2
  have hS := scores_ofTriples w (sampleCols x1 x2 labels)
  refine ⟨_, _, prepare_eq inputs labels x1 x2 hd h1 h2, by rw [hv]; exact hS, ?_, ?_, ?_⟩
  · refine ⟨rfl, hlen, ?_⟩
    intro row hrow
    simp only [List.mem_singleton] at hrow
    rw [hrow, List.length_map, hlen]
  · intro threshold
    unfold misclassified
    rw [hv, hS]
    rfl
  · intro j hj
    have hj' : j < (sampleCols x1 x2 labels).length := by rw [hlen]; exact hj
    have hentry : (⟨(sampleCols x1 x2 labels).length,
        [(sampleCols x1 x2 labels).map (score w)]⟩ : Matrix ℚ).entry 0 j
        = score w ((sampleCols x1 x2 labels).get ⟨j, hj'⟩) := by
      simp [Matrix.entry, hj']
    rw [hentry, sampleCols_get, hv, (entry_inputs hd j).1, (entry_inputs hd j).2,
      (entry_colVec w).1, (entry_colVec w).2.1, (entry_colVec w).2.2]
    have hmem : labels.getD j 0 ∈ labels := by
      rw [List.getD_eq_getElem _ _ hj]
      exact List.getElem_mem _
    have hl := hlabels _ hmem
    generalize x1.getD j 0 = X1
    generalize x2.getD j 0 = X2
    generalize labels.getD j 0 = L at hl
    rcases hl with h | h
    · subst h
      simp only [normTriple, score]
      norm_num
    · subst h
      simp only [normTriple, score]
      norm_num
      ring

/-- Witness of C15 on the AND-gate data with the weights (1, -1, 1/2). -/
theorem last_weight_is_the_bias_witness :
    ∃ T S, prepareInTemp andInputs andLabels = .ok T ∧
      (perceptronOf 1 (-1) (1 / 2)).v.transpose.mul T = .ok S ∧
      S.HasShape 1 andLabels.length ∧
      (∀ threshold, misclassified (perceptronOf 1 (-1) (1 / 2)) T threshold
        = ((S.lt threshold).getRow 0).bind (fun mask => T.filterCols mask)) ∧
      ∀ j, j < andLabels.length →
        S.entry 0 j = andLabels.getD j 0 *
          ((perceptronOf 1 (-1) (1 / 2)).v.entry 0 0 * andInputs.entry 0 j
            + (perceptronOf 1 (-1) (1 / 2)).v.entry 1 0 * andInputs.entry 1 j
            + (perceptronOf 1 (-1) (1 / 2)).v.entry 2 0) :=
  last_weight_is_the_bias (perceptronOf 1 (-1) (1 / 2)) andInputs andLabels
    (validCall_and _ _ _ _ rfl)
    (by
      intro l hl
      simp only [andLabels, List.mem_cons, List.mem_singleton, List.not_mem_nil, or_false] at hl
      rcases hl with rfl | rfl | rfl | rfl <;> simp)

namespace Gen

end Gen

/-- Claim C17.  Under-relaxation never closes the gap for a lone violator: if at the
start of an iteration of `relaxationAlgorithm` exactly one column `y` of the
sign-normalized `in_temp` is misclassified (`s = v^T y < biasValue`) and its squared norm
is non-zero, then the iteration (`maxIter = 1`) returns after one update with
`v'^T y = s + learningRate * (biasValue - s)`; hence for `0 < learningRate < 1` the column
is still misclassified under the new weights and `Y` is not empty at the end of the
iteration. -/
theorem under_relaxation_keeps_lone_violator (p : Perceptron) (inputs : Matrix ℚ)
    (labels : List ℚ) (T : Matrix ℚ) (learningRate biasValue : ℚ) (y : List ℚ)
    (hvalid : ValidCall p inputs labels) (hT : prepareInTemp inputs labels = .ok T)
    (hlone : T.columns.filter
      (fun col => decide (Matrix.dot (p.v.getCol 0) col < biasValue)) = [y])
    (hnorm : Matrix.dot y y ≠ 0) :
    ∃ loc, (relaxationAlgorithm p inputs labels 1 learningRate biasValue).result = .ok loc ∧
      loc.iter = 1 ∧
      Matrix.dot (p.v.getCol 0) y < biasValue ∧
      Matrix.dot
          ((relaxationAlgorithm p inputs labels 1 learningRate biasValue).perceptron.v.getCol 0) y
        = Matrix.dot (p.v.getCol 0) y
          + learningRate * (biasValue - Matrix.dot (p.v.getCol 0) y) ∧
      (0 < learningRate → learningRate < 1 →
        Matrix.dot
            ((relaxationAlgorithm p inputs labels 1 learningRate biasValue).perceptron.v.getCol 0)
            y < biasValue ∧
        loc.Y.getColsCount ≠ 0) := by
  obtain ⟨w, x1, x2, hv, hd, hc, h1, h2⟩ := validCall_unpack hvalid
  have hT' : T = ofTriples (sampleCols x1 x2 labels) := by
    rw [prepare_eq inputs labels x1 x2 hd h1 h2] at hT
    exact (Except.ok.inj hT).symm
  subst hT'
  rw [hv] at hlone ⊢
  rw [filter_columns_ofTriples] at hlone
  obtain ⟨c, hmis, rfl⟩ : ∃ c, misCols (sampleCols x1 x2 labels) biasValue w = [c] ∧
      toCol c = y := by
    match hm : misCols (sampleCols x1 x2 labels) biasValue w, hlone with
    | [c], h =>
      simp only [List.map_cons, List.map_nil, List.cons.injEq, and_true] at h
      exact ⟨c, rfl, h⟩
  rw [dot_self_toCol] at hnorm
  have hn' : ∀ z ∈ misCols (sampleCols x1 x2 labels) biasValue w, normSq z ≠ 0 := by
    intro z hz
    rw [hmis] at hz
    rw [List.mem_singleton.mp hz]
    exact hnorm
  have hcmem : c ∈ misCols (sampleCols x1 x2 labels) biasValue w := by
    rw [hmis]
    exact List.mem_singleton.mpr rfl
  have hc_cs : c ∈ sampleCols x1 x2 labels := List.mem_of_mem_filter hcmem
  have hs : score w c < biasValue := by
    have := (List.mem_filter.mp hcmem).2
    simpa using this
  have hne : (misCols (sampleCols x1 x2 labels) biasValue w).length ≠ 0 := by
    rw [hmis]
    simp
  have hrun : runLoop (relaxationStep (sampleCols x1 x2 labels) learningRate biasValue)
      (sampleCols x1 x2 labels) biasValue 1 0 w
      = (relaxationStep (sampleCols x1 x2 labels) learningRate biasValue w, 1) := by
    show runLoop _ _ _ (0 + 1) 0 w = _
    unfold runLoop
    rw [if_neg hne]
    rfl
  have hstep : score (relaxationStep (sampleCols x1 x2 labels) learningRate biasValue w) c
      = score w c + learningRate * (biasValue - score w c) := by
    simp only [relaxationStep, hmis, List.map_cons, List.map_nil, sum3, List.sum_cons,
      List.sum_nil, relaxTerm, addScaled, score, add_zero]
    have hN : normSq c ≠ 0 := hnorm
    simp only [normSq] at hN ⊢
    field_simp
    ring
  rw [relaxationAlgorithm_one p inputs labels x1 x2 learningRate biasValue w hvalid.1 hv hd hc
    h1 h2 hn', hrun]
  simp only [outcomeOf, getCol_colVec, dot_toCol]
  refine ⟨_, rfl, rfl, hs, hstep, ?_⟩
  intro hpos hlt
  have hlt' : score (relaxationStep (sampleCols x1 x2 labels) learningRate biasValue w) c
      < biasValue := by
    rw [hstep]
    nlinarith
  refine ⟨hlt', ?_⟩
  show (misCols (sampleCols x1 x2 labels) biasValue _).length ≠ 0
  intro h0
  have hmem : c ∈ misCols (sampleCols x1 x2 labels) biasValue
      (relaxationStep (sampleCols x1 x2 labels) learningRate biasValue w) :=
    List.mem_filter.mpr ⟨hc_cs, by simpa using hlt'⟩
  rw [List.length_eq_zero.mp h0] at hmem
  cases hmem

/-- Witness of C17: on the AND-gate data with the weights (2, 2, -15/4) and margin 1/2 only
the column (1, 1, 1) is misclassified; with the default learning rate 1/4 it is still
misclassified after the update. -/
theorem under_relaxation_keeps_lone_violator_witness :
    ∃ loc, (relaxationAlgorithm (perceptronOf 2 2 (-15 / 4)) andInputs andLabels 1 (1 / 4)
        (1 / 2)).result = .ok loc ∧
      loc.iter = 1 ∧
      Matrix.dot
        ((relaxationAlgorithm (perceptronOf 2 2 (-15 / 4)) andInputs andLabels 1 (1 / 4)
          (1 / 2)).perceptron.v.getCol 0) [1, 1, 1] < 1 / 2 ∧
      loc.Y.getColsCount ≠ 0 := by
  obtain ⟨loc, h1, h2, _, _, h5⟩ :=
    under_relaxation_keeps_lone_violator (perceptronOf 2 2 (-15 / 4)) andInputs andLabels
      (ofTriples andCols) (1 / 4) (1 / 2) [1, 1, 1] (validCall_and _ _ _ _ rfl)
      prepareInTemp_and and_lone_violator (by norm_num [Matrix.dot])
  exact ⟨loc, h1, h2, (h5 (by norm_num) (by norm_num)).1, (h5 (by norm_num) (by norm_num)).2⟩

/-- Claim C18.  No internal failure on valid shapes: for every perceptron with 3x1
weights, every 2xM `inputs` and every M labels (M ≥ 1 included), the matrix operations of
`perceptronCriterionAlgorithm` meet their shape preconditions: the construction of
`in_temp` (row appends and the swaps of rows 0,2 and 0,1) and its normalization succeed,
and for any 3x1 weights (so in every iteration) the 1x3 by 3xM product, the column filter
with the length-M mask, the element accesses of `sumof` and the `+=` of two 3x1 matrices
succeed; hence the call returns without raising any error. -/
theorem criterion_never_fails_on_valid_shapes (p : Perceptron) (inputs : Matrix ℚ)
    (labels : List ℚ) (maxIter : Nat) (learningRate : ℚ)
    (hvalid : ValidCall p inputs labels) :
    (∃ T0, buildInTemp inputs labels = .ok T0 ∧ T0.HasShape 3 labels.length) ∧
    (∃ T, prepareInTemp inputs labels = .ok T ∧ T.HasShape 3 labels.length ∧
      ∀ q : Perceptron, q.v.HasShape 3 1 →
        ∃ S mask Y s v,
          q.v.transpose.mul T = .ok S ∧
          (S.lt 0).getRow 0 = .ok mask ∧ mask.length = labels.length ∧
          T.filterCols mask = .ok Y ∧ misclassified q T 0 = .ok Y ∧
          sumof q Y = .ok s ∧ s.HasShape 3 1 ∧
          q.v.addAssign (s.scale learningRate) = .ok v ∧ v.HasShape 3 1) ∧
    ∃ loc, (perceptronCriterionAlgorithm p inputs labels maxIter learningRate).result
      = .ok loc := by
  obtain ⟨w, x1, x2, hv, hd, hc, h1, h2⟩ := validCall_unpack hvalid
  have hlen := sampleCols_length x1 x2 labels h1 h2
  refine ⟨?_, ?_, ?_⟩
  · refine ⟨_, buildInTemp_eq inputs labels x1 x2 hd h1 h2, rfl, rfl, ?_⟩
    intro row hrow
    simp only [List.mem_cons, List.mem_singleton, List.not_mem_nil, or_false] at hrow
    rcases hrow with h | h | h
    · rw [h, h1]
    · rw [h, h2]
    · rw [h]
  · refine ⟨_, prepare_eq inputs labels x1 x2 hd h1 h2, ?_, ?_⟩
    · have := ofTriples_hasShape (sampleCols x1 x2 labels)
      rwa [hlen] at this
    · intro q hq
      obtain ⟨w', hw'⟩ := hasShape_three_one hq
      have hS := scores_ofTriples w' (sampleCols x1 x2 labels)
      have hY := misclassified_ofTriples q w' (sampleCols x1 x2 labels) 0 hw'
      have hsum := sumof_ofTriples q (misCols (sampleCols x1 x2 labels) 0 w')
        (by rw [hw']; rfl)
      have hmask : ((⟨(sampleCols x1 x2 labels).length,
          [(sampleCols x1 x2 labels).map (score w')]⟩ : Matrix ℚ).lt 0).getRow 0
          = .ok ((sampleCols x1 x2 labels).map (fun c => decide (score w' c < 0))) := by
        simp [Matrix.lt, Matrix.getRow]
      refine ⟨_, _, _, _, _, by rw [hw']; exact hS, hmask, ?_, ?_, hY, hsum, colVec_hasShape _,
        by rw [hw']; exact addAssign_scale_colVec _ _ _, colVec_hasShape _⟩
      · simp [hlen]
      · unfold misclassified at hY
        rw [hw', hS, ok_bind] at hY
        simp only [] at hY
        rw [hmask, ok_bind] at hY
        exact hY
  · rw [perceptronCriterionAlgorithm_eq p inputs labels x1 x2 maxIter learningRate w hvalid.1 hv
      hd hc h1 h2]
    exact ⟨_, rfl⟩

/-- Witness of C18 on the AND-gate data. -/
theorem criterion_never_fails_on_valid_shapes_witness :
    ∃ loc, (perceptronCriterionAlgorithm (perceptronOf 1 (-1) (1 / 2)) andInputs andLabels 1000
      (1 / 4)).result = .ok loc :=
  (criterion_never_fails_on_valid_shapes (perceptronOf 1 (-1) (1 / 2)) andInputs andLabels
    1000 (1 / 4) (validCall_and _ _ _ _ rfl)).2.2

/-- Claim C19.  Batch updates are independent of the sample order (exact arithmetic): for
a call with valid shapes and every permutation `idx` of the M sample indices, running
`perceptronCriterionAlgorithm` on the inputs with columns permuted by `idx` and the labels
permuted by the same `idx` returns, after the same number of updates, with the same final
weight vector as on the original data, for all weights, `maxIter` and `learningRate`. -/
theorem batch_update_ignores_sample_order (p : Perceptron) (inputs : Matrix ℚ)
    (labels : List ℚ) (idx : List Nat) (maxIter : Nat) (learningRate : ℚ)
    (hvalid : ValidCall p inputs labels) (hperm : idx.Perm (List.range labels.length)) :
    ValidCall p (permuteCols idx inputs) (permuteList idx labels) ∧
    (perceptronCriterionAlgorithm p (permuteCols idx inputs) (permuteList idx labels) maxIter
        learningRate).perceptron.v
      = (perceptronCriterionAlgorithm p inputs labels maxIter learningRate).perceptron.v ∧
    ∃ loc loc',
      (perceptronCriterionAlgorithm p inputs labels maxIter learningRate).result = .ok loc ∧
      (perceptronCriterionAlgorithm p (permuteCols idx inputs) (permuteList idx labels) maxIter
        learningRate).result = .ok loc' ∧
      loc'.iter = loc.iter := by
  obtain ⟨w, x1, x2, hv, hd, hc, h1, h2⟩ := validCall_unpack hvalid
  have hlen : idx.length = labels.length := by
    rw [hperm.length_eq, List.length_range]
  have hd' : (permuteCols idx inputs).data = [permuteList idx x1, permuteList idx x2] := by
    simp [permuteCols, hd]
  have hl' : (permuteList idx labels).length = idx.length := by simp [permuteList]
  have g1 : (permuteList idx x1).length = (permuteList idx labels).length := by
    simp [permuteList]
  have g2 : (permuteList idx x2).length = (permuteList idx labels).length := by
    simp [permuteList]
  have hc' : (permuteCols idx inputs).cols_ = (permuteList idx labels).length := by
    rw [hl']
    rfl
  have hvalid' : ValidCall p (permuteCols idx inputs) (permuteList idx labels) := by
    refine ⟨hvalid.1, hvalid.2.1, ?_, hc', ?_⟩
    · rw [hd']
      rfl
    · intro row hrow
      rw [hd'] at hrow
      simp only [List.mem_cons, List.mem_singleton, List.not_mem_nil, or_false] at hrow
      rcases hrow with h | h
      · rw [h, g1]
      · rw [h, g2]
  have hcs : (sampleCols (permuteList idx x1) (permuteList idx x2)
      (permuteList idx labels)).Perm (sampleCols x1 x2 labels) := by
    rw [sampleCols_permute, sampleCols_eq_map_range x1 x2 labels h1 h2]
    exact hperm.map _
  rw [perceptronCriterionAlgorithm_eq p inputs labels x1 x2 maxIter learningRate w hvalid.1 hv
      hd hc h1 h2,
    perceptronCriterionAlgorithm_eq p (permuteCols idx inputs) (permuteList idx labels) _ _
      maxIter learningRate w hvalid.1 hv hd' hc' g1 g2,
    runLoop_perm hcs learningRate maxIter 0 w]
  exact ⟨hvalid', rfl, _, _, rfl, rfl, rfl⟩

/-- Witness of C19: the AND-gate samples in the order 3, 1, 0, 2. -/
theorem batch_update_ignores_sample_order_witness :
    (perceptronCriterionAlgorithm (perceptronOf 1 (-1) (1 / 2))
        (permuteCols [3, 1, 0, 2] andInputs) (permuteList [3, 1, 0, 2] andLabels) 1000
        (1 / 4)).perceptron.v
      = (perceptronCriterionAlgorithm (perceptronOf 1 (-1) (1 / 2)) andInputs andLabels 1000
        (1 / 4)).perceptron.v :=
  (batch_update_ignores_sample_order (perceptronOf 1 (-1) (1 / 2)) andInputs andLabels
    [3, 1, 0, 2] 1000 (1 / 4) (validCall_and _ _ _ _ rfl) (by decide)).2.1

end Percepton
